import Mathlib

/-!
# PatchMatch plug-in: a shallow embedding of `PatchMatchPlugin.cpp`

The C++ works on `float`/`double` buffers.  The properties studied here are the
exact-arithmetic ones, so every floating-point quantity is a rational number
(`ℚ`); C++ `int`s are `Int` (image coordinates stay far from the 32-bit range).
Cooperative cancellation (`abort()`) is taken to be `false` throughout.

A `for` loop over a fixed integer range is a recursion over the list of the
values its index takes; an early `return` out of a loop is the `none` of an
`Option`.
-/

namespace PatchMatch

/-! ## Data model -/

/-- Modelled from the spec: the class `SimpleImage` is declared in
`PatchMatchPlugin.h`, which is absent; the spec describes it as a dense
row-major float array with a width, a height and a channel count.  The buffer
is a function from the element offset to its (exact) value. -/
structure SimpleImage where
  width : Int
  height : Int
  components : Int
  data : Int → ℚ

/-- Modelled from the spec: `SimpleImage::valid` (declared in the absent header)
tells whether `(x, y)` lies inside `[0,width) × [0,height)`. -/
def SimpleImage.valid (img : SimpleImage) (x y : Int) : Bool :=
  decide (0 ≤ x) && decide (x < img.width) && decide (0 ≤ y) && decide (y < img.height)

/-- Modelled from the spec: `SimpleImage::pix` (declared in the absent header)
points at the first channel of pixel `(x, y)` of the row-major buffer, as
`render` itself computes it at line 88; `img.pix x y c` is the value read
through that pointer advanced by `c`. -/
def SimpleImage.pix (img : SimpleImage) (x y : Int) (c : Int) : ℚ :=
  img.data ((y * img.width + x) * img.components + c)

/-- The three floats `best[0]`, `best[1]`, `best[2]` of a candidate slot. -/
structure Best where
  dx : ℚ
  dy : ℚ
  cost : ℚ
deriving DecidableEq

/-- The values taken by the index of `for (int i = lo; i < hi; i++)`. -/
def intRange (lo hi : Int) : List Int :=
  (List.range (hi - lo).toNat).map (fun (i : Nat) => lo + (i : Int))

/-! ## `score` (lines 322-372) -/

/-- Lines 345-347 of `score`: the running total after one channel whose source
value is `s` and target value `t`. -/
def addDiff (total s t : ℚ) : ℚ :=
  if t - s < 0 then total - (t - s) else total + (t - s)

/-- The channel loop of `score` (lines 344-351) from a given running `total`;
`none` is the early `return` of line 349. -/
def channelLoop (pixSrc pixTrg : Int → ℚ) (bestCost : ℚ) : List Int → ℚ → Option ℚ
  | [], total => some total
  | c :: cs, total =>
    if 0 ≤ bestCost ∧ bestCost < addDiff total (pixSrc c) (pixTrg c) then none
    else channelLoop pixSrc pixTrg bestCost cs (addDiff total (pixSrc c) (pixTrg c))

/-- The two window loops of `score` (lines 332-354) flattened into the list of
`(xOff, yOff)` in the order visited: `yOff` outermost. -/
def windowOffsets (pOff : Int) : List (Int × Int) :=
  (intRange (-pOff) (pOff + 1)).flatMap
    (fun yOff => (intRange (-pOff) (pOff + 1)).map (fun xOff => (xOff, yOff)))

/-- The body of the window loops of `score` (lines 334-352) over the offsets yet
to visit, from a running `(total, count)`; `none` is the early `return`. -/
def patchLoop (xSrc ySrc xTrg yTrg : Int) (imgSrc imgTrg : SimpleImage) (components : Int)
    (bestCost : ℚ) : List (Int × Int) → ℚ × Int → Option (ℚ × Int)
  | [], acc => some acc
  | (xOff, yOff) :: rest, (total, count) =>
    let xxTrg := xTrg + xOff
    let yyTrg := yTrg + yOff
    let xxSrc := xSrc + xOff
    let yySrc := ySrc + yOff
    if !imgSrc.valid xxSrc yySrc || !imgTrg.valid xxTrg yyTrg then
      patchLoop xSrc ySrc xTrg yTrg imgSrc imgTrg components bestCost rest (total, count)
    else
      match channelLoop (imgSrc.pix xxSrc yySrc) (imgTrg.pix xxTrg yyTrg) bestCost
          (intRange 0 components) total with
      | none => none
      | some total =>
        patchLoop xSrc ySrc xTrg yTrg imgSrc imgTrg components bestCost rest (total, count + 1)

/-- Lines 355-358 of `score`: the total scaled by `maxCount / double(count)` when
fewer than `maxCount` pixel pairs contributed.  The result is `none` in the one
case exact arithmetic cannot express: `count == 0 < maxCount`, where the factor
is `maxCount / 0.0`. -/
def normalize (total : ℚ) (count maxCount : Int) : Option ℚ :=
  if count < maxCount then
    if count = 0 then none else some (total * ((maxCount : ℚ) / (count : ℚ)))
  else some total

/-- The exponent of the unit in the last place of the `float` nearest to the
whole number `a`: the number of halvings that bring `a` below `2^24`.  The first
argument bounds the number of halvings. -/
def floatExponent : Nat → Nat → Nat
  | 0, _ => 0
  | fuel + 1, a => if a < 2 ^ 24 then 0 else floatExponent fuel (a / 2) + 1

/-- The conversion of an `int` to `float` (IEEE single precision: 24 significant
bits, round to nearest, ties to even).  Line 365 of `score` compares an `int`
with a `float`, so the `int` is converted first; below `2^24` in absolute value
the conversion is exact. -/
def intToFloat (n : Int) : ℚ :=
  if n.natAbs < 2 ^ 24 then (n : ℚ)
  else
    let e := floatExponent n.natAbs n.natAbs
    let q := n.natAbs / 2 ^ e
    let r := n.natAbs % 2 ^ e
    let q' := if 2 ^ e < 2 * r ∨ (2 * r = 2 ^ e ∧ q % 2 = 1) then q + 1 else q
    (n.sign : ℚ) * ((q' * 2 ^ e : Nat) : ℚ)

/-- Lines 359-371 of `score`: the tests on the normalized `total` and the
assignment to `best`.  At line 365 the `int` on the left is converted to
`float` for the comparison. -/
def accept (xSrc ySrc xTrg yTrg : Int) (total : ℚ) (best : Best) : Best :=
  if 0 ≤ best.cost ∧ best.cost < total then best
  else
    let vectX := xSrc - xTrg
    let vectY := ySrc - yTrg
    if 0 ≤ best.cost ∧ total = best.cost
        ∧ best.dx * best.dx + best.dy * best.dy < intToFloat (vectX * vectX + vectY * vectY)
    then best
    else ⟨(vectX : ℚ), (vectY : ℚ), total⟩

/-- The function `PatchMatchPlugin::score`: the slot `best` after the call, or
`none` when the normalized total is not a number (see `normalize`). -/
def score (xSrc ySrc xTrg yTrg : Int) (imgSrc imgTrg : SimpleImage) (patchSize : Int)
    (best : Best) : Option Best :=
  if !imgSrc.valid xSrc ySrc then some best
  else
    let components := min imgSrc.components imgTrg.components
    let pOff := (patchSize - 1) >>> (1 : Nat)
    match patchLoop xSrc ySrc xTrg yTrg imgSrc imgTrg components best.cost
        (windowOffsets pOff) (0, 0) with
    | none => some best
    | some (total, count) =>
      match normalize total count (patchSize * patchSize) with
      | none => none
      | some total => some (accept xSrc ySrc xTrg yTrg total best)

/-! ### `score` without the early return -/

/-- The channel loop of `score` with the test of line 348 removed. -/
def channelSum (pixSrc pixTrg : Int → ℚ) : List Int → ℚ → ℚ
  | [], total => total
  | c :: cs, total => channelSum pixSrc pixTrg cs (addDiff total (pixSrc c) (pixTrg c))

/-- The window loops of `score` with the test of line 348 removed. -/
def patchSum (xSrc ySrc xTrg yTrg : Int) (imgSrc imgTrg : SimpleImage) (components : Int) :
    List (Int × Int) → ℚ × Int → ℚ × Int
  | [], acc => acc
  | (xOff, yOff) :: rest, (total, count) =>
    if !imgSrc.valid (xSrc + xOff) (ySrc + yOff) || !imgTrg.valid (xTrg + xOff) (yTrg + yOff) then
      patchSum xSrc ySrc xTrg yTrg imgSrc imgTrg components rest (total, count)
    else
      patchSum xSrc ySrc xTrg yTrg imgSrc imgTrg components rest
        (channelSum (imgSrc.pix (xSrc + xOff) (ySrc + yOff)) (imgTrg.pix (xTrg + xOff) (yTrg + yOff))
          (intRange 0 components) total, count + 1)

/-- The normalized cost of a candidate: lines 328-358 of `score` run to the end
without the early return; `none` when no pixel pair contributed and the
normalization divides by zero. -/
def candidateCost (xSrc ySrc xTrg yTrg : Int) (imgSrc imgTrg : SimpleImage) (patchSize : Int) :
    Option ℚ :=
  let acc := patchSum xSrc ySrc xTrg yTrg imgSrc imgTrg (min imgSrc.components imgTrg.components)
    (windowOffsets ((patchSize - 1) >>> (1 : Nat))) (0, 0)
  normalize acc.1 acc.2 (patchSize * patchSize)

/-- The slot `score` installs when it accepts the candidate (lines 369-371). -/
def candidateSlot (xSrc ySrc xTrg yTrg : Int) (cost : ℚ) : Best :=
  ⟨((xSrc - xTrg : Int) : ℚ), ((ySrc - yTrg : Int) : ℚ), cost⟩

/-- The squared displacement of the candidate, the `int` on the left side of
line 365. -/
def candidateSq (xSrc ySrc xTrg yTrg : Int) : ℚ :=
  (((xSrc - xTrg) * (xSrc - xTrg) + (ySrc - yTrg) * (ySrc - yTrg) : Int) : ℚ)

/-- The left side of line 365 as it is compared: the squared displacement of the
candidate converted to `float`. -/
def candidateSqFloat (xSrc ySrc xTrg yTrg : Int) : ℚ :=
  intToFloat ((xSrc - xTrg) * (xSrc - xTrg) + (ySrc - yTrg) * (ySrc - yTrg))

/-- The squared displacement of the slot, the right side of line 365. -/
def Best.sq (best : Best) : ℚ := best.dx * best.dx + best.dy * best.dy

/-- A sequence of `score` calls on one slot: each call is
`(xSrc, ySrc, xTrg, yTrg)`, and the slot left by a call is the slot the next
call receives. -/
def scoreSeq (imgSrc imgTrg : SimpleImage) (patchSize : Int) :
    List (Int × Int × Int × Int) → Best → Option Best
  | [], best => some best
  | (xSrc, ySrc, xTrg, yTrg) :: rest, best =>
    match score xSrc ySrc xTrg yTrg imgSrc imgTrg patchSize best with
    | none => none
    | some best => scoreSeq imgSrc imgTrg patchSize rest best

/-! ### The cost of a candidate in the spec's words -/

/-- The window offsets `[-h, h]²` with `h = (patchSize - 1) / 2` whose source and
target pixels are both in bounds. -/
def windowSpec (xSrc ySrc xTrg yTrg : Int) (imgSrc imgTrg : SimpleImage) (patchSize : Int) :
    Finset (Int × Int) :=
  (Finset.Icc (-((patchSize - 1) / 2)) ((patchSize - 1) / 2)
      ×ˢ Finset.Icc (-((patchSize - 1) / 2)) ((patchSize - 1) / 2)).filter
    (fun o => imgSrc.valid (xSrc + o.1) (ySrc + o.2) = true
      ∧ imgTrg.valid (xTrg + o.1) (yTrg + o.2) = true)

/-- The sum of absolute channel differences over the first
`min(source channels, target channels)` channels of the offsets of `windowSpec`. -/
def sadSpec (xSrc ySrc xTrg yTrg : Int) (imgSrc imgTrg : SimpleImage) (patchSize : Int) : ℚ :=
  ∑ o in windowSpec xSrc ySrc xTrg yTrg imgSrc imgTrg patchSize,
    ∑ c in Finset.range (min imgSrc.components imgTrg.components).toNat,
      |imgTrg.pix (xTrg + o.1) (yTrg + o.2) (c : Int) - imgSrc.pix (xSrc + o.1) (ySrc + o.2) (c : Int)|

/-- The cost in the spec's words: the sum of absolute differences, multiplied by
`patchSize² / count` when the number `count` of contributing offsets is below
`patchSize²`. -/
def costSpec (xSrc ySrc xTrg yTrg : Int) (imgSrc imgTrg : SimpleImage) (patchSize : Int) : ℚ :=
  if ((windowSpec xSrc ySrc xTrg yTrg imgSrc imgTrg patchSize).card : ℚ) < (patchSize : ℚ) ^ 2 then
    sadSpec xSrc ySrc xTrg yTrg imgSrc imgTrg patchSize
      * ((patchSize : ℚ) ^ 2 / ((windowSpec xSrc ySrc xTrg yTrg imgSrc imgTrg patchSize).card : ℚ))
  else sadSpec xSrc ySrc xTrg yTrg imgSrc imgTrg patchSize

/-! ## `resample` (lines 147-226) -/

/-- The C function `round`: to the nearest integer, halves away from zero. -/
def cRound (q : ℚ) : Int := if 0 ≤ q then ⌊q + 1 / 2⌋ else ⌈q - 1 / 2⌉

/-- Lines 192-193 (rows) and 197-198 (columns) of `resample`: the weight `w`
after the edge tests for the input index `s` of the range `[i1, i2)`; a C
`double` used as a condition is true when it is not zero. -/
def edgeWeight (w frac1 frac2 : ℚ) (i1 i2 s : Int) : ℚ :=
  if frac1 ≠ 0 ∧ s = i1 then w * frac1
  else if frac2 ≠ 0 ∧ s = i2 - 1 then w * frac2
  else w

/-- Lines 177-188 of `resample` along one axis, for the output index `x` and the
input extent `size`: `(sampleX1f, sampleX2f, sampleX1i, sampleX2i, fracX1, fracX2)`. -/
def axisSample (size : Int) (sampleSize : ℚ) (x : Int) : ℚ × ℚ × Int × Int × ℚ × ℚ :=
  let sample1f := (x : ℚ) * sampleSize
  let sample2f := min (size : ℚ) (((x : ℚ) + 1) * sampleSize)
  let sample1i := ⌊sample1f⌋
  let sample2i := ⌈sample2f⌉
  (sample1f, sample2f, sample1i, sample2i, sample1f - (sample1i : ℚ), (sample2i : ℚ) - sample2f)

/-- Lines 189-203 of `resample`: `totals[c]` after the accumulation loops for the
output pixel `(x, y)`. -/
def resampleTotal (image : SimpleImage) (scale : ℚ) (x y c : Int) : ℚ :=
  let sampleSize := 1 / scale
  let (_, _, sampleX1i, sampleX2i, fracX1, fracX2) := axisSample image.width sampleSize x
  let (_, _, sampleY1i, sampleY2i, fracY1, fracY2) := axisSample image.height sampleSize y
  (intRange sampleY1i sampleY2i).foldl
    (fun total sy =>
      let rowWeight := edgeWeight 1 fracY1 fracY2 sampleY1i sampleY2i sy
      (intRange sampleX1i sampleX2i).foldl
        (fun total sx =>
          let weight := edgeWeight rowWeight fracX1 fracX2 sampleX1i sampleX2i sx
          total + image.data ((sy * image.width + sx) * image.components + c) * weight)
        total)
    0

/-- The sum of the weights `resample` applies in the accumulation loops of lines
190-203 for the output pixel `(x, y)`. -/
def appliedWeight (image : SimpleImage) (scale : ℚ) (x y : Int) : ℚ :=
  let sampleSize := 1 / scale
  let (_, _, sampleX1i, sampleX2i, fracX1, fracX2) := axisSample image.width sampleSize x
  let (_, _, sampleY1i, sampleY2i, fracY1, fracY2) := axisSample image.height sampleSize y
  (intRange sampleY1i sampleY2i).foldl
    (fun total sy =>
      let rowWeight := edgeWeight 1 fracY1 fracY2 sampleY1i sampleY2i sy
      (intRange sampleX1i sampleX2i).foldl
        (fun total sx => total + edgeWeight rowWeight fracX1 fracX2 sampleX1i sampleX2i sx)
        total)
    0

/-- Lines 204-214 of `resample`: `totalWeight` for the output pixel `(x, y)`. -/
def resampleTotalWeight (image : SimpleImage) (scale : ℚ) (x y : Int) : ℚ :=
  let sampleSize := 1 / scale
  let (sampleX1f, sampleX2f, _, _, fracX1, fracX2) := axisSample image.width sampleSize x
  let (sampleY1f, sampleY2f, _, _, fracY1, fracY2) := axisSample image.height sampleSize y
  let sampWidthWholes : Int := ⌊sampleX2f⌋ - ⌈sampleX1f⌉
  let sampHeightWholes : Int := ⌊sampleY2f⌋ - ⌈sampleY1f⌉
  ((sampWidthWholes * sampHeightWholes : Int) : ℚ)
    + (sampHeightWholes : ℚ) * (fracX1 + fracX2)
    + (sampWidthWholes : ℚ) * (fracY1 + fracY2)
    + fracX1 * fracY1
    + fracX1 * fracY2
    + fracX2 * fracY1
    + fracX2 * fracY2

/-- Line 216 of `resample`: the value written to channel `c` of the output pixel
`(x, y)`. -/
def resamplePixel (image : SimpleImage) (scale : ℚ) (x y c : Int) : ℚ :=
  resampleTotal image scale x y c / resampleTotalWeight image scale x y

/-- The function `PatchMatchPlugin::resample`, without cancellation.  The host
image is read as the row-major buffer `resample` itself assumes (line 194); the
output buffer is written in raster order (line 215), so its element at offset
`i` is channel `i % components` of pixel `i / components`. -/
def resample (image : SimpleImage) (scale : ℚ) : SimpleImage :=
  if scale = 1 then ⟨image.width, image.height, image.components, image.data⟩
  else
    let width := max 1 (cRound ((image.width : ℚ) * scale))
    let height := max 1 (cRound ((image.height : ℚ) * scale))
    ⟨width, height, image.components,
      fun i => resamplePixel image scale ((i / image.components) % width)
        ((i / image.components) / width) (i % image.components)⟩

/-! ### The area average in the spec's words -/

/-- The length of the intersection of the input pixel `[s, s+1)` with `[a, b)`. -/
def overlap (a b : ℚ) (s : Int) : ℚ := max 0 (min b ((s : ℚ) + 1) - max a (s : ℚ))

/-- The exact area-weighted average of channel `c` of the input over the
rectangle `[x/scale, min(width,(x+1)/scale)) × [y/scale, min(height,(y+1)/scale))`:
each input pixel weighted by the area of its intersection with the rectangle,
the sum divided by the rectangle's area. -/
def areaAverageSpec (image : SimpleImage) (scale : ℚ) (x y c : Int) : ℚ :=
  let x1 := (x : ℚ) / scale
  let x2 := min (image.width : ℚ) (((x : ℚ) + 1) / scale)
  let y1 := (y : ℚ) / scale
  let y2 := min (image.height : ℚ) (((y : ℚ) + 1) / scale)
  (∑ sy in Finset.range image.height.toNat, ∑ sx in Finset.range image.width.toNat,
      image.pix (sx : Int) (sy : Int) c * (overlap x1 x2 (sx : Int) * overlap y1 y2 (sy : Int)))
    / ((x2 - x1) * (y2 - y1))

/-! ## `calculateNumLevelsAtTime` (lines 129-145) -/

/-- The expression `int(std::log2(q))` in exact arithmetic: the base-2 logarithm
truncated toward zero.  For `q ≥ 1` this is the largest `n` with `2^n ≤ q`, which
is the largest `n` with `2^n ≤ ⌊q⌋`; for `0 < q < 1` it is minus the same
quantity for `1/q`; for `q ≤ 0` the logarithm is not a number and the result is
`none`. -/
def truncLog2 (q : ℚ) : Option Int :=
  if q ≤ 0 then none
  else if 1 ≤ q then some (Nat.log 2 ⌊q⌋.toNat : Int)
  else some (-(Nat.log 2 ⌊1 / q⌋.toNat : Int))

/-- The function `PatchMatchPlugin::calculateNumLevelsAtTime` on the widths and
heights of the two clips' regions of definition and the patch size (the calls
to `setDisplayRange` only touch the host's user interface).  `boundsWidth` and
`boundsHeight` are declared in a header that is absent and the host gives a
clip's region of definition in `double`s, so the four extents are rationals,
whole numbers included. -/
def calculateNumLevelsAtTime (widthA heightA widthB heightB : ℚ) (patchSize : Int) : Option Int :=
  let minDim := min (min widthA widthB) (min heightA heightB)
  if minDim ≤ (patchSize : ℚ) then some 1
  else
    match truncLog2 (minDim / (patchSize : ℚ)) with
    | none => none
    | some l => some (l + 1)

/-! ## The level loop of `render` (lines 35-69) -/

/-- Line 46 of `render`: `scale` after `for (l = numLevels; l > startLevel; l--)
{scale *= 0.5;}`, the index running down over `numLevels, ..., startLevel + 1`. -/
def initialScale (numLevels startLevel : Int) : ℚ :=
  (intRange (startLevel + 1) (numLevels + 1)).reverse.foldl (fun scale _ => scale * (1 / 2)) 1

/-- The level loop of line 48 over the levels yet to process: the `(level, scale)`
at which `resample` is called (lines 50 and 52), `scale` being doubled by the
loop's increment.  Nothing in the loop's body writes to `level` or `scale`. -/
def levelLoop : List Int → ℚ → List (Int × ℚ)
  | [], _ => []
  | level :: rest, scale => (level, scale) :: levelLoop rest (scale * 2)

/-- Lines 36-48 of `render`, without cancellation: the levels processed, in
order, each with the scale passed to `resample`. -/
def renderSchedule (numLevels startLevelParam endLevelParam : Int) : List (Int × ℚ) :=
  let startLevel := max 1 (min numLevels startLevelParam)
  let endLevel := max 1 (min numLevels endLevelParam)
  levelLoop (intRange startLevel (endLevel + 1)) (initialScale numLevels startLevel)

/-- The conversion of a `double` to `int`: truncation toward zero. -/
def cTrunc (q : ℚ) : Int := if 0 ≤ q then ⌊q⌋ else ⌈q⌉

/-- The loop of line 61 of `render`, `for (int i = 0; i < iterations; i++)`, from
the index `i`: the `(i, len)` passed to `propagateAndSearch` at line 66.  The
first argument bounds the number of rounds. -/
def sweepLoop (level endLevel : Int) (iterations : ℚ) (iterationLength : Int) :
    Nat → Int → List (Int × Int)
  | 0, _ => []
  | fuel + 1, i =>
    if (i : ℚ) < iterations then
      (i, if level = endLevel ∧ iterations < ((i + 1 : Int) : ℚ) then iterationLength else 0)
        :: sweepLoop level endLevel iterations iterationLength fuel (i + 1)
    else []

/-- Lines 60-68 of `render`, without cancellation, at the level `level` whose
target image is `width x height`: the `(iterationNum, length)` of the successive
calls of `propagateAndSearch`.  The loop runs `⌈iterations⌉` rounds. -/
def renderSweeps (level endLevel : Int) (iterations : ℚ) (width height : Int) :
    List (Int × Int) :=
  let iterationLength := cTrunc ((iterations - (⌊iterations⌋ : ℚ)) * (width : ℚ) * (height : ℚ))
  sweepLoop level endLevel iterations iterationLength ⌈iterations⌉.toNat 0

/-! ## The scan of `propagateAndSearch` (lines 277-293) -/

/-- The two loops of lines 280-282 of `propagateAndSearch` flattened into the
list of `(xi, yi)` in the order visited: `yi` outermost. -/
def rasterOrder (width height : Int) : List (Int × Int) :=
  (intRange 0 height).flatMap (fun yi => (intRange 0 width).map (fun xi => (xi, yi)))

/-- The scan of `propagateAndSearch` over the `(xi, yi)` yet to come, from the
running `count`: the pixels `(x, y)` visited, in order.  The scan ends at the
`return` of line 283. -/
def visitLoop (width height dir length : Int) : List (Int × Int) → Int → List (Int × Int)
  | [], _ => []
  | (xi, yi) :: rest, count =>
    if length ≠ 0 ∧ count = length then []
    else
      (if dir < 0 then (width - 1 - xi, height - 1 - yi) else (xi, yi))
        :: visitLoop width height dir length rest (count + 1)

/-- The pixels visited by one call of `propagateAndSearch`, without cancellation,
on a field of size `width x height`. -/
def sweepVisits (width height iterationNum length : Int) : List (Int × Int) :=
  let dir : Int := if iterationNum % 2 ≠ 0 then -1 else 1
  visitLoop width height dir length (rasterOrder width height) 0

/-! ## Further definitions for `resample` and `score` -/

/-- Rounding to the nearest integer with halves away from zero, in the spec's
words: the magnitude is rounded with halves up and the sign is put back. -/
def roundHalfAwaySpec (q : ℚ) : Int := if 0 ≤ q then ⌊|q| + 1 / 2⌋ else -⌊|q| + 1 / 2⌋

/-- The function `score` with the early `return` of lines 348-350 removed: full
accumulation, normalization, then the acceptance tests. -/
def scoreUnpruned (xSrc ySrc xTrg yTrg : Int) (imgSrc imgTrg : SimpleImage) (patchSize : Int)
    (best : Best) : Option Best :=
  if !imgSrc.valid xSrc ySrc then some best
  else
    let components := min imgSrc.components imgTrg.components
    let pOff := (patchSize - 1) >>> (1 : Nat)
    match patchSum xSrc ySrc xTrg yTrg imgSrc imgTrg components (windowOffsets pOff) (0, 0) with
    | (total, count) =>
      match normalize total count (patchSize * patchSize) with
      | none => none
      | some total => some (accept xSrc ySrc xTrg yTrg total best)

/-! ## The write-out of `render` (lines 76-99) -/

/-- The destination image of the host with one value replaced: `dst x y c` is
channel `c` of the pixel the host addresses as `(x, y)`. -/
def setChannel (dst : Int → Int → Int → ℚ) (x y c : Int) (v : ℚ) : Int → Int → Int → ℚ :=
  fun x' y' c' => if x' = x ∧ y' = y ∧ c' = c then v else dst x' y' c'

/-- The channel loop of lines 89-97 for the destination pixel `(x, y)` over the
channels yet to write, from the running pointer `outPix` into the field. -/
def writeChannels (field : SimpleImage) (x y : Int) :
    List Int → (Int → Int → Int → ℚ) × Int → (Int → Int → Int → ℚ)
  | [], (dst, _) => dst
  | c :: cs, (dst, outPix) =>
    if c < field.components then
      writeChannels field x y cs (setChannel dst x y c (field.data outPix), outPix + 1)
    else writeChannels field x y cs (setChannel dst x y c 0, outPix)

/-- The loop of lines 80-98 over the `x` yet to visit in the row `y` of the render
window; `(rodX1, rodY1)` is the corner of the destination's region of
definition. -/
def writeRow (field : SimpleImage) (rodX1 rodY1 dstComponents y : Int) :
    List Int → (Int → Int → Int → ℚ) → (Int → Int → Int → ℚ)
  | [], dst => dst
  | x :: xs, dst =>
    let inX := x - rodX1
    let inY := y - rodY1
    if inX < 0 ∨ field.width ≤ inX ∨ inY < 0 ∨ field.height ≤ inY then
      writeRow field rodX1 rodY1 dstComponents y xs dst
    else
      writeRow field rodX1 rodY1 dstComponents y xs
        (writeChannels field x y (intRange 0 dstComponents)
          (dst, (inY * field.width + inX) * field.components))

/-- Lines 76-99 of `render`, without cancellation: the destination image after
the write-out of the field over the render window `[x1, x2) × [y1, y2)`. -/
def writeOut (field : SimpleImage) (rodX1 rodY1 dstComponents x1 y1 x2 y2 : Int)
    (dst : Int → Int → Int → ℚ) : Int → Int → Int → ℚ :=
  (intRange y1 y2).foldl
    (fun dst y => writeRow field rodX1 rodY1 dstComponents y (intRange x1 x2) dst) dst

/-- A 1x1 field holding the slot `(0, 0, 0)`. -/
def zeroField1x1 : SimpleImage := ⟨1, 1, 3, fun _ => 0⟩

/-! ### The box mean in the claim's words -/

/-- The C operator `%` on `int`s: the remainder of the division truncated toward
zero; `none` when the divisor is zero, where C has no result. -/
def cMod (a b : Int) : Option Int := if b = 0 then none else some (a.tmod b)

/-- The three floats at the pointer `off` into a buffer, read as a slot. -/
def readBest (data : Int → ℚ) (off : Int) : Best := ⟨data off, data (off + 1), data (off + 2)⟩

/-- The buffer after the three floats at the pointer `off` are set to a slot. -/
def writeBest (data : Int → ℚ) (off : Int) (b : Best) : Int → ℚ :=
  fun i => if i = off then b.dx else if i = off + 1 then b.dy else if i = off + 2 then b.cost
    else data i

/-! ## `initialiseLevel` (lines 228-271) -/

/-- Lines 258 and 265 of `initialiseLevel`: whether the walk over the previous
field moves on after the fine index `x`, at the walk position `p` along an axis
of `prevSize` cells. -/
def walkAdvances (x prevStep p prevSize : Int) : Option Bool :=
  match cMod x prevStep with
  | none => none
  | some r => some (decide (r ≠ 0 ∧ p < prevSize))

/-- The walk of `initialiseLevel` along one axis over the fine indices yet to
come, from the walk position `p`: the previous-field index consulted at each
fine index. -/
def consultedIndices (prevStep prevSize : Int) : List Int → Int → Option (List Int)
  | [], _ => some []
  | x :: xs, p =>
    match walkAdvances x prevStep p prevSize with
    | none => none
    | some adv =>
      match consultedIndices prevStep prevSize xs (if adv then p + 1 else p) with
      | none => none
      | some rest => some (p :: rest)

/-- The previous-field columns consulted along a row of `width` fine pixels over
a previous field of `prevWidth` columns (lines 237, 246 and 258-261); the rows
are walked the same way (lines 238, 240 and 265-268). -/
def consultedColumns (width prevWidth : Int) : Option (List Int) :=
  consultedIndices (cRound ((width : ℚ) / (prevWidth : ℚ))) prevWidth (intRange 0 width) 0

/-- Lines 247-257 of `initialiseLevel`: the slot of the fine pixel `(x, y)` after
the random candidate and, with a previous field, the candidate read at the
pointer `prevCell` into it.  `rand n` is the value of the `n`-th call of
`rand()`; the slot holds whole numbers, so `x + dataPix[0]` converts back to the
`int` it came from. -/
def initPixel (rand : Nat → Int) (imgSrc imgTrg : SimpleImage) (imgPrev : Option SimpleImage)
    (patchSize x y : Int) (n : Nat) (prevCell : Int) : Option Best :=
  match cMod (rand n) imgSrc.width with
  | none => none
  | some r0 =>
    match cMod (rand (n + 1)) imgSrc.height with
    | none => none
    | some r1 =>
      match score (cTrunc ((x : ℚ) + ((r0 - x : Int) : ℚ))) (cTrunc ((y : ℚ) + ((r1 - y : Int) : ℚ)))
          x y imgSrc imgTrg patchSize ⟨((r0 - x : Int) : ℚ), ((r1 - y : Int) : ℚ), -1⟩ with
      | none => none
      | some b1 =>
        match imgPrev with
        | none => some b1
        | some prev =>
          score (cTrunc ((x : ℚ) + prev.data prevCell)) (cTrunc ((y : ℚ) + prev.data (prevCell + 1)))
            x y imgSrc imgTrg patchSize b1

/-- The loop of line 246 of `initialiseLevel` over the `x` yet to visit in the row
`y`; the state is the buffer of the new field, the pointer `dataPix` into it,
the number of `rand()` calls made, `pX` and the pointer `prevCell`. -/
def initRow (rand : Nat → Int) (imgSrc imgTrg : SimpleImage) (imgPrev : Option SimpleImage)
    (patchSize prevStepX y : Int) :
    List Int → (Int → ℚ) × Int × Nat × Int × Int → Option ((Int → ℚ) × Int × Nat × Int × Int)
  | [], st => some st
  | x :: xs, (data, dataPix, n, pX, prevCell) =>
    match initPixel rand imgSrc imgTrg imgPrev patchSize x y n prevCell with
    | none => none
    | some b =>
      match imgPrev with
      | none =>
        initRow rand imgSrc imgTrg imgPrev patchSize prevStepX y xs
          (writeBest data dataPix b, dataPix + 3, n + 2, pX, prevCell)
      | some prev =>
        match walkAdvances x prevStepX pX prev.width with
        | none => none
        | some adv =>
          initRow rand imgSrc imgTrg imgPrev patchSize prevStepX y xs
            (writeBest data dataPix b, dataPix + 3, n + 2, (if adv then pX + 1 else pX),
              (if adv then prevCell + prev.components else prevCell))

/-- The loop of line 240 of `initialiseLevel` over the rows yet to visit; the
state is the buffer of the new field, `dataPix`, the number of `rand()` calls
made, `pY` and the pointer `prevRow`. -/
def initRows (rand : Nat → Int) (imgSrc imgTrg : SimpleImage) (imgPrev : Option SimpleImage)
    (patchSize prevStepX prevStepY width : Int) :
    List Int → (Int → ℚ) × Int × Nat × Int × Int → Option ((Int → ℚ) × Int × Nat × Int × Int)
  | [], st => some st
  | y :: ys, (data, dataPix, n, pY, prevRow) =>
    match initRow rand imgSrc imgTrg imgPrev patchSize prevStepX y (intRange 0 width)
        (data, dataPix, n, 0, prevRow) with
    | none => none
    | some (data, dataPix, n, _, _) =>
      match imgPrev with
      | none =>
        initRows rand imgSrc imgTrg imgPrev patchSize prevStepX prevStepY width ys
          (data, dataPix, n, pY, prevRow)
      | some prev =>
        match walkAdvances y prevStepY pY prev.height with
        | none => none
        | some adv =>
          initRows rand imgSrc imgTrg imgPrev patchSize prevStepX prevStepY width ys
            (data, dataPix, n, (if adv then pY + 1 else pY),
              (if adv then prevRow + prev.width * prev.components else prevRow))

/-- The function `PatchMatchPlugin::initialiseLevel`, without cancellation: the
new field and the number of `rand()` calls made so far.  `fresh` is the content
of the memory the new field is allocated in; `n` is the number of `rand()`
calls made before.  The result is `none` where C has none (a remainder by zero,
a cost that is not a number). -/
def initialiseLevel (rand : Nat → Int) (fresh : Int → ℚ) (n : Nat) (imgSrc imgTrg : SimpleImage)
    (imgPrev : Option SimpleImage) (patchSize : Int) : Option (SimpleImage × Nat) :=
  let prevStepX : Int := match imgPrev with
    | none => 0
    | some prev => cRound ((imgTrg.width : ℚ) / (prev.width : ℚ))
  let prevStepY : Int := match imgPrev with
    | none => 0
    | some prev => cRound ((imgTrg.height : ℚ) / (prev.height : ℚ))
  match initRows rand imgSrc imgTrg imgPrev patchSize prevStepX prevStepY imgTrg.width
      (intRange 0 imgTrg.height) (fresh, 0, n, 0, 0) with
  | none => none
  | some (data, _, n, _, _) => some (⟨imgTrg.width, imgTrg.height, 3, data⟩, n)

/-! ## `propagateAndSearch` (lines 273-320) -/

/-- Modelled from the spec: `SimpleImage::vect` (declared in the absent header)
gives the vector stored at pixel `(x, y)` of a field.  What it gives for a
position outside the field is not known; it is the parameter `vectOutside`,
which may depend on the field. -/
def SimpleImage.vect (vectOutside : SimpleImage → Int → Int → ℚ × ℚ) (img : SimpleImage)
    (x y : Int) : ℚ × ℚ :=
  if img.valid x y then (img.pix x y 0, img.pix x y 1) else vectOutside img x y

/-- Lines 309 and 311 (columns) or 310 and 312 (rows) of `propagateAndSearch`:
the start `l` and the extent `w` of the search window along one axis of `size`
source pixels, for the centre `cent` and the radius `radi`. -/
def searchWindow (size cent radi : Int) : Int × Int :=
  (max 0 (cent - radi), min size (cent + radi + 1) - max 0 (cent - radi))

/-- The search loop of lines 306-316 for the target pixel `(x, y)` from the radii
`radW`, `radH`, the number `n` of `rand()` calls made and the slot `cur`.  The
first argument bounds the number of rounds; running out of it is `none`. -/
def searchLoop (rand : Nat → Int) (imgSrc imgTrg : SimpleImage)
    (patchSize x y srchCentX srchCentY : Int) : Nat → ℚ → ℚ → Nat → Best → Option (Best × Nat)
  | 0, _, _, _, _ => none
  | fuel + 1, radW, radH, n, cur =>
    if 1 ≤ radW ∧ 1 ≤ radH then
      match cMod (rand n) (searchWindow imgSrc.width srchCentX ⌈radW⌉).2 with
      | none => none
      | some rx =>
        match cMod (rand (n + 1)) (searchWindow imgSrc.height srchCentY ⌈radH⌉).2 with
        | none => none
        | some ry =>
          match score (rx + (searchWindow imgSrc.width srchCentX ⌈radW⌉).1)
              (ry + (searchWindow imgSrc.height srchCentY ⌈radH⌉).1) x y imgSrc imgTrg
              patchSize cur with
          | none => none
          | some cur =>
            searchLoop rand imgSrc imgTrg patchSize x y srchCentX srchCentY fuel
              (radW / 2) (radH / 2) (n + 2) cur
    else some (cur, n)

/-- Lines 294-316 of `propagateAndSearch` for the visited pixel `(x, y)`: the
field and the number of `rand()` calls after the two propagation steps and the
search.  The slot of the pixel is the three floats at `imgVect->pix(x, y)`. -/
def pixelStep (vectOutside : SimpleImage → Int → Int → ℚ × ℚ) (rand : Nat → Int)
    (imgSrc imgTrg : SimpleImage) (patchSize dir x y : Int) (imgVect : SimpleImage) (n : Nat) :
    Option (SimpleImage × Nat) :=
  match score (cTrunc ((x : ℚ) + (imgVect.vect vectOutside (x - dir) y).1))
      (cTrunc ((y : ℚ) + (imgVect.vect vectOutside (x - dir) y).2)) x y imgSrc imgTrg patchSize
      (readBest imgVect.data ((y * imgVect.width + x) * imgVect.components)) with
  | none => none
  | some b1 =>
    match score
        (cTrunc ((x : ℚ) + ((⟨imgVect.width, imgVect.height, imgVect.components,
          writeBest imgVect.data ((y * imgVect.width + x) * imgVect.components) b1⟩ :
            SimpleImage).vect vectOutside x (y - dir)).1))
        (cTrunc ((y : ℚ) + ((⟨imgVect.width, imgVect.height, imgVect.components,
          writeBest imgVect.data ((y * imgVect.width + x) * imgVect.components) b1⟩ :
            SimpleImage).vect vectOutside x (y - dir)).2))
        x y imgSrc imgTrg patchSize b1 with
    | none => none
    | some b2 =>
      match searchLoop rand imgSrc imgTrg patchSize x y (cTrunc ((x : ℚ) + b2.dx))
          (cTrunc ((y : ℚ) + b2.dy)) (imgSrc.width.toNat + 1) ((imgSrc.width : ℚ) / 2)
          ((imgSrc.height : ℚ) / 2) n b2 with
      | none => none
      | some (b3, n) =>
        some (⟨imgVect.width, imgVect.height, imgVect.components,
          writeBest imgVect.data ((y * imgVect.width + x) * imgVect.components) b3⟩, n)

/-- The scan of `propagateAndSearch` over the `(xi, yi)` yet to come, from the
running `count`, the field and the number of `rand()` calls made. -/
def sweepFull (vectOutside : SimpleImage → Int → Int → ℚ × ℚ) (rand : Nat → Int)
    (imgSrc imgTrg : SimpleImage) (patchSize width height dir length : Int) :
    List (Int × Int) → Int → SimpleImage × Nat → Option (SimpleImage × Nat)
  | [], _, st => some st
  | (xi, yi) :: rest, count, (imgVect, n) =>
    if length ≠ 0 ∧ count = length then some (imgVect, n)
    else
      match pixelStep vectOutside rand imgSrc imgTrg patchSize dir
          (if dir < 0 then width - 1 - xi else xi) (if dir < 0 then height - 1 - yi else yi)
          imgVect n with
      | none => none
      | some st =>
        sweepFull vectOutside rand imgSrc imgTrg patchSize width height dir length rest
          (count + 1) st

/-- The function `PatchMatchPlugin::propagateAndSearch`, without cancellation:
the field and the number of `rand()` calls after the sweep; `none` where C has
no result. -/
def propagateAndSearch (vectOutside : SimpleImage → Int → Int → ℚ × ℚ) (rand : Nat → Int)
    (n : Nat) (imgVect imgSrc imgTrg : SimpleImage) (patchSize iterationNum length : Int) :
    Option (SimpleImage × Nat) :=
  sweepFull vectOutside rand imgSrc imgTrg patchSize imgVect.width imgVect.height
    (if iterationNum % 2 ≠ 0 then -1 else 1) length
    (rasterOrder imgVect.width imgVect.height) 0 (imgVect, n)

/-! ## The field invariant -/

/-- The property of the slot of the target pixel `(x, y)` that the field keeps:
the cost is not negative (the slot is not unset), the vector is whole-numbered
and `(x + dx, y + dy)` is a pixel of the source. -/
def slotOk (imgSrc : SimpleImage) (x y : Int) (b : Best) : Prop :=
  0 ≤ b.cost
    ∧ ((cTrunc ((x : ℚ) + b.dx) : Int) : ℚ) = (x : ℚ) + b.dx
    ∧ ((cTrunc ((y : ℚ) + b.dy) : Int) : ℚ) = (y : ℚ) + b.dy
    ∧ imgSrc.valid (cTrunc ((x : ℚ) + b.dx)) (cTrunc ((y : ℚ) + b.dy)) = true

/-- The field invariant: the field has the size of the target and 3 channels,
and the slot of every pixel of the target has the property `slotOk`. -/
def fieldOk (imgSrc imgTrg field : SimpleImage) : Prop :=
  field.width = imgTrg.width ∧ field.height = imgTrg.height ∧ field.components = 3
    ∧ ∀ x y : Int, imgTrg.valid x y = true →
        slotOk imgSrc x y (readBest field.data ((y * field.width + x) * field.components))

/-- An image of zeros, 4097 pixels wide and 2 high, with one channel. -/
def flatWide : SimpleImage := ⟨4097, 2, 1, fun _ => 0⟩

/-- The body of the scan of `propagateAndSearch` (lines 294-316) run on a list of
pixels `(x, y)`, one after the other. -/
def stepAll (vectOutside : SimpleImage → Int → Int → ℚ × ℚ) (rand : Nat → Int)
    (imgSrc imgTrg : SimpleImage) (patchSize dir : Int) :
    List (Int × Int) → SimpleImage × Nat → Option (SimpleImage × Nat)
  | [], st => some st
  | (x, y) :: rest, (imgVect, n) =>
    match pixelStep vectOutside rand imgSrc imgTrg patchSize dir x y imgVect n with
    | none => none
    | some st => stepAll vectOutside rand imgSrc imgTrg patchSize dir rest st

/-- A 2x2 field of three channels with every slot `(0, 0, 0)`. -/
def zeroField2x2 : SimpleImage := ⟨2, 2, 3, fun _ => 0⟩

/-! ## The level loop of `render` on the field (lines 48-69) -/

/-- A 1x1 single-channel image of value 1. -/
def one1x1 : SimpleImage := ⟨1, 1, 1, fun _ => 1⟩

/-- A 2x1 single-channel image with the values 0, 1. -/
def step2x1 : SimpleImage := ⟨2, 1, 1, fun i => if i = 1 then 1 else 0⟩

/-- A 2x2 single-channel image of zeros. -/
def zeros2x2 : SimpleImage := ⟨2, 2, 1, fun _ => 0⟩

/-! ## Lemmas on `score` -/

theorem addDiff_eq (total s t : ℚ) : addDiff total s t = total + |t - s| := by
  unfold addDiff
  split_ifs with h
  · rw [abs_of_neg h]; ring
  · rw [abs_of_nonneg (not_lt.mp h)]

theorem addDiff_ge (total s t : ℚ) : total ≤ addDiff total s t := by
  rw [addDiff_eq]; linarith [abs_nonneg (t - s)]

theorem channelSum_ge (pixSrc pixTrg : Int → ℚ) (cs : List Int) (total : ℚ) :
    total ≤ channelSum pixSrc pixTrg cs total := by
  induction cs generalizing total with
  | nil => simp [channelSum]
  | cons c cs ih =>
    simp only [channelSum]
    exact le_trans (addDiff_ge _ _ _) (ih _)

theorem channelLoop_some (pixSrc pixTrg : Int → ℚ) (bestCost : ℚ) (cs : List Int) (total t : ℚ)
    (h : channelLoop pixSrc pixTrg bestCost cs total = some t) :
    t = channelSum pixSrc pixTrg cs total := by
  induction cs generalizing total with
  | nil => simpa [channelLoop, channelSum, eq_comm] using h
  | cons c cs ih =>
    simp only [channelLoop] at h
    split_ifs at h
    simp only [channelSum]
    exact ih _ h

theorem channelLoop_none (pixSrc pixTrg : Int → ℚ) (bestCost : ℚ) (cs : List Int) (total : ℚ)
    (h : channelLoop pixSrc pixTrg bestCost cs total = none) :
    0 ≤ bestCost ∧ bestCost < channelSum pixSrc pixTrg cs total := by
  induction cs generalizing total with
  | nil => simp [channelLoop] at h
  | cons c cs ih =>
    simp only [channelLoop] at h
    simp only [channelSum]
    split_ifs at h with h1
    · exact ⟨h1.1, lt_of_lt_of_le h1.2 (channelSum_ge pixSrc pixTrg cs _)⟩
    · exact ih _ h

theorem channelLoop_of_not (pixSrc pixTrg : Int → ℚ) (bestCost : ℚ) (cs : List Int) (total : ℚ)
    (h : ¬ (0 ≤ bestCost ∧ bestCost < channelSum pixSrc pixTrg cs total)) :
    channelLoop pixSrc pixTrg bestCost cs total = some (channelSum pixSrc pixTrg cs total) := by
  cases hc : channelLoop pixSrc pixTrg bestCost cs total with
  | none => exact absurd (channelLoop_none _ _ _ _ _ hc) h
  | some t => rw [channelLoop_some _ _ _ _ _ _ hc]

theorem patchSum_ge (xSrc ySrc xTrg yTrg : Int) (imgSrc imgTrg : SimpleImage) (components : Int)
    (offs : List (Int × Int)) (acc : ℚ × Int) :
    acc.1 ≤ (patchSum xSrc ySrc xTrg yTrg imgSrc imgTrg components offs acc).1
      ∧ acc.2 ≤ (patchSum xSrc ySrc xTrg yTrg imgSrc imgTrg components offs acc).2 := by
  induction offs generalizing acc with
  | nil => simp [patchSum]
  | cons o rest ih =>
    obtain ⟨xOff, yOff⟩ := o
    obtain ⟨total, count⟩ := acc
    simp only [patchSum]
    split_ifs with h
    · exact ih _
    · have := ih (channelSum (imgSrc.pix (xSrc + xOff) (ySrc + yOff))
        (imgTrg.pix (xTrg + xOff) (yTrg + yOff)) (intRange 0 components) total, count + 1)
      have h2 := channelSum_ge (imgSrc.pix (xSrc + xOff) (ySrc + yOff))
        (imgTrg.pix (xTrg + xOff) (yTrg + yOff)) (intRange 0 components) total
      simp only at this ⊢
      exact ⟨le_trans h2 this.1, by omega⟩

/-- When no pixel pair contributed, the running total is untouched. -/
theorem patchSum_count_eq (xSrc ySrc xTrg yTrg : Int) (imgSrc imgTrg : SimpleImage)
    (components : Int) (offs : List (Int × Int)) (acc : ℚ × Int)
    (h : (patchSum xSrc ySrc xTrg yTrg imgSrc imgTrg components offs acc).2 = acc.2) :
    (patchSum xSrc ySrc xTrg yTrg imgSrc imgTrg components offs acc).1 = acc.1 := by
  induction offs generalizing acc with
  | nil => simp [patchSum]
  | cons o rest ih =>
    obtain ⟨xOff, yOff⟩ := o
    obtain ⟨total, count⟩ := acc
    simp only [patchSum] at h ⊢
    split_ifs at h ⊢ with h1
    · exact ih _ h
    · have := (patchSum_ge xSrc ySrc xTrg yTrg imgSrc imgTrg components rest
        (channelSum (imgSrc.pix (xSrc + xOff) (ySrc + yOff))
        (imgTrg.pix (xTrg + xOff) (yTrg + yOff)) (intRange 0 components) total, count + 1)).2
      simp only at this h
      omega

theorem patchLoop_some (xSrc ySrc xTrg yTrg : Int) (imgSrc imgTrg : SimpleImage) (components : Int)
    (bestCost : ℚ) (offs : List (Int × Int)) (acc r : ℚ × Int)
    (h : patchLoop xSrc ySrc xTrg yTrg imgSrc imgTrg components bestCost offs acc = some r) :
    r = patchSum xSrc ySrc xTrg yTrg imgSrc imgTrg components offs acc := by
  induction offs generalizing acc with
  | nil => simpa [patchLoop, patchSum, eq_comm] using h
  | cons o rest ih =>
    obtain ⟨xOff, yOff⟩ := o
    obtain ⟨total, count⟩ := acc
    simp only [patchLoop] at h
    simp only [patchSum]
    split_ifs at h ⊢ with h1
    · exact ih _ h
    · cases hc : channelLoop (imgSrc.pix (xSrc + xOff) (ySrc + yOff))
          (imgTrg.pix (xTrg + xOff) (yTrg + yOff)) bestCost (intRange 0 components) total with
      | none => rw [hc] at h; exact absurd h (by simp)
      | some t =>
        rw [hc] at h
        rw [← channelLoop_some _ _ _ _ _ _ hc]
        exact ih _ h

theorem patchLoop_none (xSrc ySrc xTrg yTrg : Int) (imgSrc imgTrg : SimpleImage) (components : Int)
    (bestCost : ℚ) (offs : List (Int × Int)) (acc : ℚ × Int)
    (h : patchLoop xSrc ySrc xTrg yTrg imgSrc imgTrg components bestCost offs acc = none) :
    0 ≤ bestCost
      ∧ bestCost < (patchSum xSrc ySrc xTrg yTrg imgSrc imgTrg components offs acc).1 := by
  induction offs generalizing acc with
  | nil => simp [patchLoop] at h
  | cons o rest ih =>
    obtain ⟨xOff, yOff⟩ := o
    obtain ⟨total, count⟩ := acc
    simp only [patchLoop] at h
    simp only [patchSum]
    split_ifs at h ⊢ with h1
    · exact ih _ h
    · cases hc : channelLoop (imgSrc.pix (xSrc + xOff) (ySrc + yOff))
          (imgTrg.pix (xTrg + xOff) (yTrg + yOff)) bestCost (intRange 0 components) total with
      | none =>
        have h2 := channelLoop_none _ _ _ _ _ hc
        exact ⟨h2.1, lt_of_lt_of_le h2.2 (patchSum_ge xSrc ySrc xTrg yTrg imgSrc imgTrg
          components rest (_, count + 1)).1⟩
      | some t =>
        rw [hc] at h
        rw [← channelLoop_some _ _ _ _ _ _ hc]
        exact ih _ h

theorem patchLoop_of_not (xSrc ySrc xTrg yTrg : Int) (imgSrc imgTrg : SimpleImage)
    (components : Int) (bestCost : ℚ) (offs : List (Int × Int)) (acc : ℚ × Int)
    (h : ¬ (0 ≤ bestCost
      ∧ bestCost < (patchSum xSrc ySrc xTrg yTrg imgSrc imgTrg components offs acc).1)) :
    patchLoop xSrc ySrc xTrg yTrg imgSrc imgTrg components bestCost offs acc
      = some (patchSum xSrc ySrc xTrg yTrg imgSrc imgTrg components offs acc) := by
  cases hc : patchLoop xSrc ySrc xTrg yTrg imgSrc imgTrg components bestCost offs acc with
  | none => exact absurd (patchLoop_none _ _ _ _ _ _ _ _ _ _ hc) h
  | some t => rw [patchLoop_some _ _ _ _ _ _ _ _ _ _ _ hc]

theorem score_of_invalid (xSrc ySrc xTrg yTrg : Int) (imgSrc imgTrg : SimpleImage)
    (patchSize : Int) (best : Best) (hv : imgSrc.valid xSrc ySrc = false) :
    score xSrc ySrc xTrg yTrg imgSrc imgTrg patchSize best = some best := by
  simp [score, hv]

/-- The normalization never lowers the accumulated total. -/
theorem normalize_ge (total : ℚ) (count maxCount : Int) (nc : ℚ) (ht : 0 ≤ total)
    (hc : 0 ≤ count) (h : normalize total count maxCount = some nc) : total ≤ nc := by
  unfold normalize at h
  split_ifs at h with h1 h2
  · simp only [Option.some.injEq] at h
    have hq : (0 : ℚ) < (count : ℚ) := by exact_mod_cast lt_of_le_of_ne hc (Ne.symm h2)
    have hq2 : (count : ℚ) ≤ (maxCount : ℚ) := by exact_mod_cast h1.le
    have : (1 : ℚ) ≤ (maxCount : ℚ) / (count : ℚ) := by
      rw [le_div_iff₀ hq]; linarith
    rw [← h]; nlinarith
  · simp only [Option.some.injEq] at h
    exact h ▸ le_refl _

theorem normalize_nonneg (total : ℚ) (count maxCount : Int) (nc : ℚ) (ht : 0 ≤ total)
    (hc : 0 ≤ count) (h : normalize total count maxCount = some nc) : 0 ≤ nc :=
  le_trans ht (normalize_ge total count maxCount nc ht hc h)

/-- The acceptance tests of lines 359-368 as one condition. -/
theorem accept_eq (xSrc ySrc xTrg yTrg : Int) (total : ℚ) (best : Best) :
    accept xSrc ySrc xTrg yTrg total best
      = if best.cost < 0 ∨ total < best.cost
            ∨ (total = best.cost ∧ candidateSqFloat xSrc ySrc xTrg yTrg ≤ best.sq)
          then candidateSlot xSrc ySrc xTrg yTrg total else best := by
  unfold accept candidateSqFloat Best.sq candidateSlot
  simp only
  by_cases hb : best.cost < 0
  · have h2 : ¬ (0 ≤ best.cost) := not_le.mpr hb
    simp [hb, h2]
  · have h2 : 0 ≤ best.cost := not_lt.mp hb
    by_cases h3 : best.cost < total
    · have h4 : ¬ (total < best.cost) := not_lt.mpr h3.le
      have h5 : ¬ (total = best.cost) := ne_of_gt h3
      simp [hb, h2, h3, h4, h5]
    · rcases lt_or_eq_of_le (not_lt.mp h3) with h4 | h4
      · have h5 : ¬ (total = best.cost) := ne_of_lt h4
        simp [h2, h3, h4, h5]
      · subst h4
        simp only [h2, hb, true_and, lt_self_iff_false, if_false, false_or, not_lt]
        split_ifs with h6 h7 h7
        · exact absurd h7 (not_le.mpr h6)
        · rfl
        · rfl
        · exact absurd (not_lt.mp h6) h7

/-- Below `2^24` in absolute value the conversion to `float` is exact. -/
theorem intToFloat_exact (n : Int) (h : n.natAbs < 2 ^ 24) : intToFloat n = (n : ℚ) := by
  unfold intToFloat
  rw [if_pos h]

theorem floatExponent_le (fuel : Nat) : ∀ a : Nat, 0 < a → 2 ^ floatExponent fuel a ≤ a := by
  induction fuel with
  | zero => intro a ha; simpa [floatExponent] using ha
  | succ k ih =>
    intro a ha
    unfold floatExponent
    split_ifs with h
    · simpa using ha
    · have h2 : 0 < a / 2 := Nat.div_pos (by omega) (by norm_num)
      have := ih (a / 2) h2
      rw [pow_succ]
      omega

/-- A positive `int` converts to a positive `float`. -/
theorem intToFloat_pos (n : Int) (hn : 1 ≤ n) : 0 < intToFloat n := by
  unfold intToFloat
  by_cases h : n.natAbs < 2 ^ 24
  · rw [if_pos h]
    exact_mod_cast (by omega : 0 < n)
  · rw [if_neg h]
    simp only
    have hsign : n.sign = 1 := Int.sign_eq_one_of_pos (by omega)
    have ha : 0 < n.natAbs := by omega
    have hpow := floatExponent_le n.natAbs n.natAbs ha
    generalize floatExponent n.natAbs n.natAbs = e at hpow ⊢
    have hq : 0 < n.natAbs / 2 ^ e := Nat.div_pos hpow (Nat.two_pow_pos _)
    have hprod : 0 < (if 2 ^ e < 2 * (n.natAbs % 2 ^ e)
          ∨ (2 * (n.natAbs % 2 ^ e) = 2 ^ e ∧ n.natAbs / 2 ^ e % 2 = 1)
        then n.natAbs / 2 ^ e + 1 else n.natAbs / 2 ^ e) * 2 ^ e := by
      apply Nat.mul_pos
      · split_ifs <;> omega
      · exact Nat.two_pow_pos _
    rw [hsign, Int.cast_one, one_mul]
    exact_mod_cast hprod

/-- For a candidate whose squared displacement is below `2^24`, line 365 compares
the squared displacement itself. -/
theorem candidateSqFloat_eq (xSrc ySrc xTrg yTrg : Int)
    (hsq : (xSrc - xTrg) * (xSrc - xTrg) + (ySrc - yTrg) * (ySrc - yTrg) < 2 ^ 24) :
    candidateSqFloat xSrc ySrc xTrg yTrg = candidateSq xSrc ySrc xTrg yTrg := by
  unfold candidateSqFloat candidateSq
  apply intToFloat_exact
  have h0 : 0 ≤ (xSrc - xTrg) * (xSrc - xTrg) + (ySrc - yTrg) * (ySrc - yTrg) :=
    add_nonneg (mul_self_nonneg _) (mul_self_nonneg _)
  have h1 := Int.natAbs_of_nonneg h0
  have h2 : ((2 ^ 24 : Nat) : Int) = 2 ^ 24 := by norm_num
  have h3 : (((((xSrc - xTrg) * (xSrc - xTrg) + (ySrc - yTrg) * (ySrc - yTrg)).natAbs : Nat)) : Int)
      < ((2 ^ 24 : Nat) : Int) := by rw [h1, h2]; exact hsq
  exact_mod_cast h3

/-- The squared displacement of a candidate converted to `float` is `0` only for
the zero vector. -/
theorem candidateSqFloat_le_zero (xSrc ySrc xTrg yTrg : Int)
    (h : candidateSqFloat xSrc ySrc xTrg yTrg ≤ 0) : xSrc - xTrg = 0 ∧ ySrc - yTrg = 0 := by
  unfold candidateSqFloat at h
  have h4 := mul_self_nonneg (xSrc - xTrg)
  have h5 := mul_self_nonneg (ySrc - yTrg)
  have h3 : (xSrc - xTrg) * (xSrc - xTrg) + (ySrc - yTrg) * (ySrc - yTrg) ≤ 0 := by
    by_contra hne
    have := intToFloat_pos _ (by omega : 1 ≤ (xSrc - xTrg) * (xSrc - xTrg)
      + (ySrc - yTrg) * (ySrc - yTrg))
    linarith
  exact ⟨mul_self_eq_zero.mp (by omega), mul_self_eq_zero.mp (by omega)⟩

theorem candidateSqFloat_self (x y : Int) : candidateSqFloat x y x y = 0 := by
  unfold candidateSqFloat
  rw [intToFloat_exact _ (by simp)]
  simp

/-- What `score` does to the slot, in terms of the candidate's normalized cost:
the early return only ever fires for candidates the final tests would reject. -/
theorem score_eq_of_cost (xSrc ySrc xTrg yTrg : Int) (imgSrc imgTrg : SimpleImage)
    (patchSize : Int) (best : Best) (nc : ℚ) (hv : imgSrc.valid xSrc ySrc = true)
    (hc : candidateCost xSrc ySrc xTrg yTrg imgSrc imgTrg patchSize = some nc) :
    score xSrc ySrc xTrg yTrg imgSrc imgTrg patchSize best
      = some (if best.cost < 0 ∨ nc < best.cost
            ∨ (nc = best.cost ∧ candidateSqFloat xSrc ySrc xTrg yTrg ≤ best.sq)
          then candidateSlot xSrc ySrc xTrg yTrg nc else best) := by
  unfold candidateCost at hc
  simp only at hc
  have hge := patchSum_ge xSrc ySrc xTrg yTrg imgSrc imgTrg
    (min imgSrc.components imgTrg.components) (windowOffsets ((patchSize - 1) >>> (1 : Nat))) (0, 0)
  have hnc := normalize_ge _ _ _ _ hge.1 hge.2 hc
  unfold score
  simp only [hv, Bool.not_true, Bool.false_eq_true, if_false]
  cases hp : patchLoop xSrc ySrc xTrg yTrg imgSrc imgTrg
      (min imgSrc.components imgTrg.components) best.cost
      (windowOffsets ((patchSize - 1) >>> (1 : Nat))) (0, 0) with
  | none =>
    have := patchLoop_none _ _ _ _ _ _ _ _ _ _ hp
    have h1 : ¬ (best.cost < 0 ∨ nc < best.cost
        ∨ (nc = best.cost ∧ candidateSqFloat xSrc ySrc xTrg yTrg ≤ best.sq)) := by
      rintro (h | h | ⟨h, -⟩) <;> linarith [this.1, this.2]
    simp [h1]
  | some r =>
    have hr := patchLoop_some _ _ _ _ _ _ _ _ _ _ _ hp
    rw [← hr] at hc
    obtain ⟨total, count⟩ := r
    simp only at hc ⊢
    rw [hc]
    simp only [accept_eq]

theorem score_of_cost_none (xSrc ySrc xTrg yTrg : Int) (imgSrc imgTrg : SimpleImage)
    (patchSize : Int) (best : Best) (hv : imgSrc.valid xSrc ySrc = true)
    (hc : candidateCost xSrc ySrc xTrg yTrg imgSrc imgTrg patchSize = none) :
    score xSrc ySrc xTrg yTrg imgSrc imgTrg patchSize best = none := by
  unfold candidateCost at hc
  simp only at hc
  have h0 : (patchSum xSrc ySrc xTrg yTrg imgSrc imgTrg
      (min imgSrc.components imgTrg.components) (windowOffsets ((patchSize - 1) >>> (1 : Nat))) (0, 0)).2
      = 0 := by
    unfold normalize at hc
    split_ifs at hc with h1 h2
    exact h2
  have h1 := patchSum_count_eq xSrc ySrc xTrg yTrg imgSrc imgTrg
    (min imgSrc.components imgTrg.components) (windowOffsets ((patchSize - 1) >>> (1 : Nat))) (0, 0) h0
  simp only at h1
  have hp := patchLoop_of_not xSrc ySrc xTrg yTrg imgSrc imgTrg
    (min imgSrc.components imgTrg.components) best.cost
    (windowOffsets ((patchSize - 1) >>> (1 : Nat))) (0, 0) (by rw [h1]; rintro ⟨h, h'⟩; linarith)
  unfold score
  simp only [hv, Bool.not_true, Bool.false_eq_true, if_false, hp, hc]

theorem mem_intRange (lo hi x : Int) : x ∈ intRange lo hi ↔ lo ≤ x ∧ x < hi := by
  unfold intRange
  simp only [List.mem_map, List.mem_range]
  constructor
  · rintro ⟨i, hi', rfl⟩
    omega
  · rintro ⟨h1, h2⟩
    exact ⟨(x - lo).toNat, by omega, by omega⟩

theorem mem_windowOffsets (pOff : Int) (o : Int × Int) :
    o ∈ windowOffsets pOff ↔ (-pOff ≤ o.1 ∧ o.1 ≤ pOff) ∧ (-pOff ≤ o.2 ∧ o.2 ≤ pOff) := by
  obtain ⟨a, b⟩ := o
  unfold windowOffsets
  simp only [List.mem_flatMap, List.mem_map, mem_intRange, Prod.mk.injEq]
  constructor
  · rintro ⟨y, hy, x, hx, rfl, rfl⟩
    omega
  · rintro ⟨h1, h2⟩
    exact ⟨b, by omega, a, by omega, rfl, rfl⟩

/-- The half-width `(patchSize - 1) >> 1` is the floor of `(patchSize - 1) / 2`. -/
theorem pOff_eq (patchSize : Int) : (patchSize - 1) >>> (1 : Nat) = (patchSize - 1) / 2 := by
  rw [Int.shiftRight_eq_div_pow]; norm_num

theorem pOff_nonneg (patchSize : Int) (hp : 1 ≤ patchSize) : 0 ≤ (patchSize - 1) >>> (1 : Nat) := by
  rw [pOff_eq]; omega

/-- Every offset of the list at which both pixels are in bounds adds one to `count`. -/
theorem patchSum_count_pos (xSrc ySrc xTrg yTrg : Int) (imgSrc imgTrg : SimpleImage)
    (components : Int) (offs : List (Int × Int)) (acc : ℚ × Int) (o : Int × Int) (ho : o ∈ offs)
    (hs : imgSrc.valid (xSrc + o.1) (ySrc + o.2) = true)
    (ht : imgTrg.valid (xTrg + o.1) (yTrg + o.2) = true) :
    acc.2 + 1 ≤ (patchSum xSrc ySrc xTrg yTrg imgSrc imgTrg components offs acc).2 := by
  induction offs generalizing acc with
  | nil => simp at ho
  | cons p rest ih =>
    obtain ⟨xOff, yOff⟩ := p
    obtain ⟨total, count⟩ := acc
    simp only [patchSum]
    rcases List.mem_cons.mp ho with h | h
    · subst h
      simp only [hs, ht, Bool.not_true, Bool.or_self, Bool.false_eq_true, if_false]
      exact (patchSum_ge xSrc ySrc xTrg yTrg imgSrc imgTrg components rest (_, count + 1)).2
    · split_ifs with h1
      · exact ih _ h
      · have := ih (channelSum (imgSrc.pix (xSrc + xOff) (ySrc + yOff))
          (imgTrg.pix (xTrg + xOff) (yTrg + yOff)) (intRange 0 components) total, count + 1) h
        simp only at this ⊢
        omega

/-- With the candidate and the target pixel in bounds and `patchSize ≥ 1`, the
centre of the window contributes: `count ≥ 1`. -/
theorem count_pos (xSrc ySrc xTrg yTrg : Int) (imgSrc imgTrg : SimpleImage) (patchSize : Int)
    (hs : imgSrc.valid xSrc ySrc = true) (ht : imgTrg.valid xTrg yTrg = true)
    (hp : 1 ≤ patchSize) :
    1 ≤ (patchSum xSrc ySrc xTrg yTrg imgSrc imgTrg (min imgSrc.components imgTrg.components)
      (windowOffsets ((patchSize - 1) >>> (1 : Nat))) (0, 0)).2 := by
  have h0 := pOff_nonneg patchSize hp
  have := patchSum_count_pos xSrc ySrc xTrg yTrg imgSrc imgTrg
    (min imgSrc.components imgTrg.components) (windowOffsets ((patchSize - 1) >>> (1 : Nat))) (0, 0) (0, 0)
    ((mem_windowOffsets _ _).mpr (by simp; omega)) (by simpa using hs) (by simpa using ht)
  simpa using this

/-- With the candidate and the target pixel in bounds and `patchSize ≥ 1`, the
normalized cost is defined and not negative. -/
theorem candidateCost_defined (xSrc ySrc xTrg yTrg : Int) (imgSrc imgTrg : SimpleImage)
    (patchSize : Int) (hs : imgSrc.valid xSrc ySrc = true) (ht : imgTrg.valid xTrg yTrg = true)
    (hp : 1 ≤ patchSize) :
    ∃ nc, candidateCost xSrc ySrc xTrg yTrg imgSrc imgTrg patchSize = some nc ∧ 0 ≤ nc := by
  have hc := count_pos xSrc ySrc xTrg yTrg imgSrc imgTrg patchSize hs ht hp
  have hge := patchSum_ge xSrc ySrc xTrg yTrg imgSrc imgTrg
    (min imgSrc.components imgTrg.components) (windowOffsets ((patchSize - 1) >>> (1 : Nat))) (0, 0)
  cases h : candidateCost xSrc ySrc xTrg yTrg imgSrc imgTrg patchSize with
  | none =>
    unfold candidateCost normalize at h
    simp only at h
    split_ifs at h with h1 h2
    omega
  | some nc =>
    exact ⟨nc, rfl, normalize_nonneg _ _ _ _ hge.1 hge.2 h⟩

/-- One call of `score` with the target pixel in bounds: the slot is kept, or it
becomes a candidate slot of cost `nc ≥ 0` that is no worse than the old cost. -/
theorem score_step (xSrc ySrc xTrg yTrg : Int) (imgSrc imgTrg : SimpleImage) (patchSize : Int)
    (best : Best) (ht : imgTrg.valid xTrg yTrg = true) (hp : 1 ≤ patchSize) :
    ∃ b, score xSrc ySrc xTrg yTrg imgSrc imgTrg patchSize best = some b
      ∧ (b = best ∨ (0 ≤ b.cost ∧ (best.cost < 0 ∨ b.cost ≤ best.cost))) := by
  cases hs : imgSrc.valid xSrc ySrc with
  | false => exact ⟨best, score_of_invalid _ _ _ _ _ _ _ _ hs, Or.inl rfl⟩
  | true =>
    obtain ⟨nc, hc, hnc⟩ := candidateCost_defined xSrc ySrc xTrg yTrg imgSrc imgTrg patchSize
      hs ht hp
    refine ⟨_, score_eq_of_cost _ _ _ _ _ _ _ best nc hs hc, ?_⟩
    split_ifs with h
    · right
      refine ⟨hnc, ?_⟩
      simp only [candidateSlot]
      rcases h with h | h | ⟨h, -⟩
      · exact Or.inl h
      · exact Or.inr h.le
      · exact Or.inr h.le
    · exact Or.inl rfl

/-! ### The accumulation of `score` as a sum -/

theorem channelSum_eq (pixSrc pixTrg : Int → ℚ) (cs : List Int) (total : ℚ) :
    channelSum pixSrc pixTrg cs total = total + (cs.map (fun c => |pixTrg c - pixSrc c|)).sum := by
  induction cs generalizing total with
  | nil => simp [channelSum]
  | cons c cs ih =>
    simp only [channelSum, List.map_cons, List.sum_cons, ih, addDiff_eq]
    ring

theorem channelSum_range (pixSrc pixTrg : Int → ℚ) (components : Int) (total : ℚ) :
    channelSum pixSrc pixTrg (intRange 0 components) total
      = total + ∑ c in Finset.range components.toNat, |pixTrg (c : Int) - pixSrc (c : Int)| := by
  rw [channelSum_eq, intRange, List.map_map, Finset.sum_range, ← List.sum_ofFn]
  congr 2
  simp only [sub_zero]
  apply List.ext_getElem
  · simp
  · intro i h1 h2
    simp

theorem patchSum_eq (xSrc ySrc xTrg yTrg : Int) (imgSrc imgTrg : SimpleImage) (components : Int)
    (offs : List (Int × Int)) (acc : ℚ × Int) :
    patchSum xSrc ySrc xTrg yTrg imgSrc imgTrg components offs acc
      = (acc.1 + ((offs.filter (fun o => imgSrc.valid (xSrc + o.1) (ySrc + o.2)
              && imgTrg.valid (xTrg + o.1) (yTrg + o.2))).map
            (fun o => ∑ c in Finset.range components.toNat,
              |imgTrg.pix (xTrg + o.1) (yTrg + o.2) (c : Int)
                - imgSrc.pix (xSrc + o.1) (ySrc + o.2) (c : Int)|)).sum,
         acc.2 + ((offs.filter (fun o => imgSrc.valid (xSrc + o.1) (ySrc + o.2)
              && imgTrg.valid (xTrg + o.1) (yTrg + o.2))).length : Int)) := by
  induction offs generalizing acc with
  | nil => simp [patchSum]
  | cons o rest ih =>
    obtain ⟨xOff, yOff⟩ := o
    obtain ⟨total, count⟩ := acc
    simp only [patchSum]
    by_cases h : (imgSrc.valid (xSrc + xOff) (ySrc + yOff)
        && imgTrg.valid (xTrg + xOff) (yTrg + yOff)) = true
    · have h' := h
      simp only [Bool.and_eq_true] at h'
      rw [List.filter_cons]
      simp only [h'.1, h'.2, Bool.not_true, Bool.or_self, Bool.false_eq_true, if_false, ih,
        channelSum_range, List.map_cons, List.sum_cons, List.length_cons, Bool.and_self, if_true]
      refine Prod.ext ?_ ?_
      · simp only; ring
      · simp only; push_cast; ring
    · rw [List.filter_cons, if_neg h]
      have h' : (!imgSrc.valid (xSrc + xOff) (ySrc + yOff)
          || !imgTrg.valid (xTrg + xOff) (yTrg + yOff)) = true := by
        revert h
        cases imgSrc.valid (xSrc + xOff) (ySrc + yOff) <;>
          cases imgTrg.valid (xTrg + xOff) (yTrg + yOff) <;> simp
      simp only [h', if_true, ih]

theorem intRange_nodup (lo hi : Int) : (intRange lo hi).Nodup := by
  unfold intRange
  refine List.Nodup.map ?_ (List.nodup_range _)
  intro a b h
  simpa using h

theorem windowOffsets_nodup (pOff : Int) : (windowOffsets pOff).Nodup := by
  unfold windowOffsets
  rw [List.nodup_flatMap]
  refine ⟨fun y _ => ?_, ?_⟩
  · refine List.Nodup.map ?_ (intRange_nodup _ _)
    intro a b h
    simpa using h
  · refine List.Nodup.pairwise_of_forall_ne (intRange_nodup _ _) ?_
    intro a _ b _ hab
    simp only [Function.onFun, List.disjoint_left, List.mem_map, not_exists, not_and]
    rintro o ⟨x, -, rfl⟩ x' - h
    simp only [Prod.mk.injEq] at h
    exact hab h.2.symm

/-- The valid offsets the loops of `score` visit are those of `windowSpec`. -/
theorem windowOffsets_toFinset (xSrc ySrc xTrg yTrg : Int) (imgSrc imgTrg : SimpleImage)
    (patchSize : Int) :
    ((windowOffsets ((patchSize - 1) >>> (1 : Nat))).filter
        (fun o => imgSrc.valid (xSrc + o.1) (ySrc + o.2)
          && imgTrg.valid (xTrg + o.1) (yTrg + o.2))).toFinset
      = windowSpec xSrc ySrc xTrg yTrg imgSrc imgTrg patchSize := by
  ext o
  simp only [List.mem_toFinset, List.mem_filter, mem_windowOffsets, pOff_eq, windowSpec,
    Finset.mem_filter, Finset.mem_product, Finset.mem_Icc, Bool.and_eq_true]

/-- The loops of `score` without the early return compute the spec's sum and the
spec's count. -/
theorem patchSum_eq_spec (xSrc ySrc xTrg yTrg : Int) (imgSrc imgTrg : SimpleImage)
    (patchSize : Int) :
    patchSum xSrc ySrc xTrg yTrg imgSrc imgTrg (min imgSrc.components imgTrg.components)
        (windowOffsets ((patchSize - 1) >>> (1 : Nat))) (0, 0)
      = (sadSpec xSrc ySrc xTrg yTrg imgSrc imgTrg patchSize,
          ((windowSpec xSrc ySrc xTrg yTrg imgSrc imgTrg patchSize).card : Int)) := by
  have hnd := (windowOffsets_nodup ((patchSize - 1) >>> (1 : Nat))).filter
    (fun o => imgSrc.valid (xSrc + o.1) (ySrc + o.2) && imgTrg.valid (xTrg + o.1) (yTrg + o.2))
  rw [patchSum_eq, sadSpec, ← windowOffsets_toFinset, List.sum_toFinset _ hnd,
    List.toFinset_card_of_nodup hnd]
  simp

/-- The normalized cost of the code is the cost in the spec's words whenever at
least one pixel pair contributes. -/
theorem candidateCost_eq_spec (xSrc ySrc xTrg yTrg : Int) (imgSrc imgTrg : SimpleImage)
    (patchSize : Int) (h : 1 ≤ (windowSpec xSrc ySrc xTrg yTrg imgSrc imgTrg patchSize).card) :
    candidateCost xSrc ySrc xTrg yTrg imgSrc imgTrg patchSize
      = some (costSpec xSrc ySrc xTrg yTrg imgSrc imgTrg patchSize) := by
  unfold candidateCost
  simp only [patchSum_eq_spec]
  unfold normalize costSpec
  have h0 : ¬ (((windowSpec xSrc ySrc xTrg yTrg imgSrc imgTrg patchSize).card : Int) = 0) := by
    omega
  have hiff : ((windowSpec xSrc ySrc xTrg yTrg imgSrc imgTrg patchSize).card : Int)
        < patchSize * patchSize
      ↔ ((windowSpec xSrc ySrc xTrg yTrg imgSrc imgTrg patchSize).card : ℚ)
        < (patchSize : ℚ) ^ 2 := by
    rw [pow_two]
    exact_mod_cast Iff.rfl
  by_cases h1 : ((windowSpec xSrc ySrc xTrg yTrg imgSrc imgTrg patchSize).card : Int)
      < patchSize * patchSize
  · rw [if_pos h1, if_neg h0, if_pos (hiff.mp h1)]
    push_cast
    rw [pow_two]
  · rw [if_neg h1, if_neg (fun h2 => h1 (hiff.mpr h2))]

/-! ## The claims on `score` -/

/-- C1 (as amended): for every in-bounds source candidate and in-bounds target
pixel with `patchSize ≥ 1`, and a candidate whose squared displacement is below
`2^24` (where its conversion to `float` at line 365 is exact), the candidate has
a normalized cost `nc ≥ 0`, and `score` installs the candidate
`(xSrc - xTrg, ySrc - yTrg, nc)` exactly when the slot is unset (`cost < 0`, as
the sentinel `-1` is), or `nc` is strictly lower than `best.cost`, or the costs
are equal and the candidate's squared displacement is smaller than or equal to
the slot's; in every other case the slot is left as it was. -/
theorem score_acceptance (xSrc ySrc xTrg yTrg : Int) (imgSrc imgTrg : SimpleImage)
    (patchSize : Int) (best : Best) (hs : imgSrc.valid xSrc ySrc = true)
    (ht : imgTrg.valid xTrg yTrg = true) (hp : 1 ≤ patchSize)
    (hsq : (xSrc - xTrg) * (xSrc - xTrg) + (ySrc - yTrg) * (ySrc - yTrg) < 2 ^ 24) :
    ∃ nc, candidateCost xSrc ySrc xTrg yTrg imgSrc imgTrg patchSize = some nc ∧ 0 ≤ nc
      ∧ score xSrc ySrc xTrg yTrg imgSrc imgTrg patchSize best
        = some (if best.cost < 0 ∨ nc < best.cost
              ∨ (nc = best.cost ∧ candidateSq xSrc ySrc xTrg yTrg ≤ best.sq)
            then candidateSlot xSrc ySrc xTrg yTrg nc else best) := by
  obtain ⟨nc, hc, hnc⟩ := candidateCost_defined xSrc ySrc xTrg yTrg imgSrc imgTrg patchSize
    hs ht hp
  refine ⟨nc, hc, hnc, ?_⟩
  rw [score_eq_of_cost _ _ _ _ _ _ _ best nc hs hc, candidateSqFloat_eq _ _ _ _ hsq]

/-- C1, witness: the amended rule at the candidate `(0,1)` for the target pixel
`(0,0)` of a 2x2 image of zeros, `patchSize = 1`, on the slot `(1, 0, 0)`. -/
theorem score_acceptance_witness :
    zeros2x2.valid 0 1 = true ∧ zeros2x2.valid 0 0 = true ∧ (1 : Int) ≤ 1
      ∧ ((0 : Int) - 0) * (0 - 0) + (1 - 0) * (1 - 0) < 2 ^ 24
      ∧ ∃ nc, candidateCost 0 1 0 0 zeros2x2 zeros2x2 1 = some nc ∧ 0 ≤ nc
        ∧ score 0 1 0 0 zeros2x2 zeros2x2 1 ⟨1, 0, 0⟩
          = some (if (⟨1, 0, 0⟩ : Best).cost < 0 ∨ nc < (⟨1, 0, 0⟩ : Best).cost
                ∨ (nc = (⟨1, 0, 0⟩ : Best).cost ∧ candidateSq 0 1 0 0 ≤ (⟨1, 0, 0⟩ : Best).sq)
              then candidateSlot 0 1 0 0 nc else ⟨1, 0, 0⟩) :=
  ⟨by decide, by decide, by decide, by norm_num,
    score_acceptance 0 1 0 0 zeros2x2 zeros2x2 1 ⟨1, 0, 0⟩ (by decide) (by decide) (by decide)
      (by norm_num)⟩

/-- C1, counterexample: on a 2x2 image of zeros with `patchSize = 1`, the slot
`(1, 0, 0)` and the in-bounds candidate `(0,1)` for the in-bounds target pixel
`(0,0)`: the slot is set (cost `0`, not `-1`), the candidate's normalized cost
`0` is not strictly lower, and its squared displacement `1` is not strictly
smaller than the slot's `1`; yet `score` replaces the slot by `(0, 1, 0)`. -/
theorem score_acceptance_counterexample :
    zeros2x2.valid 0 1 = true ∧ zeros2x2.valid 0 0 = true
      ∧ candidateCost 0 1 0 0 zeros2x2 zeros2x2 1 = some 0
      ∧ ¬ ((⟨1, 0, 0⟩ : Best).cost = -1 ∨ (0 : ℚ) < (⟨1, 0, 0⟩ : Best).cost
          ∨ ((0 : ℚ) = (⟨1, 0, 0⟩ : Best).cost ∧ candidateSq 0 1 0 0 < (⟨1, 0, 0⟩ : Best).sq))
      ∧ score 0 1 0 0 zeros2x2 zeros2x2 1 ⟨1, 0, 0⟩ = some ⟨0, 1, 0⟩
      ∧ (⟨0, 1, 0⟩ : Best) ≠ ⟨1, 0, 0⟩ := by
  refine ⟨by decide, by decide, by decide!, ?_, by decide!, by decide!⟩
  norm_num [candidateSq, Best.sq]

/-- C2: for every slot, image pair and `patchSize ≥ 1`, and every sequence of
`score` calls whose target pixels are in bounds: every call returns; at each
call, a cost that was `≥ 0` before is `≥ 0` after and has not increased, and a
cost that was `-1` before is `-1` or `≥ 0` after; so over the whole sequence a
cost `≥ 0` stays `≥ 0` and does not increase. -/
theorem score_monotonic (imgSrc imgTrg : SimpleImage) (patchSize : Int) (hp : 1 ≤ patchSize)
    (calls : List (Int × Int × Int × Int))
    (ht : ∀ c ∈ calls, imgTrg.valid c.2.2.1 c.2.2.2 = true) (best : Best) :
    (∀ pre c suf, calls = pre ++ c :: suf →
      ∃ b b', scoreSeq imgSrc imgTrg patchSize pre best = some b
        ∧ score c.1 c.2.1 c.2.2.1 c.2.2.2 imgSrc imgTrg patchSize b = some b'
        ∧ (0 ≤ b.cost → 0 ≤ b'.cost ∧ b'.cost ≤ b.cost)
        ∧ (b.cost = -1 → b'.cost = -1 ∨ 0 ≤ b'.cost)
        ∧ (0 ≤ best.cost → 0 ≤ b.cost ∧ b.cost ≤ best.cost))
    ∧ ∃ final, scoreSeq imgSrc imgTrg patchSize calls best = some final
        ∧ (0 ≤ best.cost → 0 ≤ final.cost ∧ final.cost ≤ best.cost) := by
  induction calls generalizing best with
  | nil =>
    refine ⟨?_, best, rfl, fun h => ⟨h, le_refl _⟩⟩
    intro pre c suf h
    simp at h
  | cons c0 rest ih =>
    obtain ⟨xSrc, ySrc, xTrg, yTrg⟩ := c0
    have ht0 : imgTrg.valid xTrg yTrg = true := ht _ (List.mem_cons_self _ _)
    obtain ⟨b0, hb0, hstep⟩ := score_step xSrc ySrc xTrg yTrg imgSrc imgTrg patchSize best ht0 hp
    have hmono : 0 ≤ best.cost → 0 ≤ b0.cost ∧ b0.cost ≤ best.cost := by
      intro h
      rcases hstep with h1 | ⟨h1, h2 | h2⟩
      · rw [h1]; exact ⟨h, le_refl _⟩
      · linarith
      · exact ⟨h1, h2⟩
    have hunset : best.cost = -1 → b0.cost = -1 ∨ 0 ≤ b0.cost := by
      intro h
      rcases hstep with h1 | ⟨h1, -⟩
      · rw [h1]; exact Or.inl h
      · exact Or.inr h1
    obtain ⟨ih1, final, hfinal, hfin⟩ := ih (fun c hc => ht c (List.mem_cons_of_mem _ hc)) b0
    refine ⟨?_, final, ?_, ?_⟩
    · intro pre c suf h
      cases pre with
      | nil =>
        simp only [List.nil_append, List.cons.injEq] at h
        obtain ⟨rfl, -⟩ := h
        exact ⟨best, b0, rfl, hb0, hmono, hunset, fun h => ⟨h, le_refl _⟩⟩
      | cons p pre =>
        simp only [List.cons_append, List.cons.injEq] at h
        obtain ⟨rfl, h⟩ := h
        obtain ⟨b, b', h1, h2, h3, h4, h5⟩ := ih1 pre c suf h
        refine ⟨b, b', ?_, h2, h3, h4, ?_⟩
        · simp only [scoreSeq, hb0]; exact h1
        · intro h
          have := hmono h
          have := h5 this.1
          exact ⟨this.1, by linarith⟩
    · simp only [scoreSeq, hb0]; exact hfinal
    · intro h
      have h1 := hmono h
      have h2 := hfin h1.1
      exact ⟨h2.1, by linarith⟩

/-- C2, witness: the sequence of the two candidates `(0,1)` and `(1,1)` for the
target pixel `(0,0)` of a 2x2 image of zeros, on an unset slot. -/
theorem score_monotonic_witness :
    (1 : Int) ≤ 1
      ∧ (∀ c ∈ [((0 : Int), (1 : Int), (0 : Int), (0 : Int)), (1, 1, 0, 0)],
          zeros2x2.valid c.2.2.1 c.2.2.2 = true)
      ∧ ∃ final, scoreSeq zeros2x2 zeros2x2 1 [(0, 1, 0, 0), (1, 1, 0, 0)] ⟨0, 0, -1⟩ = some final
          ∧ ((0 : ℚ) ≤ (⟨0, 0, -1⟩ : Best).cost
            → 0 ≤ final.cost ∧ final.cost ≤ (⟨0, 0, -1⟩ : Best).cost) :=
  ⟨by decide, by decide,
    (score_monotonic zeros2x2 zeros2x2 1 (by decide) [(0, 1, 0, 0), (1, 1, 0, 0)] (by decide)
      ⟨0, 0, -1⟩).2⟩

/-- The tie-break of `score` where the conversion to `float` at line 365 is
exact: for a slot of cost `c ≥ 0` and an in-bounds candidate whose normalized
cost is `c` and whose squared displacement is below `2^24`: when the squared
displacement is strictly smaller than the slot's, `score` leaves `(vx, vy, c)`;
when it is strictly larger, the slot is unchanged.  Hence, of two such
candidates for one target pixel, scored in either order on a slot that is unset
or costs more than `c`, the one with the strictly smaller squared displacement
is retained. -/
theorem score_tie_break_exact (xTrg yTrg : Int) (imgSrc imgTrg : SimpleImage) (patchSize : Int)
    (best : Best) (c : ℚ) (x1 y1 : Int) (hb : 0 ≤ best.cost) (hbc : best.cost = c)
    (hv1 : imgSrc.valid x1 y1 = true)
    (hc1 : candidateCost x1 y1 xTrg yTrg imgSrc imgTrg patchSize = some c)
    (hsq1 : (x1 - xTrg) * (x1 - xTrg) + (y1 - yTrg) * (y1 - yTrg) < 2 ^ 24) :
    (candidateSq x1 y1 xTrg yTrg < best.sq →
        score x1 y1 xTrg yTrg imgSrc imgTrg patchSize best
          = some ⟨((x1 - xTrg : Int) : ℚ), ((y1 - yTrg : Int) : ℚ), c⟩)
      ∧ (best.sq < candidateSq x1 y1 xTrg yTrg →
        score x1 y1 xTrg yTrg imgSrc imgTrg patchSize best = some best)
      ∧ (∀ x2 y2 : Int, imgSrc.valid x2 y2 = true →
        candidateCost x2 y2 xTrg yTrg imgSrc imgTrg patchSize = some c →
        (x2 - xTrg) * (x2 - xTrg) + (y2 - yTrg) * (y2 - yTrg) < 2 ^ 24 →
        candidateSq x1 y1 xTrg yTrg < candidateSq x2 y2 xTrg yTrg →
        ∀ start : Best, (start.cost < 0 ∨ c < start.cost) →
          scoreSeq imgSrc imgTrg patchSize [(x1, y1, xTrg, yTrg), (x2, y2, xTrg, yTrg)] start
              = some ⟨((x1 - xTrg : Int) : ℚ), ((y1 - yTrg : Int) : ℚ), c⟩
            ∧ scoreSeq imgSrc imgTrg patchSize [(x2, y2, xTrg, yTrg), (x1, y1, xTrg, yTrg)] start
              = some ⟨((x1 - xTrg : Int) : ℚ), ((y1 - yTrg : Int) : ℚ), c⟩) := by
  have hc0 : 0 ≤ c := hbc ▸ hb
  have he1 := candidateSqFloat_eq x1 y1 xTrg yTrg hsq1
  refine ⟨?_, ?_, ?_⟩
  · intro h
    rw [score_eq_of_cost _ _ _ _ _ _ _ best c hv1 hc1, he1]
    simp [hbc, h.le, candidateSlot]
  · intro h
    rw [score_eq_of_cost _ _ _ _ _ _ _ best c hv1 hc1, he1]
    have h1 : ¬ (c < 0) := not_lt.mpr hc0
    have h2 : ¬ (candidateSq x1 y1 xTrg yTrg ≤ best.sq) := not_le.mpr h
    simp [hbc, h1, h2]
  · intro x2 y2 hv2 hc2 hsq2 h start hstart
    have he2 := candidateSqFloat_eq x2 y2 xTrg yTrg hsq2
    have hfirst : ∀ (x y : Int) (hv : imgSrc.valid x y = true)
        (hc : candidateCost x y xTrg yTrg imgSrc imgTrg patchSize = some c),
        score x y xTrg yTrg imgSrc imgTrg patchSize start = some (candidateSlot x y xTrg yTrg c) := by
      intro x y hv hc
      rw [score_eq_of_cost _ _ _ _ _ _ _ start c hv hc]
      have : start.cost < 0 ∨ c < start.cost
          ∨ (c = start.cost ∧ candidateSqFloat x y xTrg yTrg ≤ start.sq) := by
        rcases hstart with h | h
        · exact Or.inl h
        · exact Or.inr (Or.inl h)
      rw [if_pos this]
    have hsq : ∀ x y : Int, (candidateSlot x y xTrg yTrg c).sq = candidateSq x y xTrg yTrg := by
      intro x y
      simp only [candidateSlot, Best.sq, candidateSq]
      push_cast
      ring
    have h1 : ¬ (c < 0) := not_lt.mpr hc0
    constructor
    · simp only [scoreSeq, hfirst x1 y1 hv1 hc1]
      rw [score_eq_of_cost _ _ _ _ _ _ _ _ c hv2 hc2, he2]
      have h2 : ¬ (candidateSq x2 y2 xTrg yTrg ≤ candidateSq x1 y1 xTrg yTrg) := not_le.mpr h
      have h3 : (candidateSlot x1 y1 xTrg yTrg c).cost = c := rfl
      simp only [hsq, h3, h1, h2, lt_self_iff_false, and_false, or_self, if_false]
      rfl
    · simp only [scoreSeq, hfirst x2 y2 hv2 hc2]
      rw [score_eq_of_cost _ _ _ _ _ _ _ _ c hv1 hc1, he1]
      have h3 : (candidateSlot x2 y2 xTrg yTrg c).cost = c := rfl
      simp only [hsq, h3, h.le, and_self, or_true, if_true]
      rfl

/-- C3, at the failing input: on an image of zeros 4097 pixels wide with
`patchSize = 1` and target pixel `(0,0)`, the slot `(4096, 0, 0)` and the
in-bounds candidate `(4096, 1)` of equal cost `0`.  The candidate's squared
displacement `16777217` is strictly larger than the slot's `16777216`, but line
365 converts it to `float`, which gives `16777216`; the test fails and `score`
installs the candidate with the larger displacement. -/
theorem score_tie_break_float_rounding :
    flatWide.valid 4096 1 = true ∧ flatWide.valid 0 0 = true
      ∧ candidateCost 4096 1 0 0 flatWide flatWide 1 = some 0
      ∧ (⟨4096, 0, 0⟩ : Best).sq < candidateSq 4096 1 0 0
      ∧ candidateSqFloat 4096 1 0 0 = (⟨4096, 0, 0⟩ : Best).sq
      ∧ score 4096 1 0 0 flatWide flatWide 1 ⟨4096, 0, 0⟩ = some ⟨4096, 1, 0⟩ := by
  refine ⟨by decide, by decide, by decide!, ?_, by decide!, by decide!⟩
  norm_num [candidateSq, Best.sq]

/-- C4: for every candidate with `xSrc < 0`, `xSrc ≥ srcWidth`, `ySrc < 0` or
`ySrc ≥ srcHeight`, and every slot, target pixel, image pair and patch size,
`score` returns with `dx`, `dy` and `cost` of the slot exactly as they were. -/
theorem score_bounds_rejection (xSrc ySrc xTrg yTrg : Int) (imgSrc imgTrg : SimpleImage)
    (patchSize : Int) (best : Best)
    (h : xSrc < 0 ∨ imgSrc.width ≤ xSrc ∨ ySrc < 0 ∨ imgSrc.height ≤ ySrc) :
    score xSrc ySrc xTrg yTrg imgSrc imgTrg patchSize best = some best := by
  apply score_of_invalid
  unfold SimpleImage.valid
  rcases h with h | h | h | h
  · simp [not_le.mpr h]
  · simp [not_lt.mpr h]
  · simp [not_le.mpr h]
  · simp [not_lt.mpr h]

/-- C4, witness: the candidate `(2, 0)` lies outside a 2x2 source. -/
theorem score_bounds_rejection_witness :
    ((2 : Int) < 0 ∨ zeros2x2.width ≤ 2 ∨ (0 : Int) < 0 ∨ zeros2x2.height ≤ 0)
      ∧ score 2 0 0 0 zeros2x2 zeros2x2 3 ⟨1, 1, 5⟩ = some ⟨1, 1, 5⟩ :=
  ⟨by decide, score_bounds_rejection 2 0 0 0 zeros2x2 zeros2x2 3 ⟨1, 1, 5⟩ (by decide)⟩

/-- C5: for every slot with `cost = -1`, every source candidate and target pixel
in bounds and every `patchSize ≥ 1`, `score` leaves
`(xSrc - xTrg, ySrc - yTrg, cost)` where `cost` is the sum of absolute channel
differences over `min(source channels, target channels)` channels of the window
offsets in `[-(patchSize-1)/2, (patchSize-1)/2]²` whose source and target pixels
are both in bounds, times `patchSize² / count` when their number `count` is
below `patchSize²`; `count ≥ 1` and `cost ≥ 0`. -/
theorem score_unset (xSrc ySrc xTrg yTrg : Int) (imgSrc imgTrg : SimpleImage) (patchSize : Int)
    (best : Best) (hb : best.cost = -1) (hs : imgSrc.valid xSrc ySrc = true)
    (ht : imgTrg.valid xTrg yTrg = true) (hp : 1 ≤ patchSize) :
    score xSrc ySrc xTrg yTrg imgSrc imgTrg patchSize best
        = some ⟨(xSrc : ℚ) - (xTrg : ℚ), (ySrc : ℚ) - (yTrg : ℚ),
            costSpec xSrc ySrc xTrg yTrg imgSrc imgTrg patchSize⟩
      ∧ 1 ≤ (windowSpec xSrc ySrc xTrg yTrg imgSrc imgTrg patchSize).card
      ∧ 0 ≤ costSpec xSrc ySrc xTrg yTrg imgSrc imgTrg patchSize := by
  have hcount := count_pos xSrc ySrc xTrg yTrg imgSrc imgTrg patchSize hs ht hp
  rw [patchSum_eq_spec] at hcount
  have hcard : 1 ≤ (windowSpec xSrc ySrc xTrg yTrg imgSrc imgTrg patchSize).card := by
    simp only at hcount; omega
  have hc := candidateCost_eq_spec xSrc ySrc xTrg yTrg imgSrc imgTrg patchSize hcard
  obtain ⟨nc, hnc, hpos⟩ := candidateCost_defined xSrc ySrc xTrg yTrg imgSrc imgTrg patchSize
    hs ht hp
  rw [hc] at hnc
  simp only [Option.some.injEq] at hnc
  refine ⟨?_, hcard, hnc ▸ hpos⟩
  rw [score_eq_of_cost _ _ _ _ _ _ _ best _ hs hc]
  have : best.cost < 0 := by rw [hb]; norm_num
  simp only [this, true_or, if_true, candidateSlot]
  push_cast
  rfl

/-- C5, witness: the candidate `(0,1)` for the target pixel `(0,0)` of a 2x2
image of zeros with `patchSize = 3`, on an unset slot. -/
theorem score_unset_witness :
    (⟨0, 0, -1⟩ : Best).cost = -1 ∧ zeros2x2.valid 0 1 = true ∧ zeros2x2.valid 0 0 = true
      ∧ (1 : Int) ≤ 3
      ∧ score 0 1 0 0 zeros2x2 zeros2x2 3 ⟨0, 0, -1⟩
        = some ⟨((0 : Int) : ℚ) - ((0 : Int) : ℚ), ((1 : Int) : ℚ) - ((0 : Int) : ℚ),
            costSpec 0 1 0 0 zeros2x2 zeros2x2 3⟩ :=
  ⟨rfl, by decide, by decide, by decide,
    (score_unset 0 1 0 0 zeros2x2 zeros2x2 3 ⟨0, 0, -1⟩ rfl (by decide) (by decide)
      (by decide)).1⟩

/-! ## The claims on `resample` -/

/-- C6, at the failing input: a 1x1 one-channel image of constant value 1
resampled at scale 3 gives a 3x3 image whose pixel `(1,0)` is `-1`, not `1`:
there `totalWeight` is `-2/9`, not zero, while the weights applied in the
accumulation loop sum to `2/9`. -/
theorem resample_constant_upsample :
    (∀ i, one1x1.data i = 1)
      ∧ (resample one1x1 3).width = 3 ∧ (resample one1x1 3).height = 3
      ∧ (resample one1x1 3).pix 1 0 0 = -1
      ∧ resampleTotalWeight one1x1 3 1 0 = -2 / 9
      ∧ appliedWeight one1x1 3 1 0 = 2 / 9 := by
  refine ⟨fun _ => rfl, by decide!, by decide!, by decide!, by decide!, by decide!⟩

/-- C7, at the failing input: the 2x1 one-channel image with values `0, 1`
resampled at scale 3/4 gives a 2x1 image whose pixel `(0,0)` is `2/5`, while the
exact area-weighted average of the input over `[0, 4/3) × [0, 1)` is `1/4`. -/
theorem resample_area_average_fractional :
    (resample step2x1 (3 / 4)).width = 2 ∧ (resample step2x1 (3 / 4)).height = 1
      ∧ (resample step2x1 (3 / 4)).pix 0 0 0 = 2 / 5
      ∧ areaAverageSpec step2x1 (3 / 4) 0 0 0 = 1 / 4 := by
  refine ⟨by decide!, by decide!, by decide!, by decide!⟩

/-! ## The claim on `calculateNumLevelsAtTime` -/

/-- Above 1, the truncated logarithm of line 141 is the integer logarithm of the
integer part. -/
theorem truncLog2_of_one_le (q : ℚ) (hq : 1 ≤ q) :
    truncLog2 q = some (Nat.log 2 ⌊q⌋.toNat : Int) := by
  unfold truncLog2
  rw [if_neg (by linarith), if_pos hq]

/-- C8: for every `patchSize ≥ 1` and every minimum dimension `minDim` (the
smallest of the four widths and heights), `calculateNumLevelsAtTime` returns a
number of levels that is at least 1; it is 1 when `minDim ≤ patchSize`; when
`minDim > patchSize` it is the largest `n` with `patchSize * 2^(n-1) ≤ minDim`;
and for `minDim = patchSize * 2^k` it is `k + 1`. -/
theorem numLevels_formula (widthA heightA widthB heightB : ℚ) (patchSize : Int)
    (hp : 1 ≤ patchSize) :
    ∃ numLevels : Int,
      calculateNumLevelsAtTime widthA heightA widthB heightB patchSize = some numLevels
      ∧ 1 ≤ numLevels
      ∧ (min (min widthA widthB) (min heightA heightB) ≤ (patchSize : ℚ) → numLevels = 1)
      ∧ ((patchSize : ℚ) < min (min widthA widthB) (min heightA heightB) →
          (patchSize : ℚ) * 2 ^ (numLevels - 1).toNat
              ≤ min (min widthA widthB) (min heightA heightB)
          ∧ ∀ n : Int, 1 ≤ n →
              (patchSize : ℚ) * 2 ^ (n - 1).toNat
                ≤ min (min widthA widthB) (min heightA heightB) →
              n ≤ numLevels)
      ∧ (∀ k : Nat, min (min widthA widthB) (min heightA heightB) = (patchSize : ℚ) * 2 ^ k →
          numLevels = (k : Int) + 1) := by
  generalize hm : min (min widthA widthB) (min heightA heightB) = minDim
  have hpq : (1 : ℚ) ≤ (patchSize : ℚ) := by exact_mod_cast hp
  have hdef : calculateNumLevelsAtTime widthA heightA widthB heightB patchSize
      = if minDim ≤ (patchSize : ℚ) then some 1
        else match truncLog2 (minDim / (patchSize : ℚ)) with
          | none => none
          | some l => some (l + 1) := by
    unfold calculateNumLevelsAtTime
    simp only [hm]
  by_cases h : minDim ≤ (patchSize : ℚ)
  · refine ⟨1, by rw [hdef, if_pos h], le_refl _, fun _ => rfl, fun h' => absurd h (not_le.mpr h'),
      ?_⟩
    intro k hk
    have h2 : (2 : ℚ) ^ k ≤ 1 := by
      by_contra hcon
      have : (1 : ℚ) < 2 ^ k := not_le.mp hcon
      nlinarith
    have h3 : k = 0 := by
      by_contra hcon
      have : (2 : ℚ) ^ 1 ≤ 2 ^ k :=
        pow_le_pow_right₀ (by norm_num) (Nat.one_le_iff_ne_zero.mpr hcon)
      linarith
    simp [h3]
  · have hlt : (patchSize : ℚ) < minDim := not_le.mp h
    have hq : 1 ≤ minDim / (patchSize : ℚ) := by
      rw [le_div_iff₀ (by linarith), one_mul]; exact hlt.le
    have hfl1 : (1 : Int) ≤ ⌊minDim / (patchSize : ℚ)⌋ := Int.le_floor.mpr (by exact_mod_cast hq)
    have hcast : ((⌊minDim / (patchSize : ℚ)⌋.toNat : ℕ) : ℤ) = ⌊minDim / (patchSize : ℚ)⌋ :=
      Int.toNat_of_nonneg (by omega)
    have hne : ⌊minDim / (patchSize : ℚ)⌋.toNat ≠ 0 := by omega
    have hmul : ∀ m : Nat, (patchSize : ℚ) * 2 ^ m ≤ minDim ↔
        2 ^ m ≤ ⌊minDim / (patchSize : ℚ)⌋.toNat := by
      intro m
      rw [← Int.ofNat_le, hcast, Int.le_floor, le_div_iff₀ (by linarith), mul_comm]
      push_cast
      exact Iff.rfl
    refine ⟨(Nat.log 2 ⌊minDim / (patchSize : ℚ)⌋.toNat : Int) + 1, ?_, by omega,
      fun h' => absurd h' h, fun _ => ⟨?_, ?_⟩, ?_⟩
    · rw [hdef, if_neg h, truncLog2_of_one_le _ hq]
    · simp only [add_sub_cancel_right, Int.toNat_ofNat]
      exact (hmul _).mpr (Nat.pow_log_le_self 2 hne)
    · intro n hn hle
      have h3 := Nat.le_log_of_pow_le (by norm_num) ((hmul _).mp hle)
      omega
    · intro k hk
      have h1 : minDim / (patchSize : ℚ) = ((2 ^ k : ℕ) : ℚ) := by
        rw [hk, mul_div_cancel_left₀ _ (by linarith : (patchSize : ℚ) ≠ 0)]
        push_cast
        rfl
      have h2 : ⌊minDim / (patchSize : ℚ)⌋.toNat = 2 ^ k := by
        rw [h1, Int.floor_natCast, Int.toNat_ofNat]
      rw [h2, Nat.log_pow (by norm_num)]

/-- C8, witness: clips of 64x64 and 100x70 pixels with `patchSize = 8` have
minimum dimension `64 = 8 * 2^3`. -/
theorem numLevels_formula_witness :
    (1 : Int) ≤ 8
      ∧ ∃ numLevels : Int, calculateNumLevelsAtTime 64 64 100 70 8 = some numLevels
        ∧ 1 ≤ numLevels
        ∧ (min (min (64 : ℚ) 100) (min 64 70) ≤ ((8 : Int) : ℚ) → numLevels = 1)
        ∧ ((((8 : Int) : ℚ)) < min (min 64 100) (min 64 70) →
            ((8 : Int) : ℚ) * 2 ^ (numLevels - 1).toNat ≤ min (min 64 100) (min 64 70)
            ∧ ∀ n : Int, 1 ≤ n →
                ((8 : Int) : ℚ) * 2 ^ (n - 1).toNat ≤ min (min 64 100) (min 64 70) →
                n ≤ numLevels)
        ∧ (∀ k : Nat, min (min (64 : ℚ) 100) (min 64 70) = ((8 : Int) : ℚ) * 2 ^ k →
            numLevels = (k : Int) + 1) :=
  ⟨by decide, numLevels_formula 64 64 100 70 8 (by decide)⟩

/-! ## The claims on the level loop of `render` -/

theorem intRange_length (lo hi : Int) : (intRange lo hi).length = (hi - lo).toNat := by
  simp [intRange]

theorem intRange_getElem? (lo hi : Int) (i : Nat) (h : i < (hi - lo).toNat) :
    (intRange lo hi)[i]? = some (lo + (i : Int)) := by
  simp [intRange, List.getElem?_map, List.getElem?_range h]

theorem foldl_half (l : List Int) (s : ℚ) :
    l.foldl (fun scale _ => scale * (1 / 2)) s = s * (1 / 2) ^ l.length := by
  induction l generalizing s with
  | nil => simp
  | cons a l ih =>
    simp only [List.foldl_cons, ih, List.length_cons, pow_succ]
    ring

/-- After the loop of line 46 the scale is `2^(startLevel - numLevels)`. -/
theorem initialScale_eq (numLevels startLevel : Int) (h : startLevel ≤ numLevels) :
    initialScale numLevels startLevel = (2 : ℚ) ^ (startLevel - numLevels) := by
  unfold initialScale
  rw [foldl_half, List.length_reverse, intRange_length, one_mul]
  have h1 : startLevel - numLevels = -(((numLevels + 1 - (startLevel + 1)).toNat : ℕ) : ℤ) := by
    omega
  rw [h1, zpow_neg, zpow_natCast, one_div, inv_pow]

theorem levelLoop_length (l : List Int) (s : ℚ) : (levelLoop l s).length = l.length := by
  induction l generalizing s with
  | nil => rfl
  | cons a l ih => simp [levelLoop, ih]

theorem levelLoop_getElem? (l : List Int) (s : ℚ) (i : Nat) (level : Int)
    (h : l[i]? = some level) : (levelLoop l s)[i]? = some (level, s * 2 ^ i) := by
  induction l generalizing s i with
  | nil => simp at h
  | cons a l ih =>
    cases i with
    | zero =>
      simp only [List.getElem?_cons_zero, Option.some.injEq] at h
      simp [levelLoop, h]
    | succ i =>
      simp only [List.getElem?_cons_succ] at h
      simp only [levelLoop, List.getElem?_cons_succ, ih (s * 2) i h, pow_succ]
      congr 2
      ring

/-- C9: for every `numLevels ≥ 1` and every requested start and end level, the
clamped `startLevel` and `endLevel` lie in `[1, numLevels]`, and the level loop
of `render` processes `endLevel + 1 - startLevel` levels (none when
`startLevel > endLevel`), the `i`-th of them being `startLevel + i` with the
scale `2^(startLevel + i - numLevels)` passed to `resample`; level `numLevels`
is processed at scale 1. -/
theorem render_schedule (numLevels startLevelParam endLevelParam : Int) (hn : 1 ≤ numLevels) :
    (1 ≤ max 1 (min numLevels startLevelParam) ∧ max 1 (min numLevels startLevelParam) ≤ numLevels
        ∧ 1 ≤ max 1 (min numLevels endLevelParam)
        ∧ max 1 (min numLevels endLevelParam) ≤ numLevels)
      ∧ (renderSchedule numLevels startLevelParam endLevelParam).length
          = (max 1 (min numLevels endLevelParam) + 1 - max 1 (min numLevels startLevelParam)).toNat
      ∧ (∀ i : Nat,
          i < (max 1 (min numLevels endLevelParam) + 1
              - max 1 (min numLevels startLevelParam)).toNat →
          (renderSchedule numLevels startLevelParam endLevelParam)[i]?
            = some (max 1 (min numLevels startLevelParam) + (i : Int),
                (2 : ℚ) ^ (max 1 (min numLevels startLevelParam) + (i : Int) - numLevels)))
      ∧ (max 1 (min numLevels endLevelParam) < max 1 (min numLevels startLevelParam) →
          renderSchedule numLevels startLevelParam endLevelParam = [])
      ∧ (∀ scale, (numLevels, scale) ∈ renderSchedule numLevels startLevelParam endLevelParam →
          scale = 1) := by
  generalize hs : max 1 (min numLevels startLevelParam) = startLevel
  generalize he : max 1 (min numLevels endLevelParam) = endLevel
  have hs1 : 1 ≤ startLevel ∧ startLevel ≤ numLevels := by omega
  have he1 : 1 ≤ endLevel ∧ endLevel ≤ numLevels := by omega
  have hdef : renderSchedule numLevels startLevelParam endLevelParam
      = levelLoop (intRange startLevel (endLevel + 1)) (initialScale numLevels startLevel) := by
    unfold renderSchedule
    simp only [hs, he]
  have hlen : (renderSchedule numLevels startLevelParam endLevelParam).length
      = (endLevel + 1 - startLevel).toNat := by
    rw [hdef, levelLoop_length, intRange_length]
  have hget : ∀ i : Nat, i < (endLevel + 1 - startLevel).toNat →
      (renderSchedule numLevels startLevelParam endLevelParam)[i]?
        = some (startLevel + (i : Int), (2 : ℚ) ^ (startLevel + (i : Int) - numLevels)) := by
    intro i hi
    rw [hdef, levelLoop_getElem? _ _ i _ (intRange_getElem? _ _ i hi),
      initialScale_eq numLevels startLevel hs1.2]
    congr 2
    rw [← zpow_natCast, ← zpow_add₀ (by norm_num : (2 : ℚ) ≠ 0)]
    congr 1
    ring
  refine ⟨⟨hs1.1, hs1.2, he1.1, he1.2⟩, hlen, hget, ?_, ?_⟩
  · intro h
    apply List.eq_nil_of_length_eq_zero
    rw [hlen]
    omega
  · intro scale hmem
    obtain ⟨i, hi, hi2⟩ := List.getElem_of_mem hmem
    rw [hlen] at hi
    have h1 := hget i hi
    rw [List.getElem?_eq_getElem (by rw [hlen]; exact hi), hi2] at h1
    simp only [Option.some.injEq, Prod.mk.injEq] at h1
    rw [h1.2, ← h1.1]
    simp

/-- C9, witness: four levels with the requested range `0 .. 9` clamped to
`1 .. 4`. -/
theorem render_schedule_witness :
    (1 : Int) ≤ 4
      ∧ (renderSchedule 4 0 9).length = (max 1 (min 4 9) + 1 - max 1 (min (4 : Int) 0)).toNat
      ∧ (∀ scale, ((4 : Int), scale) ∈ renderSchedule 4 0 9 → scale = 1) :=
  ⟨by decide, (render_schedule 4 0 9 (by decide)).2.1, (render_schedule 4 0 9 (by decide)).2.2.2.2⟩

theorem intRange_cons (lo hi : Int) (h : lo < hi) :
    intRange lo hi = lo :: intRange (lo + 1) hi := by
  unfold intRange
  have h1 : (hi - lo).toNat = (hi - (lo + 1)).toNat + 1 := by omega
  rw [h1, List.range_succ_eq_map, List.map_cons, List.map_map]
  simp only [Nat.cast_zero, add_zero, List.cons.injEq, true_and]
  apply List.map_congr_left
  intro a _
  simp only [Function.comp, Nat.succ_eq_add_one, Nat.cast_add, Nat.cast_one]
  ring

theorem intRange_empty (lo hi : Int) (h : hi ≤ lo) : intRange lo hi = [] := by
  unfold intRange
  have : (hi - lo).toNat = 0 := by omega
  simp [this]

/-- The round bound of `sweepLoop` does not cut the loop short: from the index
`i`, any bound of at least `⌈iterations⌉ - i` rounds gives the same calls. -/
theorem sweepLoop_fuel (level endLevel : Int) (iterations : ℚ) (iterationLength : Int)
    (fuel : Nat) (i : Int) (h : (⌈iterations⌉ - i).toNat ≤ fuel) :
    sweepLoop level endLevel iterations iterationLength fuel i
      = sweepLoop level endLevel iterations iterationLength (⌈iterations⌉ - i).toNat i := by
  induction fuel generalizing i with
  | zero =>
    have : (⌈iterations⌉ - i).toNat = 0 := by omega
    rw [this]
  | succ n ih =>
    by_cases hlt : (i : ℚ) < iterations
    · have h1 : i < ⌈iterations⌉ := Int.lt_ceil.mpr hlt
      have h2 : (⌈iterations⌉ - i).toNat = (⌈iterations⌉ - (i + 1)).toNat + 1 := by omega
      rw [h2, sweepLoop, sweepLoop, if_pos hlt, if_pos hlt, ih (i + 1) (by omega)]
    · have h1 : ⌈iterations⌉ ≤ i := Int.ceil_le.mpr (not_lt.mp hlt)
      have h2 : (⌈iterations⌉ - i).toNat = 0 := by omega
      rw [h2, sweepLoop, sweepLoop, if_neg hlt]

/-- What the iteration loop of `render` does for a non-integer `iterations`:
`⌊iterations⌋` calls with `length = 0` followed by one call whose `length` is
`iterationLength` at the final level and `0` at any other level. -/
theorem sweepLoop_fractional (level endLevel : Int) (iterations : ℚ) (iterationLength : Int)
    (hnon : (⌊iterations⌋ : ℚ) ≠ iterations) (fuel : Nat) (i : Int)
    (hi : i + (fuel : Int) = ⌊iterations⌋) :
    sweepLoop level endLevel iterations iterationLength (fuel + 1) i
      = (intRange i ⌊iterations⌋).map (fun j => (j, (0 : Int)))
        ++ [(⌊iterations⌋, if level = endLevel then iterationLength else 0)] := by
  have hfl : (⌊iterations⌋ : ℚ) < iterations := lt_of_le_of_ne (Int.floor_le _) hnon
  have hlt : iterations < (⌊iterations⌋ : ℚ) + 1 := Int.lt_floor_add_one _
  induction fuel generalizing i with
  | zero =>
    have hi' : i = ⌊iterations⌋ := by simpa using hi
    subst hi'
    simp only [sweepLoop, hfl, if_true, Int.cast_add, Int.cast_one, hlt, and_true,
      intRange_empty _ _ (le_refl _), List.map_nil, List.nil_append]
  | succ n ih =>
    have h1 : i + 1 ≤ ⌊iterations⌋ := by push_cast at hi; omega
    have h2 : ((i + 1 : Int) : ℚ) ≤ (⌊iterations⌋ : ℚ) := by exact_mod_cast h1
    have h3 : (i : ℚ) < iterations := by push_cast at h2; linarith
    have h4 : ¬ (iterations < ((i + 1 : Int) : ℚ)) := by linarith
    rw [sweepLoop, if_pos h3, ih (i + 1) (by push_cast at hi ⊢; omega),
      intRange_cons i ⌊iterations⌋ (by omega)]
    simp only [h4, and_false, if_false, List.map_cons, List.cons_append]

/-- The sweeps `render` runs at one level for a non-integer `iterations > 0`:
`⌊iterations⌋` calls with `length = 0`, then one call whose `length` is
`⌊frac * width * height⌋` at the final level and `0` at an earlier level. -/
theorem renderSweeps_fractional (level endLevel : Int) (iterations : ℚ) (width height : Int)
    (hw : 0 ≤ width) (hh : 0 ≤ height)
    (hpos : 0 < iterations) (hnon : (⌊iterations⌋ : ℚ) ≠ iterations) :
    renderSweeps level endLevel iterations width height
      = (intRange 0 ⌊iterations⌋).map (fun j => (j, (0 : Int)))
        ++ [(⌊iterations⌋, if level = endLevel
              then ⌊(iterations - (⌊iterations⌋ : ℚ)) * (width : ℚ) * (height : ℚ)⌋ else 0)] := by
  have hfl0 : 0 ≤ ⌊iterations⌋ := Int.floor_nonneg.mpr hpos.le
  have hceil : ⌈iterations⌉ = ⌊iterations⌋ + 1 := by
    rw [Int.ceil_eq_iff]
    constructor
    · push_cast
      have := lt_of_le_of_ne (Int.floor_le iterations) hnon
      linarith
    · push_cast
      exact (Int.lt_floor_add_one _).le
  have hfuel : ⌈iterations⌉.toNat = ⌊iterations⌋.toNat + 1 := by omega
  unfold renderSweeps
  simp only
  rw [hfuel, sweepLoop_fractional level endLevel iterations _ hnon ⌊iterations⌋.toNat 0
    (by omega)]
  by_cases hl : level = endLevel
  · simp only [hl, if_true]
    have h1 : 0 ≤ iterations - (⌊iterations⌋ : ℚ) := sub_nonneg.mpr (Int.floor_le _)
    have h2 : (0 : ℚ) ≤ (width : ℚ) := by exact_mod_cast hw
    have h3 : (0 : ℚ) ≤ (height : ℚ) := by exact_mod_cast hh
    have h4 : 0 ≤ (iterations - (⌊iterations⌋ : ℚ)) * (width : ℚ) * (height : ℚ) :=
      mul_nonneg (mul_nonneg h1 h2) h3
    simp only [cTrunc, h4, if_true]
  · simp only [hl, if_false]

theorem rasterOrder_length (width height : Int) :
    (rasterOrder width height).length = height.toNat * width.toNat := by
  unfold rasterOrder
  rw [List.length_flatMap]
  have h : (List.length ∘ fun (yi : Int) => List.map (fun xi => (xi, yi)) (intRange 0 width))
      = fun _ => width.toNat := by
    funext yi
    simp only [Function.comp, List.length_map, intRange_length, sub_zero]
  rw [h, List.map_const', List.sum_replicate, intRange_length, sub_zero, smul_eq_mul]

theorem visitLoop_length (width height dir length : Int) (l : List (Int × Int)) (count : Int)
    (hc : 0 ≤ count) :
    (visitLoop width height dir length l count).length
      = if 0 < length ∧ count ≤ length then min l.length (length - count).toNat
        else l.length := by
  induction l generalizing count with
  | nil => simp [visitLoop]
  | cons p rest ih =>
    obtain ⟨xi, yi⟩ := p
    simp only [visitLoop]
    by_cases h1 : length ≠ 0 ∧ count = length
    · rw [if_pos h1, if_pos ⟨by omega, by omega⟩]
      simp only [List.length_nil, List.length_cons]
      omega
    · rw [if_neg h1, List.length_cons, List.length_cons, ih (count + 1) (by omega)]
      split_ifs with h2 h3 h3 <;> omega

/-- The number of pixels one call of `propagateAndSearch` visits: all of them
when `length` is `0`, and `length` of them (all, if there are fewer) when
`length > 0`. -/
theorem sweepVisits_length (width height iterationNum length : Int) :
    (sweepVisits width height iterationNum length).length
      = if 0 < length then min (height.toNat * width.toNat) length.toNat
        else height.toNat * width.toNat := by
  unfold sweepVisits
  simp only
  rw [visitLoop_length _ _ _ _ _ _ (le_refl _), rasterOrder_length]
  split_ifs with h1 h2 h2
  · simp
  · omega
  · omega
  · rfl

/-- C10, at the failing input: with `iterations = 3/2` and a 1x1 target at the
final level, `render` calls `propagateAndSearch` twice, both times with
`length = 0`; the last call, with `iterationNum = 1`, visits the one pixel of the
field, although `floor(frac * w * h) = floor(1/2) = 0`. -/
theorem render_fractional_last_sweep :
    renderSweeps 1 1 (3 / 2) 1 1 = [(0, 0), (1, 0)]
      ∧ sweepVisits 1 1 1 0 = [(0, 0)]
      ∧ ⌊((3 / 2 : ℚ) - (⌊(3 / 2 : ℚ)⌋ : ℚ)) * ((1 : Int) : ℚ) * ((1 : Int) : ℚ)⌋ = 0 := by
  refine ⟨by decide!, by decide!, by decide!⟩

/-! ## `resample` on a constant image when downsampling -/

theorem foldl_add_eq_sum {α : Type} (f : α → ℚ) (l : List α) (t : ℚ) :
    l.foldl (fun total s => total + f s) t = t + (l.map f).sum := by
  induction l generalizing t with
  | nil => simp
  | cons a l ih => simp only [List.foldl_cons, ih, List.map_cons, List.sum_cons]; ring

theorem edgeWeight_mul (w frac1 frac2 : ℚ) (i1 i2 s : Int) :
    edgeWeight w frac1 frac2 i1 i2 s = w * edgeWeight 1 frac1 frac2 i1 i2 s := by
  unfold edgeWeight
  split_ifs <;> ring

/-- The sum of the weights `resample` applies along one axis. -/
theorem axis_foldl (frac1 frac2 : ℚ) (i1 i2 : Int) (w v t : ℚ) :
    (intRange i1 i2).foldl (fun total s => total + v * edgeWeight w frac1 frac2 i1 i2 s) t
      = t + v * w * ((intRange i1 i2).map (edgeWeight 1 frac1 frac2 i1 i2)).sum := by
  rw [foldl_add_eq_sum (fun s => v * edgeWeight w frac1 frac2 i1 i2 s)]
  congr 1
  rw [← List.sum_map_mul_left]
  congr 1
  apply List.map_congr_left
  intro s _
  rw [edgeWeight_mul]
  ring

theorem intRange_snoc (lo hi : Int) (h : lo < hi) :
    intRange lo hi = intRange lo (hi - 1) ++ [hi - 1] := by
  unfold intRange
  have h1 : (hi - lo).toNat = (hi - 1 - lo).toNat + 1 := by omega
  rw [h1, List.range_succ, List.map_append, List.map_singleton]
  congr 2
  omega

/-- Away from both ends of the range every weight is 1. -/
theorem edgeWeight_middle_sum (frac1 frac2 : ℚ) (i1 i2 lo hi : Int) (h1 : i1 < lo)
    (h2 : hi ≤ i2 - 1) :
    ((intRange lo hi).map (edgeWeight 1 frac1 frac2 i1 i2)).sum = ((hi - lo).toNat : ℚ) := by
  have : (intRange lo hi).map (edgeWeight 1 frac1 frac2 i1 i2)
      = (intRange lo hi).map (fun _ => (1 : ℚ)) := by
    apply List.map_congr_left
    intro s hs
    rw [mem_intRange] at hs
    unfold edgeWeight
    rw [if_neg (fun h => by omega), if_neg (fun h => by omega)]
  rw [this, List.map_const', List.sum_replicate, intRange_length]
  simp

/-- The sum of the weights along one axis over the range `[i1, i2)`, when the two
fractional edges do not fall on the same input index. -/
theorem edgeWeight_sum (frac1 frac2 : ℚ) (i1 i2 : Int) (h : i1 < i2)
    (hmulti : frac1 ≠ 0 → frac2 ≠ 0 → i1 + 1 < i2) :
    ((intRange i1 i2).map (edgeWeight 1 frac1 frac2 i1 i2)).sum
      = ((i2 - i1 : Int) : ℚ) - (if frac1 ≠ 0 then 1 - frac1 else 0)
        - (if frac2 ≠ 0 then 1 - frac2 else 0) := by
  by_cases hn : i2 = i1 + 1
  · subst hn
    rw [intRange_cons i1 (i1 + 1) (by omega), intRange_empty _ _ (le_refl _)]
    simp only [List.map_cons, List.map_nil, List.sum_cons, List.sum_nil, add_zero, edgeWeight,
      add_sub_cancel_left, Int.cast_one, and_true, add_sub_cancel_right, one_mul]
    by_cases h1 : frac1 = 0
    · by_cases h2 : frac2 = 0
      · simp [h1, h2]
      · simp [h1, h2]
    · by_cases h2 : frac2 = 0
      · simp [h1, h2]
      · exact absurd (hmulti h1 h2) (by omega)
  · have hlt : i1 + 1 < i2 := by omega
    rw [intRange_cons i1 i2 h, intRange_snoc (i1 + 1) i2 hlt]
    simp only [List.map_cons, List.map_append, List.map_nil, List.sum_cons, List.sum_append,
      List.sum_nil, add_zero]
    rw [edgeWeight_middle_sum frac1 frac2 i1 i2 (i1 + 1) (i2 - 1) (by omega) (le_refl _)]
    have hcast : (((i2 - 1 - (i1 + 1)).toNat : ℕ) : ℚ) = ((i2 - i1 : Int) : ℚ) - 2 := by
      have : (((i2 - 1 - (i1 + 1)).toNat : ℕ) : ℤ) = i2 - i1 - 2 := by omega
      have h3 : ((((i2 - 1 - (i1 + 1)).toNat : ℕ) : ℤ) : ℚ) = ((i2 - i1 - 2 : Int) : ℚ) := by
        rw [this]
      push_cast at h3 ⊢
      linarith
    rw [hcast]
    have hne1 : ¬ (i1 = i2 - 1) := by omega
    have hne2 : ¬ (i2 - 1 = i1) := by omega
    simp only [edgeWeight, hne1, hne2, and_false, if_false, and_true, one_mul]
    by_cases h1 : frac1 = 0 <;> by_cases h2 : frac2 = 0 <;> simp [h1, h2] <;> ring

/-- The weights applied along one axis over the sample `[a, b)` sum to the value
`sampWholes + frac1 + frac2` that `totalWeight` is built from, and the sum is
positive, provided the sample is longer than 1 whenever both of its ends are
fractional. -/
theorem axis_weight (a b : ℚ) (hab : a < b)
    (hlen : a - (⌊a⌋ : ℚ) ≠ 0 → (⌈b⌉ : ℚ) - b ≠ 0 → 1 < b - a) :
    ((intRange ⌊a⌋ ⌈b⌉).map (edgeWeight 1 (a - (⌊a⌋ : ℚ)) ((⌈b⌉ : ℚ) - b) ⌊a⌋ ⌈b⌉)).sum
        = ((⌊b⌋ - ⌈a⌉ : Int) : ℚ) + (a - (⌊a⌋ : ℚ)) + ((⌈b⌉ : ℚ) - b)
      ∧ 0 < ((⌊b⌋ - ⌈a⌉ : Int) : ℚ) + (a - (⌊a⌋ : ℚ)) + ((⌈b⌉ : ℚ) - b) := by
  have hfa : (⌊a⌋ : ℚ) ≤ a := Int.floor_le a
  have hfa2 : a < (⌊a⌋ : ℚ) + 1 := Int.lt_floor_add_one a
  have hcb : b ≤ (⌈b⌉ : ℚ) := Int.le_ceil b
  have hcb2 : (⌈b⌉ : ℚ) < b + 1 := Int.ceil_lt_add_one b
  have hn : ⌊a⌋ < ⌈b⌉ := by
    have : (⌊a⌋ : ℚ) < (⌈b⌉ : ℚ) := by linarith
    exact_mod_cast this
  have hmulti : a - (⌊a⌋ : ℚ) ≠ 0 → (⌈b⌉ : ℚ) - b ≠ 0 → ⌊a⌋ + 1 < ⌈b⌉ := by
    intro h1 h2
    have h3 := hlen h1 h2
    have : ((⌊a⌋ + 1 : Int) : ℚ) < (⌈b⌉ : ℚ) := by push_cast; linarith
    exact_mod_cast this
  have hceil : (⌈a⌉ : ℚ) = (⌊a⌋ : ℚ) + (if a - (⌊a⌋ : ℚ) ≠ 0 then 1 else 0) := by
    by_cases h1 : a - (⌊a⌋ : ℚ) ≠ 0
    · rw [if_pos h1]
      have : ⌈a⌉ = ⌊a⌋ + 1 := by
        rw [Int.ceil_eq_iff]
        push_cast
        constructor
        · have : (⌊a⌋ : ℚ) ≠ a := fun h => h1 (by rw [h]; ring)
          have := lt_of_le_of_ne hfa this
          linarith
        · linarith
      rw [this]; push_cast; ring
    · rw [if_neg h1]
      have h2 : a = (⌊a⌋ : ℚ) := by
        have := not_not.mp h1
        linarith
      have : ⌈a⌉ = ⌊a⌋ := by
        conv_lhs => rw [h2]
        exact Int.ceil_intCast _
      rw [this]; ring
  have hfloor : (⌊b⌋ : ℚ) = (⌈b⌉ : ℚ) - (if (⌈b⌉ : ℚ) - b ≠ 0 then 1 else 0) := by
    by_cases h1 : (⌈b⌉ : ℚ) - b ≠ 0
    · rw [if_pos h1]
      have : ⌊b⌋ = ⌈b⌉ - 1 := by
        rw [Int.floor_eq_iff]
        push_cast
        constructor
        · linarith
        · have : b ≠ (⌈b⌉ : ℚ) := fun h => h1 (by rw [← h]; ring)
          have := lt_of_le_of_ne hcb this
          linarith
      rw [this]; push_cast; ring
    · rw [if_neg h1]
      have h2 : b = (⌈b⌉ : ℚ) := by
        have := not_not.mp h1
        linarith
      have : ⌊b⌋ = ⌈b⌉ := by
        conv_lhs => rw [h2]
        exact Int.floor_intCast _
      rw [this]; ring
  have hsum := edgeWeight_sum (a - (⌊a⌋ : ℚ)) ((⌈b⌉ : ℚ) - b) ⌊a⌋ ⌈b⌉ hn hmulti
  have hnq : (1 : ℚ) ≤ ((⌈b⌉ - ⌊a⌋ : Int) : ℚ) := by
    have : (1 : Int) ≤ ⌈b⌉ - ⌊a⌋ := by omega
    exact_mod_cast this
  have heq : ((⌊b⌋ - ⌈a⌉ : Int) : ℚ) + (a - (⌊a⌋ : ℚ)) + ((⌈b⌉ : ℚ) - b)
      = ((⌈b⌉ - ⌊a⌋ : Int) : ℚ) - (if a - (⌊a⌋ : ℚ) ≠ 0 then 1 - (a - (⌊a⌋ : ℚ)) else 0)
        - (if (⌈b⌉ : ℚ) - b ≠ 0 then 1 - ((⌈b⌉ : ℚ) - b) else 0) := by
    push_cast
    rw [hfloor, hceil]
    by_cases h1 : a - (⌊a⌋ : ℚ) ≠ 0 <;> by_cases h2 : (⌈b⌉ : ℚ) - b ≠ 0
    · rw [if_pos h1, if_pos h2, if_pos h1, if_pos h2]; ring
    · rw [if_pos h1, if_neg h2, if_pos h1, if_neg h2]
      have e2 := not_not.mp h2
      linarith
    · rw [if_neg h1, if_pos h2, if_neg h1, if_pos h2]
      have e1 := not_not.mp h1
      linarith
    · rw [if_neg h1, if_neg h2, if_neg h1, if_neg h2]
      have e1 := not_not.mp h1
      have e2 := not_not.mp h2
      linarith
  refine ⟨by rw [hsum, heq], ?_⟩
  rw [heq]
  by_cases h1 : a - (⌊a⌋ : ℚ) ≠ 0 <;> by_cases h2 : (⌈b⌉ : ℚ) - b ≠ 0
  · have h3 := hmulti h1 h2
    have h4 : (2 : ℚ) ≤ ((⌈b⌉ - ⌊a⌋ : Int) : ℚ) := by
      have : (2 : Int) ≤ ⌈b⌉ - ⌊a⌋ := by omega
      exact_mod_cast this
    have h5 : 0 < a - (⌊a⌋ : ℚ) := lt_of_le_of_ne (by linarith) (Ne.symm h1)
    have h6 : 0 < (⌈b⌉ : ℚ) - b := lt_of_le_of_ne (by linarith) (Ne.symm h2)
    rw [if_pos h1, if_pos h2]
    linarith
  · have h5 : 0 < a - (⌊a⌋ : ℚ) := lt_of_le_of_ne (by linarith) (Ne.symm h1)
    rw [if_pos h1, if_neg h2]
    linarith
  · have h6 : 0 < (⌈b⌉ : ℚ) - b := lt_of_le_of_ne (by linarith) (Ne.symm h2)
    rw [if_neg h1, if_pos h2]
    linarith
  · rw [if_neg h1, if_neg h2]
    linarith

/-- The sum of the weights along one axis for the output index `x`, as the loops
of `resample` apply them. -/
theorem resampleTotal_const (image : SimpleImage) (scale v : ℚ) (hc : ∀ i, image.data i = v)
    (x y c : Int) :
    resampleTotal image scale x y c = v * appliedWeight image scale x y := by
  unfold resampleTotal appliedWeight axisSample
  simp only [hc]
  have h1 : ∀ (l1 l2 : List Int) (f1 f2 g1 g2 : ℚ) (a1 a2 b1 b2 : Int) (t : ℚ),
      l1.foldl (fun total sy => l2.foldl
          (fun total sx => total + v * edgeWeight (edgeWeight 1 f1 f2 a1 a2 sy) g1 g2 b1 b2 sx)
          total) (v * t)
        = v * l1.foldl (fun total sy => l2.foldl
          (fun total sx => total + edgeWeight (edgeWeight 1 f1 f2 a1 a2 sy) g1 g2 b1 b2 sx)
          total) t := by
    intro l1 l2 f1 f2 g1 g2 a1 a2 b1 b2
    have h2 : ∀ (w t : ℚ), l2.foldl (fun total sx => total + v * edgeWeight w g1 g2 b1 b2 sx)
        (v * t) = v * l2.foldl (fun total sx => total + edgeWeight w g1 g2 b1 b2 sx) t := by
      intro w
      induction l2 with
      | nil => intro t; rfl
      | cons s l2 ih =>
        intro t
        simp only [List.foldl_cons]
        rw [← mul_add, ih]
    induction l1 with
    | nil => intro t; rfl
    | cons s l1 ih =>
      intro t
      simp only [List.foldl_cons]
      rw [h2, ih]
  simpa using h1 _ _ _ _ _ _ _ _ _ _ 0

/-- The weights `resample` applies for one output pixel are the product of the
sums along the two axes. -/
theorem appliedWeight_eq (image : SimpleImage) (scale : ℚ) (x y : Int) :
    appliedWeight image scale x y
      = ((intRange ⌊(y : ℚ) * (1 / scale)⌋
            ⌈min (image.height : ℚ) (((y : ℚ) + 1) * (1 / scale))⌉).map
          (edgeWeight 1 ((y : ℚ) * (1 / scale) - (⌊(y : ℚ) * (1 / scale)⌋ : ℚ))
            ((⌈min (image.height : ℚ) (((y : ℚ) + 1) * (1 / scale))⌉ : ℚ)
              - min (image.height : ℚ) (((y : ℚ) + 1) * (1 / scale)))
            ⌊(y : ℚ) * (1 / scale)⌋
            ⌈min (image.height : ℚ) (((y : ℚ) + 1) * (1 / scale))⌉)).sum
        * ((intRange ⌊(x : ℚ) * (1 / scale)⌋
            ⌈min (image.width : ℚ) (((x : ℚ) + 1) * (1 / scale))⌉).map
          (edgeWeight 1 ((x : ℚ) * (1 / scale) - (⌊(x : ℚ) * (1 / scale)⌋ : ℚ))
            ((⌈min (image.width : ℚ) (((x : ℚ) + 1) * (1 / scale))⌉ : ℚ)
              - min (image.width : ℚ) (((x : ℚ) + 1) * (1 / scale)))
            ⌊(x : ℚ) * (1 / scale)⌋
            ⌈min (image.width : ℚ) (((x : ℚ) + 1) * (1 / scale))⌉)).sum := by
  unfold appliedWeight axisSample
  simp only
  have h1 : ∀ (l : List Int) (f1 f2 : ℚ) (i1 i2 : Int) (w t : ℚ),
      l.foldl (fun total s => total + edgeWeight w f1 f2 i1 i2 s) t
        = t + w * (l.map (edgeWeight 1 f1 f2 i1 i2)).sum := by
    intro l f1 f2 i1 i2 w t
    rw [foldl_add_eq_sum (fun s => edgeWeight w f1 f2 i1 i2 s), ← List.sum_map_mul_left]
    congr 2
    apply List.map_congr_left
    intro s _
    rw [edgeWeight_mul]
  simp only [h1]
  rw [foldl_add_eq_sum (fun sy => edgeWeight 1 _ _ _ _ sy * _), List.sum_map_mul_right, zero_add]

/-- An output index below the output extent has its sample start inside the
input. -/
theorem sample_start_lt (size : Int) (scale : ℚ) (x : Int) (hs0 : 0 < scale) (hsize : 1 ≤ size)
    (hx : x < max 1 (cRound ((size : ℚ) * scale))) : (x : ℚ) * (1 / scale) < (size : ℚ) := by
  have hsq : (1 : ℚ) ≤ (size : ℚ) := by exact_mod_cast hsize
  rw [mul_one_div, div_lt_iff₀ hs0]
  rcases le_or_lt (cRound ((size : ℚ) * scale)) 1 with h | h
  · have hx0 : x ≤ 0 := by rw [max_eq_left h] at hx; omega
    have : (x : ℚ) ≤ 0 := by exact_mod_cast hx0
    nlinarith
  · rw [max_eq_right h.le] at hx
    have hpos : 0 ≤ (size : ℚ) * scale := by nlinarith
    unfold cRound at hx
    rw [if_pos hpos] at hx
    have h1 : x + 1 ≤ ⌊(size : ℚ) * scale + 1 / 2⌋ := by omega
    have h2 : ((x + 1 : Int) : ℚ) ≤ (size : ℚ) * scale + 1 / 2 := Int.le_floor.mp h1
    push_cast at h2
    linarith

/-- When downsampling, the sample of an output index along one axis is not empty,
and it is longer than 1 whenever both of its ends are fractional. -/
theorem sample_shape (size : Int) (scale : ℚ) (x : Int) (hs0 : 0 < scale) (hs1 : scale < 1)
    (hxs : (x : ℚ) * (1 / scale) < (size : ℚ)) :
    (x : ℚ) * (1 / scale) < min (size : ℚ) (((x : ℚ) + 1) * (1 / scale))
      ∧ ((x : ℚ) * (1 / scale) - (⌊(x : ℚ) * (1 / scale)⌋ : ℚ) ≠ 0 →
          (⌈min (size : ℚ) (((x : ℚ) + 1) * (1 / scale))⌉ : ℚ)
              - min (size : ℚ) (((x : ℚ) + 1) * (1 / scale)) ≠ 0 →
          1 < min (size : ℚ) (((x : ℚ) + 1) * (1 / scale)) - (x : ℚ) * (1 / scale)) := by
  have hss : 1 < 1 / scale := by rw [lt_div_iff₀ hs0]; linarith
  constructor
  · rw [lt_min_iff]
    exact ⟨hxs, by nlinarith⟩
  · intro _ h2
    rcases le_total (size : ℚ) (((x : ℚ) + 1) * (1 / scale)) with h | h
    · rw [min_eq_left h] at h2
      exact absurd (by rw [Int.ceil_intCast]; ring) h2
    · rw [min_eq_right h]
      linarith

theorem resampleTotalWeight_eq (image : SimpleImage) (scale : ℚ) (x y : Int) :
    resampleTotalWeight image scale x y
      = (((⌊min (image.height : ℚ) (((y : ℚ) + 1) * (1 / scale))⌋
            - ⌈(y : ℚ) * (1 / scale)⌉ : Int) : ℚ)
          + ((y : ℚ) * (1 / scale) - (⌊(y : ℚ) * (1 / scale)⌋ : ℚ))
          + ((⌈min (image.height : ℚ) (((y : ℚ) + 1) * (1 / scale))⌉ : ℚ)
              - min (image.height : ℚ) (((y : ℚ) + 1) * (1 / scale))))
        * (((⌊min (image.width : ℚ) (((x : ℚ) + 1) * (1 / scale))⌋
            - ⌈(x : ℚ) * (1 / scale)⌉ : Int) : ℚ)
          + ((x : ℚ) * (1 / scale) - (⌊(x : ℚ) * (1 / scale)⌋ : ℚ))
          + ((⌈min (image.width : ℚ) (((x : ℚ) + 1) * (1 / scale))⌉ : ℚ)
              - min (image.width : ℚ) (((x : ℚ) + 1) * (1 / scale)))) := by
  unfold resampleTotalWeight axisSample
  simp only
  push_cast
  ring

/-- Area conservation when downsampling: for `0 < scale < 1`, an input of at
least one pixel and an output pixel `(x, y)` inside the output, the weights
applied by the accumulation loops sum to `totalWeight`, which is positive, and
a constant input `v` gives the output value `v`. -/
theorem resample_constant_downsample (image : SimpleImage) (scale v : ℚ) (hs0 : 0 < scale)
    (hs1 : scale < 1) (hw : 1 ≤ image.width) (hh : 1 ≤ image.height)
    (hc : ∀ i, image.data i = v) (x y c : Int)
    (hx : x < max 1 (cRound ((image.width : ℚ) * scale)))
    (hy : y < max 1 (cRound ((image.height : ℚ) * scale))) :
    appliedWeight image scale x y = resampleTotalWeight image scale x y
      ∧ 0 < resampleTotalWeight image scale x y
      ∧ resamplePixel image scale x y c = v := by
  obtain ⟨hx1, hx2⟩ := sample_shape image.width scale x hs0 hs1
    (sample_start_lt image.width scale x hs0 hw hx)
  obtain ⟨hy1, hy2⟩ := sample_shape image.height scale y hs0 hs1
    (sample_start_lt image.height scale y hs0 hh hy)
  obtain ⟨hax, hpx⟩ := axis_weight _ _ hx1 hx2
  obtain ⟨hay, hpy⟩ := axis_weight _ _ hy1 hy2
  have happ : appliedWeight image scale x y = resampleTotalWeight image scale x y := by
    rw [appliedWeight_eq, resampleTotalWeight_eq, hax, hay]
  have hpos : 0 < resampleTotalWeight image scale x y := by
    rw [resampleTotalWeight_eq]
    exact mul_pos hpy hpx
  refine ⟨happ, hpos, ?_⟩
  unfold resamplePixel
  rw [resampleTotal_const image scale v hc, happ, mul_div_assoc, div_self hpos.ne', mul_one]

/-- The C `round` is rounding half away from zero. -/
theorem cRound_eq_spec (q : ℚ) : cRound q = roundHalfAwaySpec q := by
  unfold cRound roundHalfAwaySpec
  split_ifs with h
  · rw [abs_of_nonneg h]
  · have hneg : q < 0 := not_le.mp h
    rw [abs_of_neg hneg, ← Int.ceil_neg]
    congr 1
    ring

/-- The rounded value is a nearest integer. -/
theorem roundHalfAwaySpec_near (q : ℚ) : |(roundHalfAwaySpec q : ℚ) - q| ≤ 1 / 2 := by
  unfold roundHalfAwaySpec
  split_ifs with h
  · rw [abs_of_nonneg h, abs_le]
    have h1 := Int.floor_le (q + 1 / 2)
    have h2 := Int.lt_floor_add_one (q + 1 / 2)
    constructor <;> linarith
  · have hneg : q < 0 := not_le.mp h
    rw [abs_of_neg hneg, abs_le]
    have h1 := Int.floor_le (-q + 1 / 2)
    have h2 := Int.lt_floor_add_one (-q + 1 / 2)
    push_cast
    constructor <;> linarith

/-- C11: for every input and every scale other than 1 (so for every scale `> 0`
other than 1 and every `w, h ≥ 1`), `resample` returns an image of width
`max(1, round(w * scale))`, height `max(1, round(h * scale))`, `round` rounding
half away from zero, with the input's channel count; hence the output width and
height are at least 1. -/
theorem resample_size (image : SimpleImage) (scale : ℚ) (hs : scale ≠ 1) :
    (resample image scale).width = max 1 (roundHalfAwaySpec ((image.width : ℚ) * scale))
      ∧ (resample image scale).height = max 1 (roundHalfAwaySpec ((image.height : ℚ) * scale))
      ∧ (resample image scale).components = image.components
      ∧ 1 ≤ (resample image scale).width ∧ 1 ≤ (resample image scale).height := by
  unfold resample
  rw [if_neg hs, ← cRound_eq_spec, ← cRound_eq_spec]
  exact ⟨rfl, rfl, rfl, le_max_left _ _, le_max_left _ _⟩

/-- C11, witness: a 2x1 image at scale 1/100 gives a 1x1 image. -/
theorem resample_size_witness :
    (1 / 100 : ℚ) ≠ 1
      ∧ (resample step2x1 (1 / 100)).width
          = max 1 (roundHalfAwaySpec ((step2x1.width : ℚ) * (1 / 100)))
      ∧ 1 ≤ (resample step2x1 (1 / 100)).width :=
  ⟨by norm_num, (resample_size step2x1 (1 / 100) (by norm_num)).1,
    (resample_size step2x1 (1 / 100) (by norm_num)).2.2.2.1⟩

/-! ## Further claims on `score` -/

/-- C14: for every slot, candidate, target pixel, image pair and patch size,
`score` with the in-loop early return leaves the slot in exactly the state the
same function without that early return leaves it in (and is undefined exactly
when that one is): a pruned candidate would not have been accepted. -/
theorem score_pruning_sound (xSrc ySrc xTrg yTrg : Int) (imgSrc imgTrg : SimpleImage)
    (patchSize : Int) (best : Best) :
    score xSrc ySrc xTrg yTrg imgSrc imgTrg patchSize best
      = scoreUnpruned xSrc ySrc xTrg yTrg imgSrc imgTrg patchSize best := by
  cases hv : imgSrc.valid xSrc ySrc with
  | false =>
    rw [score_of_invalid _ _ _ _ _ _ _ _ hv]
    simp [scoreUnpruned, hv]
  | true =>
    have hu : scoreUnpruned xSrc ySrc xTrg yTrg imgSrc imgTrg patchSize best
        = match candidateCost xSrc ySrc xTrg yTrg imgSrc imgTrg patchSize with
          | none => none
          | some total => some (accept xSrc ySrc xTrg yTrg total best) := by
      simp only [scoreUnpruned, hv, Bool.not_true, Bool.false_eq_true, if_false, candidateCost]
    rw [hu]
    cases hc : candidateCost xSrc ySrc xTrg yTrg imgSrc imgTrg patchSize with
    | none => exact score_of_cost_none _ _ _ _ _ _ _ best hv hc
    | some nc =>
      rw [score_eq_of_cost _ _ _ _ _ _ _ best nc hv hc]
      simp only [accept_eq]

/-- Scoring a pixel against itself in one image costs nothing. -/
theorem candidateCost_self (img : SimpleImage) (x y patchSize : Int)
    (hv : img.valid x y = true) (hp : 1 ≤ patchSize) :
    candidateCost x y x y img img patchSize = some 0 := by
  have hcount := count_pos x y x y img img patchSize hv hv hp
  rw [patchSum_eq_spec] at hcount
  have hcard : 1 ≤ (windowSpec x y x y img img patchSize).card := by
    simp only at hcount; omega
  rw [candidateCost_eq_spec x y x y img img patchSize hcard]
  have hsad : sadSpec x y x y img img patchSize = 0 := by
    unfold sadSpec
    simp
  unfold costSpec
  rw [hsad]
  simp

/-- C20: for every image pair, every `patchSize ≥ 1`, every candidate and every
target pixel (a pixel inside the target image), a slot `(0, 0, 0)` is `(0, 0, 0)`
after `score`; and when source and target are the same image, scoring the
candidate `(x, y)` for the target pixel `(x, y)` of that image leaves
`(0, 0, 0)` whatever the slot was. -/
theorem score_zero_absorbing (imgSrc imgTrg : SimpleImage) (patchSize : Int)
    (hp : 1 ≤ patchSize) (xTrg yTrg : Int) (ht : imgTrg.valid xTrg yTrg = true) :
    (∀ xSrc ySrc : Int,
        score xSrc ySrc xTrg yTrg imgSrc imgTrg patchSize ⟨0, 0, 0⟩ = some ⟨0, 0, 0⟩)
      ∧ (∀ best : Best,
        score xTrg yTrg xTrg yTrg imgTrg imgTrg patchSize best = some ⟨0, 0, 0⟩) := by
  constructor
  · intro xSrc ySrc
    cases hs : imgSrc.valid xSrc ySrc with
    | false => exact score_of_invalid _ _ _ _ _ _ _ _ hs
    | true =>
      obtain ⟨nc, hc, hnc⟩ := candidateCost_defined xSrc ySrc xTrg yTrg imgSrc imgTrg patchSize
        hs ht hp
      rw [score_eq_of_cost _ _ _ _ _ _ _ _ nc hs hc]
      split_ifs with h
      · simp only [lt_self_iff_false, false_or] at h
        rcases h with h | ⟨h1, h2⟩
        · exact absurd h (not_lt.mpr hnc)
        · simp only [Best.sq, mul_zero, add_zero] at h2
          obtain ⟨hx, hy⟩ := candidateSqFloat_le_zero xSrc ySrc xTrg yTrg h2
          simp [candidateSlot, hx, hy, h1]
      · rfl
  · intro best
    rw [score_eq_of_cost _ _ _ _ _ _ _ best 0 ht (candidateCost_self imgTrg xTrg yTrg patchSize ht hp)]
    have hsq : candidateSqFloat xTrg yTrg xTrg yTrg ≤ best.sq := by
      rw [candidateSqFloat_self]
      simp only [Best.sq]
      nlinarith [mul_self_nonneg best.dx, mul_self_nonneg best.dy]
    have hcond : best.cost < 0 ∨ 0 < best.cost
        ∨ (0 = best.cost ∧ candidateSqFloat xTrg yTrg xTrg yTrg ≤ best.sq) := by
      rcases lt_trichotomy best.cost 0 with h | h | h
      · exact Or.inl h
      · exact Or.inr (Or.inr ⟨h.symm, hsq⟩)
      · exact Or.inr (Or.inl h)
    rw [if_pos hcond]
    simp [candidateSlot]

/-- C20, witness: the target pixel `(1, 0)` of a 2x2 image of zeros with
`patchSize = 3`. -/
theorem score_zero_absorbing_witness :
    (1 : Int) ≤ 3 ∧ zeros2x2.valid 1 0 = true
      ∧ score 0 1 1 0 zeros2x2 zeros2x2 3 ⟨0, 0, 0⟩ = some ⟨0, 0, 0⟩
      ∧ score 1 0 1 0 zeros2x2 zeros2x2 3 ⟨1, 1, 5⟩ = some ⟨0, 0, 0⟩ :=
  ⟨by decide, by decide,
    (score_zero_absorbing zeros2x2 zeros2x2 3 (by decide) 1 0 (by decide)).1 0 1,
    (score_zero_absorbing zeros2x2 zeros2x2 3 (by decide) 1 0 (by decide)).2 ⟨1, 1, 5⟩⟩

/-! ## The claim on the write-out of `render` -/

theorem writeChannels_eq (field : SimpleImage) (x y base : Int) (n : Nat) :
    ∀ (k outPix : Int) (dst : Int → Int → Int → ℚ) (hi : Int), (hi - k).toNat = n →
      (k < field.components → outPix = base + k) → ∀ x' y' c' : Int,
      writeChannels field x y (intRange k hi) (dst, outPix) x' y' c'
        = if x' = x ∧ y' = y ∧ k ≤ c' ∧ c' < hi then
            (if c' < field.components then field.data (base + c') else 0)
          else dst x' y' c' := by
  induction n with
  | zero =>
    intro k outPix dst hi hn _ x' y' c'
    rw [intRange_empty k hi (by omega)]
    simp only [writeChannels]
    rw [if_neg (by omega)]
  | succ n ih =>
    intro k outPix dst hi hn hout x' y' c'
    rw [intRange_cons k hi (by omega)]
    simp only [writeChannels]
    by_cases hk : k < field.components
    · have ho := hout hk
      rw [if_pos hk, ih (k + 1) (outPix + 1) _ hi (by omega) (by intro _; omega)]
      unfold setChannel
      split_ifs <;> first | rfl | (exfalso; omega) | (congr 1; omega)
    · rw [if_neg hk, ih (k + 1) outPix _ hi (by omega) (by intro h; omega)]
      unfold setChannel
      split_ifs <;> first | rfl | (exfalso; omega)

/-- The value `render` leaves in channel `c` of the destination pixel `(x, y)`:
what the write-out of one field pixel puts there. -/
theorem writeRow_eq (field : SimpleImage) (rodX1 rodY1 dstComponents y : Int) (n : Nat) :
    ∀ (k hi : Int) (dst : Int → Int → Int → ℚ), (hi - k).toNat = n → ∀ x' y' c' : Int,
      writeRow field rodX1 rodY1 dstComponents y (intRange k hi) dst x' y' c'
        = if y' = y ∧ (k ≤ x' ∧ x' < hi)
              ∧ ¬ (x' - rodX1 < 0 ∨ field.width ≤ x' - rodX1 ∨ y - rodY1 < 0
                ∨ field.height ≤ y - rodY1)
              ∧ (0 ≤ c' ∧ c' < dstComponents) then
            (if c' < field.components then
              field.data (((y - rodY1) * field.width + (x' - rodX1)) * field.components + c')
            else 0)
          else dst x' y' c' := by
  induction n with
  | zero =>
    intro k hi dst hn x' y' c'
    rw [intRange_empty k hi (by omega)]
    simp only [writeRow]
    rw [if_neg (by omega)]
  | succ n ih =>
    intro k hi dst hn x' y' c'
    rw [intRange_cons k hi (by omega)]
    simp only [writeRow]
    by_cases hout : k - rodX1 < 0 ∨ field.width ≤ k - rodX1 ∨ y - rodY1 < 0
        ∨ field.height ≤ y - rodY1
    · rw [if_pos hout, ih (k + 1) hi dst (by omega)]
      by_cases hx : x' = k
      · subst hx
        split_ifs <;> first | rfl | (exfalso; omega)
      · split_ifs <;> first | rfl | (exfalso; omega)
    · rw [if_neg hout, ih (k + 1) hi _ (by omega),
        writeChannels_eq field k y (((y - rodY1) * field.width + (k - rodX1)) * field.components)
          (dstComponents - 0).toNat 0 _ dst dstComponents rfl (by intro _; ring)]
      by_cases hx : x' = k
      · subst hx
        split_ifs <;> first | rfl | (exfalso; omega)
      · split_ifs <;> first | rfl | (exfalso; omega)

theorem writeRows_eq (field : SimpleImage) (rodX1 rodY1 dstComponents x1 x2 : Int) (n : Nat) :
    ∀ (k hi : Int) (dst : Int → Int → Int → ℚ), (hi - k).toNat = n → ∀ x' y' c' : Int,
      (intRange k hi).foldl
          (fun dst y => writeRow field rodX1 rodY1 dstComponents y (intRange x1 x2) dst) dst
          x' y' c'
        = if (k ≤ y' ∧ y' < hi) ∧ (x1 ≤ x' ∧ x' < x2)
              ∧ ¬ (x' - rodX1 < 0 ∨ field.width ≤ x' - rodX1 ∨ y' - rodY1 < 0
                ∨ field.height ≤ y' - rodY1)
              ∧ (0 ≤ c' ∧ c' < dstComponents) then
            (if c' < field.components then
              field.data (((y' - rodY1) * field.width + (x' - rodX1)) * field.components + c')
            else 0)
          else dst x' y' c' := by
  induction n with
  | zero =>
    intro k hi dst hn x' y' c'
    rw [intRange_empty k hi (by omega)]
    simp only [List.foldl_nil]
    rw [if_neg (by omega)]
  | succ n ih =>
    intro k hi dst hn x' y' c'
    rw [intRange_cons k hi (by omega)]
    simp only [List.foldl_cons]
    rw [ih (k + 1) hi _ (by omega),
      writeRow_eq field rodX1 rodY1 dstComponents k (x2 - x1).toNat x1 x2 dst rfl]
    by_cases hy : y' = k
    · subst hy
      split_ifs <;> first | rfl | (exfalso; omega)
    · split_ifs <;> first | rfl | (exfalso; omega)

/-- C13 (as amended): for every render-window pixel `(x, y)` whose position
`(inX, inY)` relative to the destination's region of definition lies outside the
field (`inX < 0`, `inX ≥ width`, `inY < 0` or `inY ≥ height`), `render` writes
nothing: every channel of that destination pixel keeps the value it had; for a
pixel inside the field, destination channel `c` receives channel `c` of the
field pixel when `c < 3` (the field's channel count) and zero otherwise. -/
theorem render_write_out (field : SimpleImage) (rodX1 rodY1 dstComponents x1 y1 x2 y2 : Int)
    (dst : Int → Int → Int → ℚ) (x y : Int) (hx : x1 ≤ x ∧ x < x2) (hy : y1 ≤ y ∧ y < y2) :
    ((x - rodX1 < 0 ∨ field.width ≤ x - rodX1 ∨ y - rodY1 < 0 ∨ field.height ≤ y - rodY1) →
        ∀ c : Int, writeOut field rodX1 rodY1 dstComponents x1 y1 x2 y2 dst x y c = dst x y c)
      ∧ (¬ (x - rodX1 < 0 ∨ field.width ≤ x - rodX1 ∨ y - rodY1 < 0 ∨ field.height ≤ y - rodY1) →
        ∀ c : Int, 0 ≤ c → c < dstComponents →
          writeOut field rodX1 rodY1 dstComponents x1 y1 x2 y2 dst x y c
            = if c < field.components then field.pix (x - rodX1) (y - rodY1) c else 0) := by
  constructor
  · intro hout c
    unfold writeOut
    rw [writeRows_eq field rodX1 rodY1 dstComponents x1 x2 (y2 - y1).toNat y1 y2 dst rfl,
      if_neg (fun h => h.2.2.1 hout)]
  · intro hin c hc0 hc
    unfold writeOut
    rw [writeRows_eq field rodX1 rodY1 dstComponents x1 x2 (y2 - y1).toNat y1 y2 dst rfl,
      if_pos ⟨hy, hx, hin, hc0, hc⟩]
    rfl

/-- C13, witness: a 1x1 field written over the window `[0,2) × [0,1)` of a
4-channel destination filled with 7: pixel `(0,0)` is inside the field, pixel
`(1,0)` is outside. -/
theorem render_write_out_witness :
    ((0 : Int) ≤ 1 ∧ (1 : Int) < 2) ∧ ((0 : Int) ≤ 0 ∧ (0 : Int) < 1)
      ∧ (((1 : Int) - 0 < 0 ∨ zeroField1x1.width ≤ 1 - 0 ∨ (0 : Int) - 0 < 0
          ∨ zeroField1x1.height ≤ 0 - 0) →
        ∀ c : Int, writeOut zeroField1x1 0 0 4 0 0 2 1 (fun _ _ _ => 7) 1 0 c = 7) :=
  ⟨by decide, by decide,
    (render_write_out zeroField1x1 0 0 4 0 0 2 1 (fun _ _ _ => 7) 1 0 (by decide) (by decide)).1⟩

/-- C13, counterexample: a 1x1 field, the render window `[0,2) × [0,1)`, the
destination's region of definition starting at `(0,0)`, 3 destination channels
and a destination holding 7 everywhere.  The window pixel `(1,0)` lies outside
the field (`inX = 1 ≥ width = 1`); after the write-out its channel 0 is still 7,
not zero. -/
theorem render_write_out_counterexample :
    ((0 : Int) ≤ 1 ∧ (1 : Int) < 2) ∧ ((0 : Int) ≤ 0 ∧ (0 : Int) < 1)
      ∧ zeroField1x1.width ≤ 1 - 0
      ∧ writeOut zeroField1x1 0 0 3 0 0 2 1 (fun _ _ _ => 7) 1 0 0 = 7
      ∧ writeOut zeroField1x1 0 0 3 0 0 2 1 (fun _ _ _ => 7) 1 0 0 ≠ 0 := by
  refine ⟨by decide, by decide, by decide, by decide!, by decide!⟩

/-! ## The claim on `resample` at integer reduction factors -/

/-- C16, at the failing input: over a previous field of width 1, a row of 3 fine
pixels consults the columns `0, 0, 1`: at `x = 2` the walk is at column 1, which
is not below `prevWidth = 1`, while `floor(x * prevWidth / width) = floor(2/3)`
is `0`. -/
theorem seeding_walk_three_over_one :
    consultedColumns 3 1 = some [0, 0, 1]
      ∧ ⌊(((2 : Int) : ℚ) * ((1 : Int) : ℚ)) / ((3 : Int) : ℚ)⌋ = 0
      ∧ ¬ ((1 : Int) < 1) := by
  refine ⟨by decide!, by decide!, by decide⟩

/-! ## The claim on the random-search window -/

theorem cMod_of_pos (r w : Int) (hr : 0 ≤ r) (hw : 1 ≤ w) :
    ∃ rx, cMod r w = some rx ∧ 0 ≤ rx ∧ rx < w := by
  refine ⟨r.tmod w, ?_, Int.tmod_nonneg w hr, Int.tmod_lt_of_pos r (by omega)⟩
  unfold cMod
  rw [if_neg (by omega)]

/-- The clamped window along one axis: with the centre inside the source and a
radius that is not negative, the extent is at least 1 and every sample lies
inside the source and within the radius of the centre. -/
theorem searchWindow_ok (size cent radi r : Int) (hc0 : 0 ≤ cent) (hc : cent < size)
    (hrad : 0 ≤ radi) (hr : 0 ≤ r) :
    1 ≤ (searchWindow size cent radi).2
      ∧ ∃ rx, cMod r (searchWindow size cent radi).2 = some rx
          ∧ 0 ≤ rx + (searchWindow size cent radi).1
          ∧ rx + (searchWindow size cent radi).1 < size
          ∧ |rx + (searchWindow size cent radi).1 - cent| ≤ radi := by
  have hw : 1 ≤ (searchWindow size cent radi).2 := by
    simp only [searchWindow]
    omega
  obtain ⟨rx, h1, h2, h3⟩ := cMod_of_pos r _ hr hw
  refine ⟨hw, rx, h1, ?_, ?_, ?_⟩
  · simp only [searchWindow] at h3 ⊢; omega
  · simp only [searchWindow] at h3 ⊢; omega
  · simp only [searchWindow] at h3 ⊢
    rw [abs_le]
    constructor <;> omega

/-- The search loop returns, and keeps any property of the slot that every call
of `score` for the pixel keeps, when the search centre is inside the source and
`rand()` is never negative.  The bound on the rounds is enough as soon as
`radW < 2^fuel`. -/
theorem searchLoop_preserves (rand : Nat → Int) (imgSrc imgTrg : SimpleImage)
    (patchSize x y srchCentX srchCentY : Int) (Q : Best → Prop)
    (hQ : ∀ (b : Best) (xs ys : Int), Q b →
      ∃ b', score xs ys x y imgSrc imgTrg patchSize b = some b' ∧ Q b')
    (hrand : ∀ k, 0 ≤ rand k)
    (hcx : 0 ≤ srchCentX ∧ srchCentX < imgSrc.width)
    (hcy : 0 ≤ srchCentY ∧ srchCentY < imgSrc.height) :
    ∀ (fuel : Nat) (radW radH : ℚ) (n : Nat) (cur : Best), radW < 2 ^ fuel → Q cur →
      ∃ b' n', searchLoop rand imgSrc imgTrg patchSize x y srchCentX srchCentY (fuel + 1)
          radW radH n cur = some (b', n') ∧ Q b' := by
  intro fuel
  induction fuel with
  | zero =>
    intro radW radH n cur hlt hq
    have : ¬ (1 ≤ radW ∧ 1 ≤ radH) := by
      intro h
      simp only [pow_zero] at hlt
      linarith [h.1]
    exact ⟨cur, n, by simp only [searchLoop, if_neg this], hq⟩
  | succ k ih =>
    intro radW radH n cur hlt hq
    by_cases hg : 1 ≤ radW ∧ 1 ≤ radH
    · have hrw : 0 ≤ ⌈radW⌉ := Int.ceil_nonneg (by linarith [hg.1])
      have hrh : 0 ≤ ⌈radH⌉ := Int.ceil_nonneg (by linarith [hg.2])
      obtain ⟨-, rx, hrx, -⟩ := searchWindow_ok imgSrc.width srchCentX ⌈radW⌉ (rand n)
        hcx.1 hcx.2 hrw (hrand n)
      obtain ⟨-, ry, hry, -⟩ := searchWindow_ok imgSrc.height srchCentY ⌈radH⌉ (rand (n + 1))
        hcy.1 hcy.2 hrh (hrand (n + 1))
      obtain ⟨b1, hb1, hq1⟩ := hQ cur (rx + (searchWindow imgSrc.width srchCentX ⌈radW⌉).1)
        (ry + (searchWindow imgSrc.height srchCentY ⌈radH⌉).1) hq
      have hhalf : radW / 2 < 2 ^ k := by
        rw [pow_succ] at hlt
        linarith
      obtain ⟨b', n', hres, hq'⟩ := ih (radW / 2) (radH / 2) (n + 2) b1 hhalf hq1
      refine ⟨b', n', ?_, hq'⟩
      rw [searchLoop, if_pos hg]
      simp only [hrx, hry, hb1]
      exact hres
    · exact ⟨cur, n, by rw [searchLoop, if_neg hg], hq⟩

/-- The bound on the rounds that `pixelStep` passes is enough. -/
theorem half_lt_two_pow (w : Int) : (w : ℚ) / 2 < 2 ^ w.toNat := by
  have h1 : w ≤ (w.toNat : Int) := Int.self_le_toNat w
  have h2 : w.toNat < 2 ^ w.toNat := Nat.lt_two_pow w.toNat
  have h3 : (w : ℚ) ≤ ((w.toNat : ℕ) : ℚ) := by exact_mod_cast h1
  have h4 : ((w.toNat : ℕ) : ℚ) < 2 ^ w.toNat := by exact_mod_cast h2
  have h5 : (0 : ℚ) ≤ ((w.toNat : ℕ) : ℚ) := by positivity
  linarith

/-- C18: in `propagateAndSearch`, for a visited pixel `(x, y)` of the target
whose slot `cur` points at a source pixel in bounds, with `patchSize ≥ 1` and
`rand()` never negative: in every search round (`radW ≥ 1` and `radH ≥ 1`) the
clamped window has `w ≥ 1` and `h ≥ 1`, so both remainders are defined, and the
sampled candidate lies inside the source and within `ceil(radW)`, `ceil(radH)`
of the search centre; the search loop returns after finitely many rounds; and
it performs no round when the source width or height is 1. -/
theorem search_window_well_formed (rand : Nat → Int) (imgSrc imgTrg : SimpleImage)
    (patchSize x y : Int) (cur : Best) (n : Nat) (hrand : ∀ k, 0 ≤ rand k)
    (hp : 1 ≤ patchSize) (ht : imgTrg.valid x y = true)
    (hcx : 0 ≤ (x : ℚ) + cur.dx ∧ (x : ℚ) + cur.dx < (imgSrc.width : ℚ))
    (hcy : 0 ≤ (y : ℚ) + cur.dy ∧ (y : ℚ) + cur.dy < (imgSrc.height : ℚ)) :
    (∀ (radW radH : ℚ) (k : Nat), 1 ≤ radW → 1 ≤ radH →
        (1 ≤ (searchWindow imgSrc.width (cTrunc ((x : ℚ) + cur.dx)) ⌈radW⌉).2
          ∧ ∃ rx, cMod (rand k) (searchWindow imgSrc.width (cTrunc ((x : ℚ) + cur.dx)) ⌈radW⌉).2
              = some rx
            ∧ 0 ≤ rx + (searchWindow imgSrc.width (cTrunc ((x : ℚ) + cur.dx)) ⌈radW⌉).1
            ∧ rx + (searchWindow imgSrc.width (cTrunc ((x : ℚ) + cur.dx)) ⌈radW⌉).1
                < imgSrc.width
            ∧ |rx + (searchWindow imgSrc.width (cTrunc ((x : ℚ) + cur.dx)) ⌈radW⌉).1
                - cTrunc ((x : ℚ) + cur.dx)| ≤ ⌈radW⌉)
        ∧ (1 ≤ (searchWindow imgSrc.height (cTrunc ((y : ℚ) + cur.dy)) ⌈radH⌉).2
          ∧ ∃ ry, cMod (rand k) (searchWindow imgSrc.height (cTrunc ((y : ℚ) + cur.dy)) ⌈radH⌉).2
              = some ry
            ∧ 0 ≤ ry + (searchWindow imgSrc.height (cTrunc ((y : ℚ) + cur.dy)) ⌈radH⌉).1
            ∧ ry + (searchWindow imgSrc.height (cTrunc ((y : ℚ) + cur.dy)) ⌈radH⌉).1
                < imgSrc.height
            ∧ |ry + (searchWindow imgSrc.height (cTrunc ((y : ℚ) + cur.dy)) ⌈radH⌉).1
                - cTrunc ((y : ℚ) + cur.dy)| ≤ ⌈radH⌉))
      ∧ (∃ b' n', searchLoop rand imgSrc imgTrg patchSize x y (cTrunc ((x : ℚ) + cur.dx))
          (cTrunc ((y : ℚ) + cur.dy)) (imgSrc.width.toNat + 1) ((imgSrc.width : ℚ) / 2)
          ((imgSrc.height : ℚ) / 2) n cur = some (b', n'))
      ∧ ((imgSrc.width = 1 ∨ imgSrc.height = 1) →
          searchLoop rand imgSrc imgTrg patchSize x y (cTrunc ((x : ℚ) + cur.dx))
            (cTrunc ((y : ℚ) + cur.dy)) (imgSrc.width.toNat + 1) ((imgSrc.width : ℚ) / 2)
            ((imgSrc.height : ℚ) / 2) n cur = some (cur, n)) := by
  have hcx' : 0 ≤ cTrunc ((x : ℚ) + cur.dx) ∧ cTrunc ((x : ℚ) + cur.dx) < imgSrc.width := by
    unfold cTrunc
    rw [if_pos hcx.1]
    exact ⟨Int.floor_nonneg.mpr hcx.1, Int.floor_lt.mpr hcx.2⟩
  have hcy' : 0 ≤ cTrunc ((y : ℚ) + cur.dy) ∧ cTrunc ((y : ℚ) + cur.dy) < imgSrc.height := by
    unfold cTrunc
    rw [if_pos hcy.1]
    exact ⟨Int.floor_nonneg.mpr hcy.1, Int.floor_lt.mpr hcy.2⟩
  refine ⟨?_, ?_, ?_⟩
  · intro radW radH k hw hh
    exact ⟨searchWindow_ok _ _ _ _ hcx'.1 hcx'.2 (Int.ceil_nonneg (by linarith)) (hrand k),
      searchWindow_ok _ _ _ _ hcy'.1 hcy'.2 (Int.ceil_nonneg (by linarith)) (hrand k)⟩
  · obtain ⟨b', n', h, -⟩ := searchLoop_preserves rand imgSrc imgTrg patchSize x y
      (cTrunc ((x : ℚ) + cur.dx)) (cTrunc ((y : ℚ) + cur.dy)) (fun _ => True)
      (fun b xs ys _ => by
        obtain ⟨b', hb', -⟩ := score_step xs ys x y imgSrc imgTrg patchSize b ht hp
        exact ⟨b', hb', trivial⟩)
      hrand hcx' hcy' imgSrc.width.toNat _ _ n cur (half_lt_two_pow imgSrc.width) trivial
    exact ⟨b', n', h⟩
  · intro h1
    have : ¬ ((1 : ℚ) ≤ (imgSrc.width : ℚ) / 2 ∧ (1 : ℚ) ≤ (imgSrc.height : ℚ) / 2) := by
      rcases h1 with h | h <;> rw [h] <;> norm_num
    rw [searchLoop, if_neg this]

/-- C18, witness: a 2x2 source and target of zeros, the target pixel `(1, 0)`
with the slot `(0, 1, 0)` pointing at the source pixel `(1, 1)`, `rand()` always
7. -/
theorem search_window_well_formed_witness :
    (∀ k : Nat, (0 : Int) ≤ (fun _ => (7 : Int)) k) ∧ (1 : Int) ≤ 1
      ∧ zeros2x2.valid 1 0 = true
      ∧ ∃ b' n', searchLoop (fun _ => 7) zeros2x2 zeros2x2 1 1 0
          (cTrunc (((1 : Int) : ℚ) + (⟨0, 1, 0⟩ : Best).dx))
          (cTrunc (((0 : Int) : ℚ) + (⟨0, 1, 0⟩ : Best).dy)) (zeros2x2.width.toNat + 1)
          ((zeros2x2.width : ℚ) / 2) ((zeros2x2.height : ℚ) / 2) 0 ⟨0, 1, 0⟩ = some (b', n') :=
  ⟨fun _ => (by decide : (0 : Int) ≤ 7), by decide, by decide,
    (search_window_well_formed (fun _ => 7) zeros2x2 zeros2x2 1 1 0 ⟨0, 1, 0⟩ 0
      (fun _ => (by decide : (0 : Int) ≤ 7)) (by decide) (by decide)
      (by norm_num [zeros2x2]) (by norm_num [zeros2x2])).2.1⟩

/-! ## Slots of a field -/

theorem readBest_writeBest_same (data : Int → ℚ) (off : Int) (b : Best) :
    readBest (writeBest data off b) off = b := by
  unfold readBest writeBest
  have h1 : ¬ (off + 1 = off) := by omega
  have h2 : ¬ (off + 2 = off) := by omega
  have h3 : ¬ (off + 2 = off + 1) := by omega
  simp only [if_true, h1, h2, h3, if_false]

theorem readBest_writeBest_other (data : Int → ℚ) (off off' : Int) (b : Best)
    (h : off' + 3 ≤ off ∨ off + 3 ≤ off') :
    readBest (writeBest data off b) off' = readBest data off' := by
  unfold readBest writeBest
  have h1 : ¬ (off' = off) := by omega
  have h2 : ¬ (off' = off + 1) := by omega
  have h3 : ¬ (off' = off + 2) := by omega
  have h4 : ¬ (off' + 1 = off) := by omega
  have h5 : ¬ (off' + 1 = off + 1) := by omega
  have h6 : ¬ (off' + 1 = off + 2) := by omega
  have h7 : ¬ (off' + 2 = off) := by omega
  have h8 : ¬ (off' + 2 = off + 1) := by omega
  have h9 : ¬ (off' + 2 = off + 2) := by omega
  simp only [h1, h2, h3, h4, h5, h6, h7, h8, h9, if_false]

theorem writeBest_outside (data : Int → ℚ) (off i : Int) (b : Best)
    (h : i < off ∨ off + 3 ≤ i) : writeBest data off b i = data i := by
  unfold writeBest
  rw [if_neg (by omega), if_neg (by omega), if_neg (by omega)]

/-- One call of `score` with the target pixel in bounds: the slot is kept, or the
candidate is in bounds and is installed with a cost that is not negative. -/
theorem score_cases (xSrc ySrc xTrg yTrg : Int) (imgSrc imgTrg : SimpleImage) (patchSize : Int)
    (best : Best) (ht : imgTrg.valid xTrg yTrg = true) (hp : 1 ≤ patchSize) :
    ∃ b, score xSrc ySrc xTrg yTrg imgSrc imgTrg patchSize best = some b
      ∧ (b = best ∨ (imgSrc.valid xSrc ySrc = true
          ∧ ∃ nc, 0 ≤ nc ∧ b = candidateSlot xSrc ySrc xTrg yTrg nc)) := by
  cases hs : imgSrc.valid xSrc ySrc with
  | false => exact ⟨best, score_of_invalid _ _ _ _ _ _ _ _ hs, Or.inl rfl⟩
  | true =>
    obtain ⟨nc, hc, hnc⟩ := candidateCost_defined xSrc ySrc xTrg yTrg imgSrc imgTrg patchSize
      hs ht hp
    refine ⟨_, score_eq_of_cost _ _ _ _ _ _ _ best nc hs hc, ?_⟩
    split_ifs with h
    · exact Or.inr ⟨rfl, nc, hnc, rfl⟩
    · exact Or.inl rfl

/-! ## One visited pixel of `propagateAndSearch` -/

theorem cTrunc_intCast (z : Int) : cTrunc ((z : Int) : ℚ) = z := by
  unfold cTrunc
  split_ifs <;> simp

theorem valid_iff (img : SimpleImage) (x y : Int) :
    img.valid x y = true ↔ 0 ≤ x ∧ x < img.width ∧ 0 ≤ y ∧ y < img.height := by
  unfold SimpleImage.valid
  simp only [Bool.and_eq_true, decide_eq_true_eq]
  tauto

/-- A candidate in bounds, installed with a cost that is not negative, has the
slot property. -/
theorem slotOk_candidateSlot (imgSrc : SimpleImage) (xs ys x y : Int) (nc : ℚ) (hnc : 0 ≤ nc)
    (hv : imgSrc.valid xs ys = true) : slotOk imgSrc x y (candidateSlot xs ys x y nc) := by
  have hx : (x : ℚ) + ((xs - x : Int) : ℚ) = ((xs : Int) : ℚ) := by push_cast; ring
  have hy : (y : ℚ) + ((ys - y : Int) : ℚ) = ((ys : Int) : ℚ) := by push_cast; ring
  unfold slotOk candidateSlot
  simp only
  rw [hx, hy, cTrunc_intCast, cTrunc_intCast]
  exact ⟨hnc, rfl, rfl, hv⟩

/-- Every call of `score` for a pixel of the target keeps the slot property. -/
theorem score_slotOk (imgSrc imgTrg : SimpleImage) (patchSize x y : Int) (hp : 1 ≤ patchSize)
    (ht : imgTrg.valid x y = true) (b : Best) (xs ys : Int) (hb : slotOk imgSrc x y b) :
    ∃ b', score xs ys x y imgSrc imgTrg patchSize b = some b' ∧ slotOk imgSrc x y b' := by
  obtain ⟨b', h1, h2⟩ := score_cases xs ys x y imgSrc imgTrg patchSize b ht hp
  refine ⟨b', h1, ?_⟩
  rcases h2 with h2 | ⟨hv, nc, hnc, h2⟩
  · rw [h2]; exact hb
  · rw [h2]; exact slotOk_candidateSlot imgSrc xs ys x y nc hnc hv

/-- The body of the scan for one pixel returns, writes only the slot of that
pixel and keeps any property `Q` of the slot that every call of `score` for the
pixel keeps, when `Q` puts the search centre inside the source and `rand()` is
never negative. -/
theorem pixelStep_spec (vectOutside : SimpleImage → Int → Int → ℚ × ℚ) (rand : Nat → Int)
    (imgSrc imgTrg : SimpleImage) (patchSize dir x y : Int) (imgVect : SimpleImage) (n : Nat)
    (Q : Best → Prop)
    (hQ : ∀ (b : Best) (xs ys : Int), Q b →
      ∃ b', score xs ys x y imgSrc imgTrg patchSize b = some b' ∧ Q b')
    (hC : ∀ b : Best, Q b →
      imgSrc.valid (cTrunc ((x : ℚ) + b.dx)) (cTrunc ((y : ℚ) + b.dy)) = true)
    (hrand : ∀ k, 0 ≤ rand k)
    (h0 : Q (readBest imgVect.data ((y * imgVect.width + x) * imgVect.components))) :
    ∃ b n', pixelStep vectOutside rand imgSrc imgTrg patchSize dir x y imgVect n
        = some (⟨imgVect.width, imgVect.height, imgVect.components,
            writeBest imgVect.data ((y * imgVect.width + x) * imgVect.components) b⟩, n')
      ∧ Q b := by
  obtain ⟨b1, hb1, hq1⟩ := hQ _ (cTrunc ((x : ℚ) + (imgVect.vect vectOutside (x - dir) y).1))
      (cTrunc ((y : ℚ) + (imgVect.vect vectOutside (x - dir) y).2)) h0
  obtain ⟨b2, hb2, hq2⟩ := hQ b1
    (cTrunc ((x : ℚ) + ((⟨imgVect.width, imgVect.height, imgVect.components,
          writeBest imgVect.data ((y * imgVect.width + x) * imgVect.components) b1⟩ :
            SimpleImage).vect vectOutside x (y - dir)).1))
    (cTrunc ((y : ℚ) + ((⟨imgVect.width, imgVect.height, imgVect.components,
          writeBest imgVect.data ((y * imgVect.width + x) * imgVect.components) b1⟩ :
            SimpleImage).vect vectOutside x (y - dir)).2)) hq1
  have hc := (valid_iff _ _ _).mp (hC b2 hq2)
  obtain ⟨b3, n3, hb3, hq3⟩ := searchLoop_preserves rand imgSrc imgTrg patchSize x y
    (cTrunc ((x : ℚ) + b2.dx)) (cTrunc ((y : ℚ) + b2.dy)) Q hQ hrand ⟨hc.1, hc.2.1⟩
    ⟨hc.2.2.1, hc.2.2.2⟩ imgSrc.width.toNat ((imgSrc.width : ℚ) / 2) ((imgSrc.height : ℚ) / 2)
    n b2 (half_lt_two_pow imgSrc.width) hq2
  refine ⟨b3, n3, ?_, hq3⟩
  unfold pixelStep
  simp only [hb1, hb2, hb3]

/-! ## The scan of `propagateAndSearch` on a field -/

/-- Two different pixels of a row-major field have different indices. -/
theorem pixel_index_ne (w x y x' y' : Int) (hx : 0 ≤ x ∧ x < w) (hx' : 0 ≤ x' ∧ x' < w)
    (hne : ¬ (x' = x ∧ y' = y)) :
    y' * w + x' + 1 ≤ y * w + x ∨ y * w + x + 1 ≤ y' * w + x' := by
  rcases lt_trichotomy y' y with h | h | h
  · left
    have h1 : (y' + 1) * w ≤ y * w := mul_le_mul_of_nonneg_right (by omega) (by omega)
    have h2 : (y' + 1) * w = y' * w + w := by ring
    omega
  · subst h
    have : x' ≠ x := fun h => hne ⟨h, rfl⟩
    omega
  · right
    have h1 : (y + 1) * w ≤ y' * w := mul_le_mul_of_nonneg_right (by omega) (by omega)
    have h2 : (y + 1) * w = y * w + w := by ring
    omega

theorem mem_rasterOrder (width height : Int) (p : Int × Int) :
    p ∈ rasterOrder width height ↔ (0 ≤ p.1 ∧ p.1 < width) ∧ (0 ≤ p.2 ∧ p.2 < height) := by
  obtain ⟨a, b⟩ := p
  unfold rasterOrder
  simp only [List.mem_flatMap, List.mem_map, mem_intRange, Prod.mk.injEq]
  constructor
  · rintro ⟨yi, hy, xi, hx, rfl, rfl⟩
    exact ⟨hx, hy⟩
  · rintro ⟨hx, hy⟩
    exact ⟨b, hy, a, hx, rfl, rfl⟩

/-- The scan over the `(xi, yi)` yet to come, on a field of `w x h` slots of 3
floats whose slots have the per-pixel property `Q`: it returns a field of the
same size whose slots have the property, and the slot of every pixel that is
not visited is unchanged. -/
theorem sweepFull_spec (vectOutside : SimpleImage → Int → Int → ℚ × ℚ) (rand : Nat → Int)
    (imgSrc imgTrg : SimpleImage) (patchSize w h dir length : Int)
    (Q : Int → Int → Best → Prop)
    (hQ : ∀ x y : Int, (0 ≤ x ∧ x < w) → (0 ≤ y ∧ y < h) → ∀ (b : Best) (xs ys : Int),
      Q x y b → ∃ b', score xs ys x y imgSrc imgTrg patchSize b = some b' ∧ Q x y b')
    (hC : ∀ x y : Int, (0 ≤ x ∧ x < w) → (0 ≤ y ∧ y < h) → ∀ b : Best, Q x y b →
      imgSrc.valid (cTrunc ((x : ℚ) + b.dx)) (cTrunc ((y : ℚ) + b.dy)) = true)
    (hrand : ∀ k, 0 ≤ rand k) :
    ∀ (rest : List (Int × Int)) (count : Int) (f : SimpleImage) (n : Nat),
      (∀ p ∈ rest, (0 ≤ p.1 ∧ p.1 < w) ∧ (0 ≤ p.2 ∧ p.2 < h)) →
      f.width = w → f.height = h → f.components = 3 →
      (∀ x y : Int, (0 ≤ x ∧ x < w) → (0 ≤ y ∧ y < h) →
        Q x y (readBest f.data ((y * w + x) * 3))) →
      ∃ f' n', sweepFull vectOutside rand imgSrc imgTrg patchSize w h dir length rest count (f, n)
          = some (f', n')
        ∧ f'.width = w ∧ f'.height = h ∧ f'.components = 3
        ∧ (∀ x y : Int, (0 ≤ x ∧ x < w) → (0 ≤ y ∧ y < h) →
            Q x y (readBest f'.data ((y * w + x) * 3)))
        ∧ (∀ x y : Int, (0 ≤ x ∧ x < w) → (0 ≤ y ∧ y < h) →
            (x, y) ∉ visitLoop w h dir length rest count →
            readBest f'.data ((y * w + x) * 3) = readBest f.data ((y * w + x) * 3)) := by
  intro rest
  induction rest with
  | nil =>
    intro count f n _ hw hh hc hinv
    exact ⟨f, n, rfl, hw, hh, hc, hinv, fun _ _ _ _ _ => rfl⟩
  | cons p rest ih =>
    obtain ⟨xi, yi⟩ := p
    intro count f n hmem hw hh hc hinv
    by_cases hstop : length ≠ 0 ∧ count = length
    · refine ⟨f, n, ?_, hw, hh, hc, hinv, fun _ _ _ _ _ => rfl⟩
      simp only [sweepFull, if_pos hstop]
    · have hp := hmem (xi, yi) (List.mem_cons_self _ _)
      simp only at hp
      have hxr : 0 ≤ (if dir < 0 then w - 1 - xi else xi)
          ∧ (if dir < 0 then w - 1 - xi else xi) < w := by
        split_ifs <;> omega
      have hyr : 0 ≤ (if dir < 0 then h - 1 - yi else yi)
          ∧ (if dir < 0 then h - 1 - yi else yi) < h := by
        split_ifs <;> omega
      generalize hxe : (if dir < 0 then w - 1 - xi else xi) = x at hxr
      generalize hye : (if dir < 0 then h - 1 - yi else yi) = y at hyr
      have h0 : Q x y (readBest f.data ((y * f.width + x) * f.components)) := by
        rw [hw, hc]; exact hinv x y hxr hyr
      obtain ⟨b, n1, hstep, hqb⟩ := pixelStep_spec vectOutside rand imgSrc imgTrg patchSize dir
        x y f n (Q x y) (hQ x y hxr hyr) (hC x y hxr hyr) hrand h0
      rw [hw, hh, hc] at hstep
      have hinv1 : ∀ x' y' : Int, (0 ≤ x' ∧ x' < w) → (0 ≤ y' ∧ y' < h) →
          Q x' y' (readBest (writeBest f.data ((y * w + x) * 3) b) ((y' * w + x') * 3)) := by
        intro x' y' hx' hy'
        by_cases he : x' = x ∧ y' = y
        · rw [he.1, he.2, readBest_writeBest_same]; exact hqb
        · have := pixel_index_ne w x y x' y' hxr hx' he
          rw [readBest_writeBest_other _ _ _ _ (by omega)]
          exact hinv x' y' hx' hy'
      obtain ⟨f', n', hres, hw', hh', hc', hinv', hframe⟩ := ih (count + 1)
        ⟨w, h, 3, writeBest f.data ((y * w + x) * 3) b⟩ n1
        (fun p hp => hmem p (List.mem_cons_of_mem _ hp)) rfl rfl rfl hinv1
      refine ⟨f', n', ?_, hw', hh', hc', hinv', ?_⟩
      · simp only [sweepFull, if_neg hstop, hxe, hye, hstep]
        exact hres
      · intro x' y' hx' hy' hnot
        simp only [visitLoop, if_neg hstop] at hnot
        have hnot1 : (x', y') ≠ (if dir < 0 then (w - 1 - xi, h - 1 - yi) else (xi, yi)) :=
          fun hEq => hnot (hEq ▸ List.mem_cons_self _ _)
        have hnot2 : (x', y') ∉ visitLoop w h dir length rest (count + 1) :=
          fun hIn => hnot (List.mem_cons_of_mem _ hIn)
        have he : ¬ (x' = x ∧ y' = y) := by
          rintro ⟨rfl, rfl⟩
          apply hnot1
          rw [← hxe, ← hye]
          split_ifs <;> rfl
        rw [hframe x' y' hx' hy' hnot2]
        have := pixel_index_ne w x y x' y' hxr hx' he
        exact readBest_writeBest_other _ _ _ _ (by omega)

/-! ## The loops of `initialiseLevel` -/

/-- The loop over a row of `initialiseLevel`, from the column `k`: when every
pixel gets a slot with the property `Q` and the walk over the previous field
keeps the relation `Wk` between the column, `pX` and `prevCell`, the loop
returns, the slots of the row are written one after the other from `dataPix`
and have the property, and nothing else in the buffer changes. -/
theorem initRow_spec (rand : Nat → Int) (imgSrc imgTrg : SimpleImage)
    (imgPrev : Option SimpleImage) (patchSize prevStepX y width : Int)
    (Q : Int → Best → Prop) (Wk : Int → Int → Int → Prop)
    (hpix : ∀ x : Int, (0 ≤ x ∧ x < width) → ∀ (pX prevCell : Int) (n : Nat), Wk x pX prevCell →
      ∃ b, initPixel rand imgSrc imgTrg imgPrev patchSize x y n prevCell = some b ∧ Q x b)
    (hnone : imgPrev = none → ∀ x pX prevCell : Int, Wk x pX prevCell → Wk (x + 1) pX prevCell)
    (hwalk : ∀ prev, imgPrev = some prev → ∀ x : Int, (0 ≤ x ∧ x < width) →
      ∀ pX prevCell : Int, Wk x pX prevCell →
      ∃ adv, walkAdvances x prevStepX pX prev.width = some adv
        ∧ Wk (x + 1) (if adv then pX + 1 else pX)
            (if adv then prevCell + prev.components else prevCell)) :
    ∀ (m : Nat) (k : Int), 0 ≤ k → width - k = (m : Int) →
      ∀ (data : Int → ℚ) (dataPix : Int) (n : Nat) (pX prevCell : Int), Wk k pX prevCell →
      ∃ data' n' pX' prevCell',
        initRow rand imgSrc imgTrg imgPrev patchSize prevStepX y (intRange k width)
            (data, dataPix, n, pX, prevCell)
          = some (data', dataPix + 3 * (width - k), n', pX', prevCell')
        ∧ (∀ x : Int, k ≤ x → x < width → Q x (readBest data' (dataPix + 3 * (x - k))))
        ∧ (∀ i : Int, i < dataPix ∨ dataPix + 3 * (width - k) ≤ i → data' i = data i) := by
  intro m
  induction m with
  | zero =>
    intro k hk hm data dataPix n pX prevCell _
    have hkw : width ≤ k := by omega
    refine ⟨data, n, pX, prevCell, ?_, ?_, fun _ _ => rfl⟩
    · rw [intRange_empty k width hkw]
      have : dataPix + 3 * (width - k) = dataPix := by omega
      rw [this]
      rfl
    · intro x h1 h2
      omega
  | succ m ih =>
    intro k hk hm data dataPix n pX prevCell hwk
    have hkw : k < width := by omega
    obtain ⟨b, hb, hqb⟩ := hpix k ⟨hk, hkw⟩ pX prevCell n hwk
    have hend : dataPix + 3 + 3 * (width - (k + 1)) = dataPix + 3 * (width - k) := by omega
    have key : ∀ (data' : Int → ℚ),
        (∀ x : Int, k + 1 ≤ x → x < width →
          Q x (readBest data' (dataPix + 3 + 3 * (x - (k + 1))))) →
        (∀ i : Int, i < dataPix + 3 ∨ dataPix + 3 + 3 * (width - (k + 1)) ≤ i →
          data' i = writeBest data dataPix b i) →
        (∀ x : Int, k ≤ x → x < width → Q x (readBest data' (dataPix + 3 * (x - k))))
          ∧ (∀ i : Int, i < dataPix ∨ dataPix + 3 * (width - k) ≤ i → data' i = data i) := by
      intro data' hq hfr
      constructor
      · intro x h1 h2
        by_cases hx : x = k
        · subst hx
          have e : dataPix + 3 * (x - x) = dataPix := by omega
          rw [e]
          have : readBest data' dataPix = readBest (writeBest data dataPix b) dataPix := by
            unfold readBest
            rw [hfr dataPix (by omega), hfr (dataPix + 1) (by omega),
              hfr (dataPix + 2) (by omega)]
          rw [this, readBest_writeBest_same]
          exact hqb
        · have := hq x (by omega) h2
          have e : dataPix + 3 + 3 * (x - (k + 1)) = dataPix + 3 * (x - k) := by omega
          rw [e] at this
          exact this
      · intro i hi
        rw [hfr i (by omega), writeBest_outside _ _ _ _ (by omega)]
    rw [intRange_cons k width hkw]
    cases imgPrev with
    | none =>
      have hwk1 := hnone rfl k pX prevCell hwk
      obtain ⟨data', n', pX', pc', hres, hq, hfr⟩ := ih (k + 1) (by omega) (by omega)
        (writeBest data dataPix b) (dataPix + 3) (n + 2) pX prevCell hwk1
      refine ⟨data', n', pX', pc', ?_, key data' hq hfr⟩
      simp only [initRow, hb]
      rw [hres, hend]
    | some prev =>
      obtain ⟨adv, hadv, hwk1⟩ := hwalk prev rfl k ⟨hk, hkw⟩ pX prevCell hwk
      obtain ⟨data', n', pX', pc', hres, hq, hfr⟩ := ih (k + 1) (by omega) (by omega)
        (writeBest data dataPix b) (dataPix + 3) (n + 2) (if adv then pX + 1 else pX)
        (if adv then prevCell + prev.components else prevCell) hwk1
      refine ⟨data', n', pX', pc', ?_, key data' hq hfr⟩
      simp only [initRow, hb, hadv]
      rw [hres, hend]

/-- The loop over the rows of `initialiseLevel`, from the row `k`: when every
row is written as in `initRow_spec` and the walk over the rows of the previous
field keeps the relation `WkR` between the row, `pY` and `prevRow`, the loop
returns, the slots are written row after row from `dataPix` and have the
property `Q`, and nothing else in the buffer changes. -/
theorem initRows_spec (rand : Nat → Int) (imgSrc imgTrg : SimpleImage)
    (imgPrev : Option SimpleImage) (patchSize prevStepX prevStepY width height : Int)
    (hw : 0 ≤ width) (Q : Int → Int → Best → Prop) (WkR : Int → Int → Int → Prop)
    (hrow : ∀ y : Int, (0 ≤ y ∧ y < height) →
      ∀ (pY prevRow : Int) (data : Int → ℚ) (dataPix : Int) (n : Nat), WkR y pY prevRow →
      ∃ data' n' pX' prevCell',
        initRow rand imgSrc imgTrg imgPrev patchSize prevStepX y (intRange 0 width)
            (data, dataPix, n, 0, prevRow)
          = some (data', dataPix + 3 * width, n', pX', prevCell')
        ∧ (∀ x : Int, 0 ≤ x → x < width → Q x y (readBest data' (dataPix + 3 * x)))
        ∧ (∀ i : Int, i < dataPix ∨ dataPix + 3 * width ≤ i → data' i = data i))
    (hnone : imgPrev = none → ∀ y pY prevRow : Int, WkR y pY prevRow → WkR (y + 1) pY prevRow)
    (hwalk : ∀ prev, imgPrev = some prev → ∀ y : Int, (0 ≤ y ∧ y < height) →
      ∀ pY prevRow : Int, WkR y pY prevRow →
      ∃ adv, walkAdvances y prevStepY pY prev.height = some adv
        ∧ WkR (y + 1) (if adv then pY + 1 else pY)
            (if adv then prevRow + prev.width * prev.components else prevRow)) :
    ∀ (m : Nat) (k : Int), 0 ≤ k → height - k = (m : Int) →
      ∀ (data : Int → ℚ) (dataPix : Int) (n : Nat) (pY prevRow : Int), WkR k pY prevRow →
      ∃ data' n' pY' prevRow',
        initRows rand imgSrc imgTrg imgPrev patchSize prevStepX prevStepY width
            (intRange k height) (data, dataPix, n, pY, prevRow)
          = some (data', dataPix + 3 * width * (height - k), n', pY', prevRow')
        ∧ (∀ x y : Int, (0 ≤ x ∧ x < width) → k ≤ y → y < height →
            Q x y (readBest data' (dataPix + 3 * width * (y - k) + 3 * x)))
        ∧ (∀ i : Int, i < dataPix ∨ dataPix + 3 * width * (height - k) ≤ i →
            data' i = data i) := by
  intro m
  induction m with
  | zero =>
    intro k hk hm data dataPix n pY prevRow _
    have hkw : height ≤ k := by omega
    have hz : height - k = 0 := by omega
    refine ⟨data, n, pY, prevRow, ?_, ?_, fun _ _ => rfl⟩
    · rw [intRange_empty k height hkw, hz, mul_zero, add_zero]
      rfl
    · intro x y _ h1 h2
      omega
  | succ m ih =>
    intro k hk hm data dataPix n pY prevRow hwk
    have hkw : k < height := by omega
    obtain ⟨data1, n1, pX1, pc1, hrow1, hq1, hfr1⟩ := hrow k ⟨hk, hkw⟩ pY prevRow data dataPix n hwk
    have hend : dataPix + 3 * width + 3 * width * (height - (k + 1))
        = dataPix + 3 * width * (height - k) := by ring
    have hge : 3 * width ≤ 3 * width * (height - k) := by
      have h1 : 0 ≤ 3 * width := by omega
      have h2 : (1 : Int) ≤ height - k := by omega
      calc 3 * width = 3 * width * 1 := by ring
        _ ≤ 3 * width * (height - k) := mul_le_mul_of_nonneg_left h2 h1
    have key : ∀ (data' : Int → ℚ),
        (∀ x y : Int, (0 ≤ x ∧ x < width) → k + 1 ≤ y → y < height →
          Q x y (readBest data' (dataPix + 3 * width + 3 * width * (y - (k + 1)) + 3 * x))) →
        (∀ i : Int, i < dataPix + 3 * width
            ∨ dataPix + 3 * width + 3 * width * (height - (k + 1)) ≤ i → data' i = data1 i) →
        (∀ x y : Int, (0 ≤ x ∧ x < width) → k ≤ y → y < height →
            Q x y (readBest data' (dataPix + 3 * width * (y - k) + 3 * x)))
          ∧ (∀ i : Int, i < dataPix ∨ dataPix + 3 * width * (height - k) ≤ i →
            data' i = data i) := by
      intro data' hq hfr
      constructor
      · intro x y hx h1 h2
        by_cases hy : y = k
        · subst hy
          have e : dataPix + 3 * width * (y - y) + 3 * x = dataPix + 3 * x := by
            rw [sub_self, mul_zero, add_zero]
          rw [e]
          have : readBest data' (dataPix + 3 * x) = readBest data1 (dataPix + 3 * x) := by
            unfold readBest
            rw [hfr (dataPix + 3 * x) (by omega), hfr (dataPix + 3 * x + 1) (by omega),
              hfr (dataPix + 3 * x + 2) (by omega)]
          rw [this]
          exact hq1 x hx.1 hx.2
        · have := hq x y hx (by omega) h2
          have e : dataPix + 3 * width + 3 * width * (y - (k + 1)) + 3 * x
              = dataPix + 3 * width * (y - k) + 3 * x := by ring
          rw [e] at this
          exact this
      · intro i hi
        rw [hfr i (by omega), hfr1 i (by omega)]
    rw [intRange_cons k height hkw]
    cases imgPrev with
    | none =>
      have hwk1 := hnone rfl k pY prevRow hwk
      obtain ⟨data', n', pY', pr', hres, hq, hfr⟩ := ih (k + 1) (by omega) (by omega)
        data1 (dataPix + 3 * width) n1 pY prevRow hwk1
      refine ⟨data', n', pY', pr', ?_, key data' hq hfr⟩
      simp only [initRows, hrow1]
      rw [hres, hend]
    | some prev =>
      obtain ⟨adv, hadv, hwk1⟩ := hwalk prev rfl k ⟨hk, hkw⟩ pY prevRow hwk
      obtain ⟨data', n', pY', pr', hres, hq, hfr⟩ := ih (k + 1) (by omega) (by omega)
        data1 (dataPix + 3 * width) n1 (if adv then pY + 1 else pY)
        (if adv then prevRow + prev.width * prev.components else prevRow) hwk1
      refine ⟨data', n', pY', pr', ?_, key data' hq hfr⟩
      simp only [initRows, hrow1, hadv]
      rw [hres, hend]

/-! ## The field invariant after `initialiseLevel` -/

theorem walkAdvances_some (x prevStep p prevSize : Int) (h : prevStep ≠ 0) :
    ∃ adv, walkAdvances x prevStep p prevSize = some adv := by
  unfold walkAdvances cMod
  rw [if_neg h]
  exact ⟨_, rfl⟩

/-- A candidate in bounds scored on an unset slot is installed, with a cost that
is not negative. -/
theorem score_unset_slot (xs ys x y : Int) (imgSrc imgTrg : SimpleImage) (patchSize : Int)
    (best : Best) (hb : best.cost < 0) (hs : imgSrc.valid xs ys = true)
    (ht : imgTrg.valid x y = true) (hp : 1 ≤ patchSize) :
    ∃ nc, 0 ≤ nc ∧ score xs ys x y imgSrc imgTrg patchSize best
      = some (candidateSlot xs ys x y nc) := by
  obtain ⟨nc, hc, hnc⟩ := candidateCost_defined xs ys x y imgSrc imgTrg patchSize hs ht hp
  refine ⟨nc, hnc, ?_⟩
  rw [score_eq_of_cost _ _ _ _ _ _ _ best nc hs hc, if_pos (Or.inl hb)]

/-- The slot that `initialiseLevel` gives a pixel of the target has the slot
property, whatever is read from the previous field. -/
theorem initPixel_slotOk (rand : Nat → Int) (imgSrc imgTrg : SimpleImage)
    (imgPrev : Option SimpleImage) (patchSize x y : Int) (n : Nat) (prevCell : Int)
    (hsw : 1 ≤ imgSrc.width) (hsh : 1 ≤ imgSrc.height) (hp : 1 ≤ patchSize)
    (hrand : ∀ k, 0 ≤ rand k) (ht : imgTrg.valid x y = true) :
    ∃ b, initPixel rand imgSrc imgTrg imgPrev patchSize x y n prevCell = some b
      ∧ slotOk imgSrc x y b := by
  obtain ⟨r0, h0, h0a, h0b⟩ := cMod_of_pos (rand n) imgSrc.width (hrand n) hsw
  obtain ⟨r1, h1, h1a, h1b⟩ := cMod_of_pos (rand (n + 1)) imgSrc.height (hrand (n + 1)) hsh
  have hx : (x : ℚ) + ((r0 - x : Int) : ℚ) = ((r0 : Int) : ℚ) := by push_cast; ring
  have hy : (y : ℚ) + ((r1 - y : Int) : ℚ) = ((r1 : Int) : ℚ) := by push_cast; ring
  have hv : imgSrc.valid r0 r1 = true := (valid_iff _ _ _).mpr ⟨h0a, h0b, h1a, h1b⟩
  obtain ⟨nc, hnc, hsc⟩ := score_unset_slot r0 r1 x y imgSrc imgTrg patchSize
    ⟨((r0 - x : Int) : ℚ), ((r1 - y : Int) : ℚ), -1⟩ (by norm_num) hv ht hp
  have hok := slotOk_candidateSlot imgSrc r0 r1 x y nc hnc hv
  cases imgPrev with
  | none =>
    refine ⟨_, ?_, hok⟩
    simp only [initPixel, h0, h1, hx, hy, cTrunc_intCast, hsc]
  | some prev =>
    obtain ⟨b2, hb2, hok2⟩ := score_slotOk imgSrc imgTrg patchSize x y hp ht
      (candidateSlot r0 r1 x y nc) (cTrunc ((x : ℚ) + prev.data prevCell))
      (cTrunc ((y : ℚ) + prev.data (prevCell + 1))) hok
    refine ⟨b2, ?_, hok2⟩
    simp only [initPixel, h0, h1, hx, hy, cTrunc_intCast, hsc]
    exact hb2

/-- The loops of `initialiseLevel` return and give every pixel of the target a
slot with the slot property, when the steps over a previous field are not
zero. -/
theorem initRows_slotOk (rand : Nat → Int) (fresh : Int → ℚ) (n : Nat)
    (imgSrc imgTrg : SimpleImage) (imgPrev : Option SimpleImage)
    (patchSize prevStepX prevStepY : Int)
    (hsw : 1 ≤ imgSrc.width) (hsh : 1 ≤ imgSrc.height) (htw : 0 ≤ imgTrg.width)
    (hth : 0 ≤ imgTrg.height) (hp : 1 ≤ patchSize) (hrand : ∀ k, 0 ≤ rand k)
    (hstep : imgPrev ≠ none → prevStepX ≠ 0 ∧ prevStepY ≠ 0) :
    ∃ data' dataPix' n' pY' prevRow',
      initRows rand imgSrc imgTrg imgPrev patchSize prevStepX prevStepY imgTrg.width
          (intRange 0 imgTrg.height) (fresh, 0, n, 0, 0)
        = some (data', dataPix', n', pY', prevRow')
      ∧ ∀ x y : Int, imgTrg.valid x y = true →
          slotOk imgSrc x y (readBest data' ((y * imgTrg.width + x) * 3)) := by
  have hrow : ∀ y : Int, (0 ≤ y ∧ y < imgTrg.height) →
      ∀ (pY prevRow : Int) (data : Int → ℚ) (dataPix : Int) (n : Nat), True →
      ∃ data' n' pX' prevCell',
        initRow rand imgSrc imgTrg imgPrev patchSize prevStepX y (intRange 0 imgTrg.width)
            (data, dataPix, n, 0, prevRow)
          = some (data', dataPix + 3 * imgTrg.width, n', pX', prevCell')
        ∧ (∀ x : Int, 0 ≤ x → x < imgTrg.width →
            slotOk imgSrc x y (readBest data' (dataPix + 3 * x)))
        ∧ (∀ i : Int, i < dataPix ∨ dataPix + 3 * imgTrg.width ≤ i → data' i = data i) := by
    intro y hy pY prevRow data dataPix n _
    have h := initRow_spec rand imgSrc imgTrg imgPrev patchSize prevStepX y imgTrg.width
      (fun x b => slotOk imgSrc x y b) (fun _ _ _ => True)
      (fun x hx pX prevCell n _ => initPixel_slotOk rand imgSrc imgTrg imgPrev patchSize x y n
        prevCell hsw hsh hp hrand ((valid_iff _ _ _).mpr ⟨hx.1, hx.2, hy.1, hy.2⟩))
      (fun _ _ _ _ _ => trivial)
      (fun prev hprev x _ pX _ _ => by
        obtain ⟨adv, hadv⟩ := walkAdvances_some x prevStepX pX prev.width
          (hstep (by rw [hprev]; exact Option.some_ne_none prev)).1
        exact ⟨adv, hadv, trivial⟩)
      imgTrg.width.toNat 0 (le_refl 0) (by omega) data dataPix n 0 prevRow trivial
    simp only [sub_zero] at h
    exact h
  obtain ⟨data', n', pY', pr', hres, hq, -⟩ := initRows_spec rand imgSrc imgTrg imgPrev patchSize
    prevStepX prevStepY imgTrg.width imgTrg.height htw (fun x y b => slotOk imgSrc x y b)
    (fun _ _ _ => True) hrow (fun _ _ _ _ _ => trivial)
    (fun prev hprev y _ pY _ _ => by
      obtain ⟨adv, hadv⟩ := walkAdvances_some y prevStepY pY prev.height
        (hstep (by rw [hprev]; exact Option.some_ne_none prev)).2
      exact ⟨adv, hadv, trivial⟩)
    imgTrg.height.toNat 0 (le_refl 0) (by omega) fresh 0 n 0 0 trivial
  refine ⟨data', _, n', pY', pr', hres, ?_⟩
  intro x y hv
  have hv' := (valid_iff _ _ _).mp hv
  have := hq x y ⟨hv'.1, hv'.2.1⟩ hv'.2.2.1 hv'.2.2.2
  have e : 0 + 3 * imgTrg.width * (y - 0) + 3 * x = (y * imgTrg.width + x) * 3 := by ring
  rw [e] at this
  exact this

/-- A sweep of `propagateAndSearch` returns and keeps the field invariant. -/
theorem propagateAndSearch_fieldOk (vectOutside : SimpleImage → Int → Int → ℚ × ℚ)
    (rand : Nat → Int) (n : Nat) (f imgSrc imgTrg : SimpleImage)
    (patchSize iterationNum length : Int) (hp : 1 ≤ patchSize) (hrand : ∀ k, 0 ≤ rand k)
    (hf : fieldOk imgSrc imgTrg f) :
    ∃ f' n', propagateAndSearch vectOutside rand n f imgSrc imgTrg patchSize iterationNum length
        = some (f', n')
      ∧ fieldOk imgSrc imgTrg f'
      ∧ ∀ x y : Int, imgTrg.valid x y = true →
          (x, y) ∉ sweepVisits f.width f.height iterationNum length →
          readBest f'.data ((y * f'.width + x) * f'.components)
            = readBest f.data ((y * f.width + x) * f.components) := by
  obtain ⟨hw, hh, hc, hinv⟩ := hf
  obtain ⟨f', n', hres, hw', hh', hc', hinv', hframe⟩ := sweepFull_spec vectOutside rand imgSrc
    imgTrg patchSize f.width f.height (if iterationNum % 2 ≠ 0 then -1 else 1) length
    (fun x y b => slotOk imgSrc x y b)
    (fun x y hx hy b xs ys hb => score_slotOk imgSrc imgTrg patchSize x y hp
      ((valid_iff _ _ _).mpr ⟨hx.1, hw ▸ hx.2, hy.1, hh ▸ hy.2⟩) b xs ys hb)
    (fun x y _ _ b hb => hb.2.2.2) hrand (rasterOrder f.width f.height) 0 f n
    (fun p hp => (mem_rasterOrder _ _ p).mp hp) rfl rfl hc
    (fun x y hx hy => by
      have := hinv x y ((valid_iff _ _ _).mpr ⟨hx.1, hw ▸ hx.2, hy.1, hh ▸ hy.2⟩)
      rw [hc] at this
      exact this)
  refine ⟨f', n', hres, ⟨hw'.trans hw, hh'.trans hh, hc', ?_⟩, ?_⟩
  · intro x y hv
    have hv' := (valid_iff _ _ _).mp hv
    rw [hw', hc']
    exact hinv' x y ⟨hv'.1, hw ▸ hv'.2.1⟩ ⟨hv'.2.2.1, hh ▸ hv'.2.2.2⟩
  · intro x y hv hnot
    have hv' := (valid_iff _ _ _).mp hv
    rw [hw', hc', hc]
    exact hframe x y ⟨hv'.1, hw ▸ hv'.2.1⟩ ⟨hv'.2.2.1, hh ▸ hv'.2.2.2⟩ hnot

/-! ## The claim on the field invariant -/

/-- C17: for source and target images with width and height `≥ 1`, `patchSize ≥ 1`,
a `rand()` that is never negative, any content of the fresh buffer, and no
previous field or one for which the steps `round(width / prevWidth)` and
`round(height / prevHeight)` are not zero, `initialiseLevel` returns a field
with the target's width and height and 3 channels in which every pixel has a
cost `≥ 0` and a whole-numbered vector with `(x + dx, y + dy)` inside the source;
and every sweep of `propagateAndSearch` on a field with these properties
returns a field with these properties, whatever `vect` gives outside the
field. -/
theorem field_invariant (rand : Nat → Int) (fresh : Int → ℚ) (n : Nat)
    (imgSrc imgTrg : SimpleImage) (imgPrev : Option SimpleImage) (patchSize : Int)
    (hsw : 1 ≤ imgSrc.width) (hsh : 1 ≤ imgSrc.height) (htw : 1 ≤ imgTrg.width)
    (hth : 1 ≤ imgTrg.height) (hp : 1 ≤ patchSize) (hrand : ∀ k, 0 ≤ rand k)
    (hprev : ∀ prev, imgPrev = some prev →
      cRound ((imgTrg.width : ℚ) / (prev.width : ℚ)) ≠ 0
        ∧ cRound ((imgTrg.height : ℚ) / (prev.height : ℚ)) ≠ 0) :
    (∃ f n', initialiseLevel rand fresh n imgSrc imgTrg imgPrev patchSize = some (f, n')
        ∧ fieldOk imgSrc imgTrg f)
      ∧ ∀ (vectOutside : SimpleImage → Int → Int → ℚ × ℚ) (f : SimpleImage) (k : Nat)
          (iterationNum length : Int), fieldOk imgSrc imgTrg f →
          ∃ f' k', propagateAndSearch vectOutside rand k f imgSrc imgTrg patchSize iterationNum
              length = some (f', k')
            ∧ fieldOk imgSrc imgTrg f' := by
  constructor
  · cases imgPrev with
    | none =>
      obtain ⟨data', dp, n', pY', pr', hres, hq⟩ := initRows_slotOk rand fresh n imgSrc imgTrg
        none patchSize 0 0 hsw hsh (by omega) (by omega) hp hrand (fun h => absurd rfl h)
      refine ⟨⟨imgTrg.width, imgTrg.height, 3, data'⟩, n', ?_, rfl, rfl, rfl, hq⟩
      simp only [initialiseLevel, hres]
    | some prev =>
      obtain ⟨data', dp, n', pY', pr', hres, hq⟩ := initRows_slotOk rand fresh n imgSrc imgTrg
        (some prev) patchSize (cRound ((imgTrg.width : ℚ) / (prev.width : ℚ)))
        (cRound ((imgTrg.height : ℚ) / (prev.height : ℚ))) hsw hsh (by omega) (by omega) hp
        hrand (fun _ => hprev prev rfl)
      refine ⟨⟨imgTrg.width, imgTrg.height, 3, data'⟩, n', ?_, rfl, rfl, rfl, hq⟩
      simp only [initialiseLevel, hres]
  · intro vectOutside f k iterationNum length hf
    obtain ⟨f', k', hres, hok, -⟩ := propagateAndSearch_fieldOk vectOutside rand k f imgSrc imgTrg
      patchSize iterationNum length hp hrand hf
    exact ⟨f', k', hres, hok⟩

/-- C17, witness: a 2x2 image of zeros as source and target, `patchSize = 3`, a
`rand()` that always gives 7, and a previous field of one pixel (steps 2
and 2). -/
theorem field_invariant_witness :
    (1 : Int) ≤ zeros2x2.width ∧ (1 : Int) ≤ zeros2x2.height ∧ (1 : Int) ≤ 3
      ∧ (∀ k : Nat, (0 : Int) ≤ (fun _ => (7 : Int)) k)
      ∧ cRound ((zeros2x2.width : ℚ) / (zeroField1x1.width : ℚ)) ≠ 0
      ∧ cRound ((zeros2x2.height : ℚ) / (zeroField1x1.height : ℚ)) ≠ 0
      ∧ ∃ f n', initialiseLevel (fun _ => 7) (fun _ => 0) 0 zeros2x2 zeros2x2
          (some zeroField1x1) 3 = some (f, n') ∧ fieldOk zeros2x2 zeros2x2 f :=
  ⟨by decide, by decide, by decide, fun _ => (by decide : (0 : Int) ≤ 7), by decide!, by decide!,
    (field_invariant (fun _ => 7) (fun _ => 0) 0 zeros2x2 zeros2x2 (some zeroField1x1) 3
      (by decide) (by decide) (by decide) (by decide) (by decide)
      (fun _ => (by decide : (0 : Int) ≤ 7))
      (fun prev h => by cases h; exact ⟨by decide!, by decide!⟩)).1⟩

/-! ## The order of the scan -/

theorem rasterOrder_succ (w h : Int) (hh : 0 ≤ h) :
    rasterOrder w (h + 1) = rasterOrder w h ++ (intRange 0 w).map (fun xi => (xi, h)) := by
  unfold rasterOrder
  rw [intRange_snoc 0 (h + 1) (by omega), List.flatMap_append, List.flatMap_singleton]
  simp only [add_sub_cancel_right]

/-- The pixel at the position `k` of the raster order is `(k mod w, k div w)`. -/
theorem rasterOrder_getElem? (w h : Int) (hw : 0 ≤ w) (hh : 0 ≤ h) (k : Nat)
    (hk : (k : Int) < w * h) :
    (rasterOrder w h)[k]? = some ((k : Int) % w, (k : Int) / w) := by
  obtain ⟨H, rfl⟩ := Int.eq_ofNat_of_zero_le hh
  induction H with
  | zero =>
    exfalso
    simp only [Nat.cast_zero, mul_zero] at hk
    omega
  | succ H ih =>
    have hlen : (rasterOrder w (H : Int)).length = H * w.toNat := by
      rw [rasterOrder_length]
      simp
    have hwt : ((w.toNat : Nat) : Int) = w := Int.toNat_of_nonneg hw
    have hprod : (((H * w.toNat : Nat)) : Int) = w * (H : Int) := by
      push_cast
      rw [hwt]
      ring
    rw [Nat.cast_succ, rasterOrder_succ w (H : Int) (by omega)]
    by_cases hlt : (k : Int) < w * (H : Int)
    · have hkl : k < (rasterOrder w (H : Int)).length := by
        rw [hlen]
        have : ((k : Nat) : Int) < ((H * w.toNat : Nat) : Int) := by rw [hprod]; exact hlt
        exact_mod_cast this
      rw [List.getElem?_append_left hkl]
      exact ih (by omega) hlt
    · have hle : (rasterOrder w (H : Int)).length ≤ k := by
        rw [hlen]
        have : ((H * w.toNat : Nat) : Int) ≤ ((k : Nat) : Int) := by rw [hprod]; omega
        exact_mod_cast this
      rw [List.getElem?_append_right hle, hlen, List.getElem?_map]
      have hk2 : (k : Int) < w * (H : Int) + w := by
        have : w * ((H : Int) + 1) = w * (H : Int) + w := by ring
        rw [Nat.cast_succ, this] at hk
        exact hk
      have hj : (((k - H * w.toNat : Nat)) : Int) = (k : Int) - w * (H : Int) := by
        rw [hlen] at hle
        rw [Nat.cast_sub hle, hprod]
      have hjlt : k - H * w.toNat < (w - 0).toNat := by
        have : (((k - H * w.toNat : Nat)) : Int) < ((w.toNat : Nat) : Int) := by
          rw [hj, hwt]; omega
        have h2 : k - H * w.toNat < w.toNat := by exact_mod_cast this
        simpa using h2
      rw [intRange_getElem? 0 w _ hjlt]
      have hwpos : 0 < w := by omega
      have hdm := (Int.ediv_emod_unique (a := (k : Int)) (b := w)
        (r := (k : Int) - w * (H : Int)) (q := (H : Int)) hwpos).mpr
        ⟨by ring, by omega, by omega⟩
      simp only [Option.map_some', zero_add, hj, hdm.1, hdm.2]

/-- A scan that stops after `length > 0` pixels visits the first `length - count`
of the `(xi, yi)` yet to come. -/
theorem visitLoop_take (width height dir length : Int) (hL : 0 < length) :
    ∀ (l : List (Int × Int)) (count : Int), 0 ≤ count → count ≤ length →
      visitLoop width height dir length l count
        = (l.take (length - count).toNat).map
            (fun p => if dir < 0 then (width - 1 - p.1, height - 1 - p.2) else (p.1, p.2)) := by
  intro l
  induction l with
  | nil => intro count _ _; simp [visitLoop]
  | cons p rest ih =>
    obtain ⟨xi, yi⟩ := p
    intro count h0 h1
    by_cases hstop : length ≠ 0 ∧ count = length
    · have : (length - count).toNat = 0 := by omega
      simp only [visitLoop, if_pos hstop, this, List.take_zero, List.map_nil]
    · have : (length - count).toNat = (length - (count + 1)).toNat + 1 := by omega
      simp only [visitLoop, if_neg hstop, this, List.take_succ_cons, List.map_cons]
      rw [ih (count + 1) (by omega) (by omega)]

/-- A scan with `length = 0` visits all the `(xi, yi)` yet to come. -/
theorem visitLoop_all (width height dir : Int) :
    ∀ (l : List (Int × Int)) (count : Int),
      visitLoop width height dir 0 l count
        = l.map (fun p => if dir < 0 then (width - 1 - p.1, height - 1 - p.2) else (p.1, p.2)) := by
  intro l
  induction l with
  | nil => intro count; simp [visitLoop]
  | cons p rest ih =>
    obtain ⟨xi, yi⟩ := p
    intro count
    have hstop : ¬ ((0 : Int) ≠ 0 ∧ count = 0) := fun h => h.1 rfl
    simp only [visitLoop, if_neg hstop, List.map_cons]
    rw [ih (count + 1)]

/-- The pixel with the raster index `w * h - 1 - k` is the mirror image of the
pixel with the raster index `k`. -/
theorem raster_mirror (w h k : Int) (hw : 0 < w) (hk0 : 0 ≤ k) (hk : k < w * h) :
    (w * h - 1 - k) % w = w - 1 - k % w ∧ (w * h - 1 - k) / w = h - 1 - k / w := by
  have h1 := Int.emod_add_ediv k w
  have h2 := Int.emod_nonneg k (by omega : w ≠ 0)
  have h3 := Int.emod_lt_of_pos k hw
  have hdm := (Int.ediv_emod_unique (a := w * h - 1 - k) (b := w)
    (r := w - 1 - k % w) (q := h - 1 - k / w) hw).mpr
    ⟨by linear_combination (-1 : Int) * h1, by omega, by omega⟩
  exact ⟨hdm.2, hdm.1⟩

theorem stepAll_cons (vectOutside : SimpleImage → Int → Int → ℚ × ℚ) (rand : Nat → Int)
    (imgSrc imgTrg : SimpleImage) (patchSize dir x y : Int) (rest : List (Int × Int))
    (f : SimpleImage) (n : Nat) :
    stepAll vectOutside rand imgSrc imgTrg patchSize dir ((x, y) :: rest) (f, n)
      = match pixelStep vectOutside rand imgSrc imgTrg patchSize dir x y f n with
        | none => none
        | some st => stepAll vectOutside rand imgSrc imgTrg patchSize dir rest st := rfl

theorem sweepFull_cons (vectOutside : SimpleImage → Int → Int → ℚ × ℚ) (rand : Nat → Int)
    (imgSrc imgTrg : SimpleImage) (patchSize width height dir length xi yi : Int)
    (rest : List (Int × Int)) (count : Int) (f : SimpleImage) (n : Nat) :
    sweepFull vectOutside rand imgSrc imgTrg patchSize width height dir length
        ((xi, yi) :: rest) count (f, n)
      = if length ≠ 0 ∧ count = length then some (f, n)
        else
          match pixelStep vectOutside rand imgSrc imgTrg patchSize dir
              (if dir < 0 then width - 1 - xi else xi) (if dir < 0 then height - 1 - yi else yi)
              f n with
          | none => none
          | some st =>
            sweepFull vectOutside rand imgSrc imgTrg patchSize width height dir length rest
              (count + 1) st := rfl

/-- The scan of `propagateAndSearch` runs the body on the visited pixels, in
order. -/
theorem sweepFull_eq_stepAll (vectOutside : SimpleImage → Int → Int → ℚ × ℚ) (rand : Nat → Int)
    (imgSrc imgTrg : SimpleImage) (patchSize width height dir length : Int) :
    ∀ (l : List (Int × Int)) (count : Int) (st : SimpleImage × Nat),
      sweepFull vectOutside rand imgSrc imgTrg patchSize width height dir length l count st
        = stepAll vectOutside rand imgSrc imgTrg patchSize dir
            (visitLoop width height dir length l count) st := by
  intro l
  induction l with
  | nil => intro count st; rfl
  | cons p rest ih =>
    obtain ⟨xi, yi⟩ := p
    intro count st
    obtain ⟨f, n⟩ := st
    rw [sweepFull_cons]
    by_cases hstop : length ≠ 0 ∧ count = length
    · rw [visitLoop, if_pos hstop, if_pos hstop]
      rfl
    · rw [visitLoop, if_neg hstop, if_neg hstop]
      by_cases hd : dir < 0
      · rw [if_pos hd, if_pos hd, if_pos hd, stepAll_cons]
        cases pixelStep vectOutside rand imgSrc imgTrg patchSize dir (width - 1 - xi)
            (height - 1 - yi) f n with
        | none => rfl
        | some st1 => exact ih (count + 1) st1
      · rw [if_neg hd, if_neg hd, if_neg hd, stepAll_cons]
        cases pixelStep vectOutside rand imgSrc imgTrg patchSize dir xi yi f n with
        | none => rfl
        | some st1 => exact ih (count + 1) st1

/-- The slot `(0, 0, 0)` of a pixel that is also a pixel of the source has the
slot property. -/
theorem slotOk_zero (imgSrc : SimpleImage) (x y : Int) (hv : imgSrc.valid x y = true) :
    slotOk imgSrc x y ⟨0, 0, 0⟩ := by
  unfold slotOk
  simp only [add_zero, cTrunc_intCast]
  exact ⟨le_refl _, trivial, trivial, hv⟩

/-- The pixel visited at the position `k` of a sweep: the pixel with the raster
index `k` when `iterationNum` is even, and with the raster index
`w * h - 1 - k` when it is odd. -/
theorem sweepVisits_getElem? (w h iterationNum length : Int) (hw : 1 ≤ w) (hh : 1 ≤ h)
    (hL0 : 0 ≤ length) (hL : length < w * h) (k : Nat)
    (hk : (k : Int) < (if length = 0 then w * h else length)) :
    (sweepVisits w h iterationNum length)[k]?
      = some (if iterationNum % 2 = 0 then ((k : Int) % w, (k : Int) / w)
          else ((w * h - 1 - (k : Int)) % w, (w * h - 1 - (k : Int)) / w)) := by
  have hkwh : (k : Int) < w * h := by
    split_ifs at hk <;> omega
  have hr := rasterOrder_getElem? w h (by omega) (by omega) k hkwh
  have hflip : (if (if iterationNum % 2 ≠ 0 then (-1 : Int) else 1) < 0
        then (w - 1 - (k : Int) % w, h - 1 - (k : Int) / w) else ((k : Int) % w, (k : Int) / w))
      = (if iterationNum % 2 = 0 then ((k : Int) % w, (k : Int) / w)
          else ((w * h - 1 - (k : Int)) % w, (w * h - 1 - (k : Int)) / w)) := by
    by_cases hpar : iterationNum % 2 = 0
    · have h1 : ¬ (iterationNum % 2 ≠ 0) := not_not.mpr hpar
      rw [if_neg h1, if_neg (by norm_num), if_pos hpar]
    · have hm := raster_mirror w h (k : Int) (by omega) (by omega) hkwh
      rw [if_pos hpar, if_pos (by norm_num), if_neg hpar, hm.1, hm.2]
  unfold sweepVisits
  simp only
  by_cases hz : length = 0
  · subst hz
    rw [visitLoop_all, List.getElem?_map, hr, Option.map_some']
    exact congrArg some hflip
  · rw [if_neg hz] at hk
    rw [visitLoop_take _ _ _ _ (by omega) _ 0 (le_refl 0) hL0, List.getElem?_map,
      List.getElem?_take_of_lt (by omega), hr, Option.map_some']
    exact congrArg some hflip

/-! ## The claim on the partial sweep and the scan order -/

/-- C15: on a field with the field invariant (the size of the target, 3 channels,
every slot with a cost `≥ 0` and a vector into the source), of width and height
`≥ 1`, with `patchSize ≥ 1`, a `rand()` that is never negative and a length `L`
with `0 ≤ L < w * h`: `propagateAndSearch` runs the body of its scan on the
pixels `sweepVisits`, in order; these are `L` pixels when `L > 0` and all
`w * h` pixels when `L = 0`; the pixel visited at the position `k` is the one
with the raster index `k`, `(k mod w, k div w)`, when `iterationNum` is even and
the one with the raster index `w * h - 1 - k` when it is odd; the call returns,
and the slot `(dx, dy, cost)` of every pixel that is not among the visited ones
is unchanged. -/
theorem sweep_partial_and_order (vectOutside : SimpleImage → Int → Int → ℚ × ℚ)
    (rand : Nat → Int) (n : Nat) (f imgSrc imgTrg : SimpleImage)
    (patchSize iterationNum length : Int) (hp : 1 ≤ patchSize) (hrand : ∀ k, 0 ≤ rand k)
    (hf : fieldOk imgSrc imgTrg f) (hw : 1 ≤ f.width) (hh : 1 ≤ f.height)
    (hL0 : 0 ≤ length) (hL : length < f.width * f.height) :
    propagateAndSearch vectOutside rand n f imgSrc imgTrg patchSize iterationNum length
        = stepAll vectOutside rand imgSrc imgTrg patchSize
            (if iterationNum % 2 ≠ 0 then -1 else 1)
            (sweepVisits f.width f.height iterationNum length) (f, n)
      ∧ ((sweepVisits f.width f.height iterationNum length).length : Int)
          = (if length = 0 then f.width * f.height else length)
      ∧ (∀ k : Nat, (k : Int) < (if length = 0 then f.width * f.height else length) →
          (sweepVisits f.width f.height iterationNum length)[k]?
            = some (if iterationNum % 2 = 0 then ((k : Int) % f.width, (k : Int) / f.width)
                else ((f.width * f.height - 1 - (k : Int)) % f.width,
                  (f.width * f.height - 1 - (k : Int)) / f.width)))
      ∧ ∃ f' n', propagateAndSearch vectOutside rand n f imgSrc imgTrg patchSize iterationNum
            length = some (f', n')
          ∧ ∀ x y : Int, imgTrg.valid x y = true →
              (x, y) ∉ sweepVisits f.width f.height iterationNum length →
              readBest f'.data ((y * f'.width + x) * f'.components)
                = readBest f.data ((y * f.width + x) * f.components) := by
  refine ⟨?_, ?_, ?_, ?_⟩
  · unfold propagateAndSearch sweepVisits
    exact sweepFull_eq_stepAll _ _ _ _ _ _ _ _ _ _ _ _
  · rw [sweepVisits_length]
    have hwt : ((f.width.toNat : Nat) : Int) = f.width := Int.toNat_of_nonneg (by omega)
    have hht : ((f.height.toNat : Nat) : Int) = f.height := Int.toNat_of_nonneg (by omega)
    have hprod : ((f.height.toNat * f.width.toNat : Nat) : Int) = f.width * f.height := by
      push_cast
      rw [hwt, hht]
      ring
    by_cases hz : length = 0
    · rw [if_neg (by omega), if_pos hz, hprod]
    · have hlt : length.toNat < f.height.toNat * f.width.toNat := by
        have : ((length.toNat : Nat) : Int) < ((f.height.toNat * f.width.toNat : Nat) : Int) := by
          rw [hprod, Int.toNat_of_nonneg hL0]
          exact hL
        exact_mod_cast this
      rw [if_pos (by omega), if_neg hz, min_eq_right hlt.le, Int.toNat_of_nonneg hL0]
  · intro k hk
    exact sweepVisits_getElem? f.width f.height iterationNum length hw hh hL0 hL k hk
  · obtain ⟨f', n', hres, -, hframe⟩ := propagateAndSearch_fieldOk vectOutside rand n f imgSrc
      imgTrg patchSize iterationNum length hp hrand hf
    exact ⟨f', n', hres, hframe⟩

/-- C15, witness: the 2x2 field of zero slots for a 2x2 image of zeros as source
and target, `patchSize = 1`, a `rand()` that always gives 7, an odd
`iterationNum` and the length 3: three pixels are visited. -/
theorem sweep_partial_and_order_witness :
    (1 : Int) ≤ 1 ∧ (∀ k : Nat, (0 : Int) ≤ (fun _ => (7 : Int)) k)
      ∧ (1 : Int) ≤ zeroField2x2.width ∧ (1 : Int) ≤ zeroField2x2.height ∧ (0 : Int) ≤ 3
      ∧ (3 : Int) < zeroField2x2.width * zeroField2x2.height
      ∧ ((sweepVisits zeroField2x2.width zeroField2x2.height 1 3).length : Int)
          = (if (3 : Int) = 0 then zeroField2x2.width * zeroField2x2.height else 3) :=
  ⟨by decide, fun _ => (by decide : (0 : Int) ≤ 7), by decide, by decide, by decide, by decide,
    (sweep_partial_and_order (fun _ _ _ => (0, 0)) (fun _ => 7) 0 zeroField2x2 zeros2x2 zeros2x2
      1 1 3 (by decide) (fun _ => (by decide : (0 : Int) ≤ 7))
      ⟨rfl, rfl, rfl, fun x y hv => slotOk_zero zeros2x2 x y hv⟩ (by decide) (by decide)
      (by decide) (by decide)).2.1⟩

/-! ## The self match -/

end PatchMatch
